import Mathlib

/-!
SpellCast: lexer, parser, environment and interpreter

A shallow embedding of `src/lexer.js`, `src/environment.js`, `src/parser.js` and
`src/interpreter.js`, and the properties proved about them.

Conventions of the embedding.

* A JavaScript string is a sequence of UTF-16 code units; it is modelled by a Lean
  `String` (equivalently its `List Char`), one `Char` per code unit, so texts with
  characters outside the Basic Multilingual Plane are outside the model.  `source[i]`,
  `source.length` and `source.slice` are the list operations.
* A `while` loop whose number of iterations is not bounded by the syntax is modelled
  with a fuel argument; the result `Outcome.outOfFuel` means that the fuel ran out.
* A thrown `Error` is a value of an error type with a `message` function which
  rebuilds the text of the JavaScript message.
* Mutable objects are passed and returned explicitly: a call on an `Environment`
  returns the chain as the call leaves it, also when it throws.
* The calls of `console.log`, `console.warn` and `console.error` have no effect on
  what the code returns and are left out.
-/

namespace SpellCast

/-- What a call does: it returns a value, it throws, or (in the model only) the fuel
given to its loops ran out before it did either. -/
inductive Outcome (ε α : Type)
  | ok (a : α)
  | throw (e : ε)
  | outOfFuel
  deriving DecidableEq, Repr

/-! ## Lexer (`src/lexer.js`) -/

/-- The double quote character. -/
def dquote : Char := Char.ofNat 34

/-- The single quote character. -/
def squote : Char := Char.ofNat 39

/-- `isDigit` of the source: the regular expression `/\d/`, the ASCII digits. -/
def isDigit (c : Char) : Bool := decide (48 ≤ c.toNat) && decide (c.toNat ≤ 57)

/-- `isAlpha` of the source: the regular expression `/[a-zA-Z_]/`. -/
def isAlpha (c : Char) : Bool :=
  (decide (97 ≤ c.toNat) && decide (c.toNat ≤ 122)) ||
  (decide (65 ≤ c.toNat) && decide (c.toNat ≤ 90)) || decide (c.toNat = 95)

/-- `isAlnum` of the source. -/
def isAlnum (c : Char) : Bool := isAlpha c || isDigit c

/-- The regular expression `/\s/` of JavaScript: tab, line feed, vertical tab, form
feed, carriage return, space, no-break space, the other Unicode space separators,
the line and paragraph separators and the byte order mark. -/
def isSpace (c : Char) : Bool :=
  (decide (9 ≤ c.toNat) && decide (c.toNat ≤ 13)) || decide (c.toNat = 32) ||
  decide (c.toNat = 160) || decide (c.toNat = 5760) ||
  (decide (8192 ≤ c.toNat) && decide (c.toNat ≤ 8202)) ||
  decide (c.toNat = 8232) || decide (c.toNat = 8233) || decide (c.toNat = 8239) ||
  decide (c.toNat = 8287) || decide (c.toNat = 12288) || decide (c.toNat = 65279)

/-- The characters of the symbol branch, the string the source calls `includes` on. -/
def symbolChars : List Char := "\x7b\x7d()[]=;.,:+-*/".data

/-- The test `symbolChars.includes(c)` of the symbol branch. -/
def isSymbol (c : Char) : Bool := symbolChars.contains c

/-- The first component of a token pair. -/
inductive TokenKind
  | STRING | INTEGER | FLOAT | IDENTIFIER | SYMBOL | EOF
  deriving DecidableEq, Repr

/-- A token, the two-element array `[kind, text]` of the source. -/
structure Token where
  kind : TokenKind
  text : String
  deriving DecidableEq, Repr

/-- The two errors `tokenize` throws, with the position the message reports. -/
inductive LexError
  | unterminatedString (position : Nat)
  | unexpectedCharacter (c : Char) (position : Nat)
  deriving DecidableEq, Repr

/-- The message of the thrown `Error`. -/
def LexError.message : LexError → String
  | .unterminatedString p => "Unterminated string starting at position " ++ toString p
  | .unexpectedCharacter c p =>
    "Unexpected character: " ++ String.mk [squote, c, squote] ++ " at position " ++ toString p

/-- The inner loops `while (i < length && p(source[i])) i += 1`: the index reached
from `i`. -/
def scanWhile (p : Char → Bool) (source : List Char) (i : Nat) : Nat :=
  i + ((source.drop i).takeWhile p).length

/-- The call `source.slice(start, stop)` for `start ≤ stop ≤ source.length`. -/
def slice (source : List Char) (start stop : Nat) : List Char :=
  (source.drop start).take (stop - start)

/-- The token `['EOF', 'EOF']`. -/
def eofToken : Token := ⟨.EOF, "EOF"⟩

/-- The main loop of `tokenize`, one unit of fuel per iteration, at cursor `i` with
`tokens` pushed so far. -/
def tokenizeLoop (source : List Char) : Nat → Nat → List Token →
    Outcome LexError (List Token)
  | 0, _, _ => .outOfFuel
  | fuel + 1, i, tokens =>
    match source[i]? with
    | none => .ok (tokens ++ [eofToken])
    | some c =>
      if isSpace c then
        tokenizeLoop source fuel (i + 1) tokens
      else if c = '#' then
        tokenizeLoop source fuel (scanWhile (fun x => x != '\n') source i) tokens
      else if c = dquote ∨ c = squote then
        let quote := c
        let start := i + 1
        let j := scanWhile (fun x => x != quote) source start
        if source.length ≤ j then
          .throw (.unterminatedString (start - 1))
        else
          tokenizeLoop source fuel (j + 1)
            (tokens ++ [⟨.STRING, String.mk (slice source start j)⟩])
      else if isDigit c then
        let start := i
        let j := scanWhile isDigit source i
        if source[j]? = some '.' then
          if (source[j + 1]?).any isDigit then
            let k := scanWhile isDigit source (j + 1)
            tokenizeLoop source fuel k (tokens ++ [⟨.FLOAT, String.mk (slice source start k)⟩])
          else
            tokenizeLoop source fuel j (tokens ++ [⟨.INTEGER, String.mk (slice source start j)⟩])
        else
          tokenizeLoop source fuel j (tokens ++ [⟨.INTEGER, String.mk (slice source start j)⟩])
      else if isAlpha c then
        let start := i
        let j := scanWhile isAlnum source i
        tokenizeLoop source fuel j (tokens ++ [⟨.IDENTIFIER, String.mk (slice source start j)⟩])
      else if isSymbol c then
        tokenizeLoop source fuel (i + 1) (tokens ++ [⟨.SYMBOL, String.mk [c]⟩])
      else
        .throw (.unexpectedCharacter c i)

/-- `Lexer.tokenize`.  Every iteration of the main loop moves the cursor forward, so
`source.length + 1` iterations are enough (proved below). -/
def tokenize (source : String) : Outcome LexError (List Token) :=
  tokenizeLoop source.data (source.data.length + 1) 0 []

/-- The characters one of the branches of `tokenize` accepts: white space, `#`, the
two quotes, digits, letters and underscore, and the symbol characters. -/
def isValidChar (c : Char) : Bool :=
  isSpace c || c == '#' || c == dquote || c == squote || isDigit c || isAlpha c || isSymbol c

/-- Where a left-to-right reading of a text is: outside comments and strings, in a
comment, or in a string opened by the quote `q`. -/
inductive QuoteState
  | outside
  | comment
  | string (q : Char)
  deriving DecidableEq, Repr

/-- The quotes of a text are paired: read from the given state, every quote that
opens a string (a quote met outside comments and strings) is followed by the same
quote, which closes it; a comment runs from `#` to the end of its line. -/
def quotesPaired : QuoteState → List Char → Bool
  | .outside, [] => true
  | .comment, [] => true
  | .string _, [] => false
  | .outside, c :: rest =>
    if c = '#' then quotesPaired .comment rest
    else if c = dquote ∨ c = squote then quotesPaired (.string c) rest
    else quotesPaired .outside rest
  | .comment, c :: rest =>
    if c = '\n' then quotesPaired .outside rest else quotesPaired .comment rest
  | .string q, c :: rest =>
    if c = q then quotesPaired .outside rest else quotesPaired (.string q) rest

/-! ## Values (the JavaScript values the interpreter computes with) -/

/-- A JavaScript number.  Finite numbers are modelled by rationals with exact
arithmetic: rounding, overflow and the sign of zero are not modelled. -/
inductive JSNumber
  | finite (q : ℚ)
  | nan
  | posInf
  | negInf
  deriving DecidableEq, Repr

/-- A value of the interpreter: what `evaluate` returns and what a scope stores. -/
inductive Value
  | string (s : String)
  | number (n : JSNumber)
  | boolean (b : Bool)
  | null
  deriving DecidableEq, Repr

namespace JSNumber

/-- The sign of a number that is not `NaN`: `-1`, `0` or `1`. -/
def sign : JSNumber → Int
  | finite q => if q < 0 then -1 else if q = 0 then 0 else 1
  | posInf => 1
  | negInf => -1
  | nan => 0

/-- The infinity of a given sign, `NaN` for sign zero. -/
def ofSign (s : Int) : JSNumber :=
  if s = 0 then nan else if 0 < s then posInf else negInf

/-- Unary minus. -/
def neg : JSNumber → JSNumber
  | finite q => finite (-q)
  | nan => nan
  | posInf => negInf
  | negInf => posInf

/-- The operator `+` on numbers. -/
def add : JSNumber → JSNumber → JSNumber
  | nan, _ => nan
  | _, nan => nan
  | finite a, finite b => finite (a + b)
  | finite _, b => b
  | a, finite _ => a
  | posInf, posInf => posInf
  | negInf, negInf => negInf
  | posInf, negInf => nan
  | negInf, posInf => nan

/-- The operator `-` on numbers. -/
def sub (a b : JSNumber) : JSNumber := add a (neg b)

/-- The operator `*` on numbers. -/
def mul : JSNumber → JSNumber → JSNumber
  | nan, _ => nan
  | _, nan => nan
  | finite a, finite b => finite (a * b)
  | a, b => ofSign (sign a * sign b)

/-- The operator `/` on numbers; a zero divisor counts as `+0`. -/
def div : JSNumber → JSNumber → JSNumber
  | nan, _ => nan
  | _, nan => nan
  | finite a, finite b => if b = 0 then ofSign (sign (finite a)) else finite (a / b)
  | finite _, _ => finite 0
  | posInf, finite b => if b < 0 then negInf else posInf
  | negInf, finite b => if b < 0 then posInf else negInf
  | _, _ => nan

/-- The comparison `a < b` on numbers, false when either is `NaN`. -/
def lt : JSNumber → JSNumber → Bool
  | nan, _ => false
  | _, nan => false
  | finite a, finite b => decide (a < b)
  | negInf, negInf => false
  | negInf, _ => true
  | _, negInf => false
  | posInf, _ => false
  | finite _, posInf => true

/-- The test `Number.isInteger`. -/
def isInteger : JSNumber → Bool
  | finite q => decide (q.den = 1)
  | _ => false

end JSNumber

/-- The operator `typeof` on a value. -/
def Value.typeof : Value → String
  | .string _ => "string"
  | .number _ => "number"
  | .boolean _ => "boolean"
  | .null => "object"

/-- The strict equality `===`. -/
def Value.strictEquals : Value → Value → Bool
  | .string a, .string b => decide (a = b)
  | .number a, .number b => decide (a ≠ JSNumber.nan) && decide (a = b)
  | .boolean a, .boolean b => decide (a = b)
  | .null, .null => true
  | _, _ => false

/-- The boolean coercion of a condition (`if (v)`, `while (v)`). -/
def Value.truthy : Value → Bool
  | .string s => decide (s ≠ "")
  | .number n => decide (n ≠ JSNumber.finite 0) && decide (n ≠ JSNumber.nan)
  | .boolean b => b
  | .null => false

/-- What the interpreter leaves to its host: the global `process.stdout.write`, the
injected `inputFn`, and the two conversions between strings and numbers of the
language (`Number(s)` and the text of a number), which the embedding does not fix. -/
structure Host where
  /-- `process.stdout.write(chunk)`: `none` when the chunk is written, `some m` when
  the call throws an error of message `m` (as it does when `process` is not defined,
  or when the chunk is not a string). -/
  stdoutWrite : Value → Option String
  /-- `inputFn(prompt)`: the answer to call number `k` (counted from zero). -/
  inputFn : Nat → String → Value
  /-- `Number(s)` for a string `s`. -/
  stringToNumber : String → JSNumber
  /-- The conversion of a number to a string. -/
  numberToString : JSNumber → String

/-- The abstract operation `ToNumber`. -/
def Host.toNumber (host : Host) : Value → JSNumber
  | .string s => host.stringToNumber s
  | .number n => n
  | .boolean b => if b then .finite 1 else .finite 0
  | .null => .finite 0

/-- The abstract operation `ToString`. -/
def Host.toStr (host : Host) : Value → String
  | .string s => s
  | .number n => host.numberToString n
  | .boolean b => if b then "true" else "false"
  | .null => "null"

/-- The operator `+`: concatenation when either operand is a string, else addition. -/
def Host.jsAdd (host : Host) (a b : Value) : Value :=
  match a, b with
  | .string x, _ => .string (x ++ host.toStr b)
  | _, .string y => .string (host.toStr a ++ y)
  | _, _ => .number ((host.toNumber a).add (host.toNumber b))

/-- The operator `<`: code unit order on two strings, else numeric order. -/
def Host.jsLess (host : Host) (a b : Value) : Bool :=
  match a, b with
  | .string x, .string y => decide (x < y)
  | _, _ => (host.toNumber a).lt (host.toNumber b)

/-! ## Environment (`src/environment.js`) -/

/-- The `Map` of a scope, in insertion order. -/
abbrev Variables := List (String × Value)

/-- `Map.prototype.has`. -/
def Variables.has (vars : Variables) (name : String) : Bool :=
  vars.any (fun kv => kv.1 == name)

/-- `Map.prototype.get` (`none` for `undefined`). -/
def Variables.get (vars : Variables) (name : String) : Option Value :=
  (vars.find? (fun kv => kv.1 == name)).map (fun kv => kv.2)

/-- `Map.prototype.set`: the value of an existing key is replaced in place, a new key
is added at the end. -/
def Variables.set (vars : Variables) (name : String) (value : Value) : Variables :=
  if vars.has name then vars.map (fun kv => if kv.1 == name then (kv.1, value) else kv)
  else vars ++ [(name, value)]

/-- An `Environment` object together with the objects its `parent` references reach:
`root` has `parent === null`. -/
inductive Environment
  | root (vars : Variables)
  | child (vars : Variables) (parent : Environment)
  deriving DecidableEq, Repr

/-- The errors thrown while a program runs. -/
inductive RuntimeError
  | undefinedVariable (name : String)
  | createExpectsIdentifier (typeofName : String)
  | setExpectsIdentifier (typeofName : String)
  | divisionByZero
  | ordRequiresChar
  | chrRequiresInteger
  | nullNode
  | host (message : String)
  deriving DecidableEq, Repr

/-- The message of the thrown `Error`. -/
def RuntimeError.message : RuntimeError → String
  | .undefinedVariable name => "Undefined variable " ++ String.mk [squote] ++ name ++ String.mk [squote]
  | .createExpectsIdentifier t => "CREATE expects an identifier name, got " ++ t
  | .setExpectsIdentifier t => "SET expects an identifier name, got " ++ t
  | .divisionByZero => "Division by zero is forbidden magic!"
  | .ordRequiresChar => "The " ++ String.mk [squote] ++ "ord" ++ String.mk [squote] ++
      " spell requires a single character string."
  | .chrRequiresInteger => "The " ++ String.mk [squote] ++ "chr" ++ String.mk [squote] ++
      " spell requires an integer code."
  | .nullNode => "Cannot read properties of null (reading " ++ String.mk [squote] ++ "type" ++
      String.mk [squote] ++ ")"
  | .host m => m

namespace Environment

/-- The field `variables` (a reserved word of Lean, hence `vars`). -/
def vars : Environment → Variables
  | root vars => vars
  | child vars _ => vars

/-- The field `parent`. -/
def parent : Environment → Option Environment
  | root _ => none
  | child _ p => some p

/-- The same object with another `variables` map. -/
def withVariables (vars : Variables) : Environment → Environment
  | root _ => root vars
  | child _ p => child vars p

/-- The maps of the chain, innermost scope first, global scope last. -/
def scopes : Environment → List Variables
  | root vars => [vars]
  | child vars p => vars :: scopes p

/-- `Environment.define`: set the name in the map of this scope. -/
def define (name : String) (value : Value) (env : Environment) : Environment :=
  env.withVariables (env.vars.set name value)

/-- `Environment.assign`: the result of the call (returned or thrown) and the chain
after it. -/
def assign (name : String) (value : Value) : Environment → Except RuntimeError Unit × Environment
  | root vars =>
    if vars.has name then (.ok (), root (vars.set name value))
    else (.error (.undefinedVariable name), root vars)
  | child vars p =>
    if vars.has name then (.ok (), child (vars.set name value) p)
    else
      let r := assign name value p
      (r.1, child vars r.2)

/-- `Environment.get`. -/
def get (name : String) : Environment → Except RuntimeError Value
  | root vars =>
    match vars.get name with
    | some v => .ok v
    | none => .error (.undefinedVariable name)
  | child vars p =>
    match vars.get name with
    | some v => .ok v
    | none => get name p

/-- `Environment.createChild`. -/
def createChild (env : Environment) : Environment := child [] env

end Environment

/-! ## Abstract syntax and parser (`src/parser.js`) -/

/-- An AST node, the object `\x7b type, ... \x7d` the parser builds.  An element of a
block is `none` when the array holds `null`. -/
inductive Node
  | STRING (value : String)
  | INTEGER (value : JSNumber)
  | FLOAT (value : JSNumber)
  | IDENTIFIER (value : String)
  | CREATE (name value : Node)
  | SET (name value : Node)
  | PRINT (value : Node)
  | ADD (left right : Node)
  | SUBTRACT (left right : Node)
  | MULTIPLY (left right : Node)
  | DIVIDE (left right : Node)
  | EQUAL (left right : Node)
  | NOTEQUAL (left right : Node)
  | GREATER (left right : Node)
  | LESS (left right : Node)
  | INPUT
  | ORD (value : Node)
  | CHR (value : Node)
  | IF (condition : Node) (code : List (Option Node)) (else_ : Option (List (Option Node)))
  | WHILE (condition : Node) (code : List (Option Node))

/-- The errors the parser throws; `undefinedToken` is the `TypeError` of indexing
`peek()` when the cursor is outside the token array. -/
inductive ParseError
  | expectedToken (val : String) (found : Token) (position : Nat)
  | expectedType (kind : TokenKind) (found : Token) (position : Nat)
  | expectedKeyword (keyword : String) (found : Token) (position : Nat)
  | unexpectedAfterIs (text : String)
  | unexpectedPrimary (found : Token)
  | expectedNameAfterNamed
  | expectedNameAfterOf
  | undefinedToken
  deriving DecidableEq, Repr

/-- The text of a token kind. -/
def TokenKind.name : TokenKind → String
  | .STRING => "STRING"
  | .INTEGER => "INTEGER"
  | .FLOAT => "FLOAT"
  | .IDENTIFIER => "IDENTIFIER"
  | .SYMBOL => "SYMBOL"
  | .EOF => "EOF"

/-- The fragment `kind:'text'` of the parser messages. -/
def Token.describe (t : Token) : String :=
  t.kind.name ++ ":" ++ String.mk [squote] ++ t.text ++ String.mk [squote]

/-- The message of the thrown `Error`. -/
def ParseError.message : ParseError → String
  | .expectedToken val t p => "Expected token IDENTIFIER:" ++ String.mk [squote] ++ val ++
      String.mk [squote] ++ " but found " ++ t.describe ++ " at position " ++ toString p
  | .expectedType k t p => "Expected token of type " ++ String.mk [squote] ++ k.name ++
      String.mk [squote] ++ " but found " ++ t.describe ++ " at position " ++ toString p
  | .expectedKeyword k t p => "Expected keyword " ++ String.mk [squote] ++ k ++
      String.mk [squote] ++ " but found " ++ t.describe ++ " at position " ++ toString p
  | .unexpectedAfterIs text => "Unexpected token after " ++ String.mk [squote] ++ "is" ++
      String.mk [squote] ++ ": " ++ text
  | .unexpectedPrimary t => "Unexpected token type " ++ String.mk [squote] ++ t.kind.name ++
      String.mk [squote] ++ " with value " ++ String.mk [squote] ++ t.text ++ String.mk [squote] ++
      " when parsing primary expression."
  | .expectedNameAfterNamed => "Expected identifier for spell name after " ++
      String.mk [squote] ++ "named" ++ String.mk [squote]
  | .expectedNameAfterOf => "Expected identifier for spell name after " ++
      String.mk [squote] ++ "of" ++ String.mk [squote]
  | .undefinedToken => "Cannot read properties of undefined (reading " ++
      String.mk [squote] ++ "0" ++ String.mk [squote] ++ ")"

/-- Sequencing of calls: the next call runs when the previous one returned. -/
def Outcome.bind {ε α β : Type} : Outcome ε α → (α → Outcome ε β) → Outcome ε β
  | .ok a, f => f a
  | .throw e, _ => .throw e
  | .outOfFuel, _ => .outOfFuel

instance {ε : Type} : Monad (Outcome ε) where
  pure := Outcome.ok
  bind := Outcome.bind

/-- The value of a run of decimal digits. -/
def digitsValue (ds : List Char) : Nat :=
  ds.foldl (fun n c => 10 * n + (c.toNat - 48)) 0

/-- The call `parseInt(text, 10)`: leading white space, an optional sign, then the
longest run of digits; `NaN` when there is no digit. -/
def parseInt (text : String) : JSNumber :=
  let cs := text.data.dropWhile isSpace
  let negative := cs.head? = some '-'
  let cs := if cs.head? = some '-' ∨ cs.head? = some '+' then cs.drop 1 else cs
  let ds := cs.takeWhile isDigit
  if ds = [] then .nan
  else if negative then .finite (-(digitsValue ds : ℚ)) else .finite (digitsValue ds : ℚ)

/-- The optional exponent part of a decimal literal: `e` or `E`, an optional sign and
at least one digit.  The result is the exponent, zero when there is no such part. -/
def exponentPart (cs : List Char) : Int :=
  match cs with
  | e :: rest =>
    if e = 'e' ∨ e = 'E' then
      let negative := rest.head? = some '-'
      let rest := if rest.head? = some '-' ∨ rest.head? = some '+' then rest.drop 1 else rest
      let ds := rest.takeWhile isDigit
      if ds = [] then 0 else if negative then -(digitsValue ds : Int) else (digitsValue ds : Int)
    else 0
  | [] => 0

/-- The call `parseFloat(text)`: leading white space, an optional sign, then the
longest prefix that is `Infinity` or a decimal literal; `NaN` when there is none. -/
def parseFloat (text : String) : JSNumber :=
  let cs := text.data.dropWhile isSpace
  let negative := cs.head? = some '-'
  let cs := if cs.head? = some '-' ∨ cs.head? = some '+' then cs.drop 1 else cs
  if "Infinity".data.isPrefixOf cs then (if negative then .negInf else .posInf)
  else
    let ip := cs.takeWhile isDigit
    let r1 := cs.dropWhile isDigit
    let fp := if r1.head? = some '.' then (r1.drop 1).takeWhile isDigit else []
    let r2 := if r1.head? = some '.' then (r1.drop 1).dropWhile isDigit else r1
    if ip = [] ∧ fp = [] then .nan
    else
      let mantissa : ℚ := (digitsValue (ip ++ fp) : ℚ) / (10 ^ fp.length : ℚ)
      let e := exponentPart r2
      let magnitude : ℚ :=
        if 0 ≤ e then mantissa * (10 ^ e.toNat : ℚ) else mantissa / (10 ^ (-e).toNat : ℚ)
      if negative then .finite (-magnitude) else .finite magnitude

/-- The call `keywordString.split(" ")`. -/
def splitSpaces (keywordString : String) : List String :=
  (keywordString.data.foldr
    (fun c acc => if c = ' ' then [] :: acc else
      match acc with
      | [] => [[c]]
      | w :: ws => (c :: w) :: ws) [[]]).map String.mk

/-- The property `.type` of a token.  A token is the array `[kind, text]`, which has
no such property: the value is `undefined`. -/
def Token.type (_ : Token) : Option String := none

namespace Parser

/-- `Parser.peek`: `this.tokens[this.current]`, `none` for `undefined`. -/
def peek (tokens : List Token) (current : Nat) : Option Token := tokens[current]?

/-- `Parser.isAtEnd`: `this.current >= this.tokens.length || this.peek().type === 'EOF'`. -/
def isAtEnd (tokens : List Token) (current : Nat) : Bool :=
  decide (tokens.length ≤ current) ||
    (match peek tokens current with
     | some t => t.type == some "EOF"
     | none => false)

/-- `Parser.previous`: `this.tokens[this.current - 1]`. -/
def previous (tokens : List Token) (current : Nat) : Option Token :=
  if current = 0 then none else tokens[current - 1]?

/-- `Parser.advance`: the token returned and the new cursor. -/
def advance (tokens : List Token) (current : Nat) : Option Token × Nat :=
  let next := if isAtEnd tokens current then current else current + 1
  (previous tokens next, next)

/-- `Parser.check`. -/
def check (tokens : List Token) (current : Nat) (kind : TokenKind) : Bool :=
  if isAtEnd tokens current then false
  else match peek tokens current with
    | some t => t.kind == kind
    | none => false

/-- `Parser.checkVal`. -/
def checkVal (tokens : List Token) (current : Nat) (val : String) : Bool :=
  if isAtEnd tokens current then false
  else match peek tokens current with
    | some t => t.kind == TokenKind.IDENTIFIER && t.text == val
    | none => false

/-- `Parser.match` (a reserved word of Lean, hence `matchToken`): the new cursor. -/
def matchToken (tokens : List Token) (current : Nat) (kind : TokenKind)
    (val : Option String) : Outcome ParseError Nat :=
  match val with
  | some v =>
    if checkVal tokens current v then .ok (advance tokens current).2
    else match peek tokens current with
      | some t => .throw (.expectedToken v t current)
      | none => .throw .undefinedToken
  | none =>
    if check tokens current kind then .ok (advance tokens current).2
    else match peek tokens current with
      | some t => .throw (.expectedType kind t current)
      | none => .throw .undefinedToken

/-- The loop of `Parser.consumeKeywords` over the split keywords. -/
def consumeKeywordList (tokens : List Token) : List String → Nat → Outcome ParseError Nat
  | [], current => .ok current
  | keyword :: rest, current =>
    if checkVal tokens current keyword then
      consumeKeywordList tokens rest (advance tokens current).2
    else match peek tokens current with
      | some t => .throw (.expectedKeyword keyword t current)
      | none => .throw .undefinedToken

/-- `Parser.consumeKeywords`. -/
def consumeKeywords (tokens : List Token) (keywordString : String) (current : Nat) :
    Outcome ParseError Nat :=
  consumeKeywordList tokens (splitSpaces keywordString) current

/-- The literal branches of `parsePrimary`: the node built from `this.advance()[1]`. -/
def literal (tokens : List Token) (current : Nat) (build : String → Node) :
    Outcome ParseError (Node × Nat) :=
  match advance tokens current with
  | (some t, next) => .ok (build t.text, next)
  | (none, _) => .throw .undefinedToken

/-- `Parser.parsePrimary`; `parseExpression` and the placeholder levels above it only
call `parsePrimary`, so the recursive calls are to `parsePrimary` itself.  One unit of
fuel per nested call. -/
def parsePrimary (tokens : List Token) : Nat → Nat → Outcome ParseError (Node × Nat)
  | 0, _ => .outOfFuel
  | fuel + 1, current =>
    if check tokens current .STRING then
      literal tokens current (fun text => .STRING text)
    else if check tokens current .INTEGER then
      literal tokens current (fun text => .INTEGER (parseInt text))
    else if check tokens current .FLOAT then
      literal tokens current (fun text => .FLOAT (parseFloat text))
    else if checkVal tokens current "combine" then do
      let c ← consumeKeywords tokens "the power of" (advance tokens current).2
      let (left, c) ← parsePrimary tokens fuel c
      let c ← consumeKeywords tokens "and" c
      let (right, c) ← parsePrimary tokens fuel c
      pure (.ADD left right, c)
    else if checkVal tokens current "remove" then do
      let c ← consumeKeywords tokens "the power of" (advance tokens current).2
      let (right, c) ← parsePrimary tokens fuel c
      let c ← consumeKeywords tokens "from" c
      let (left, c) ← parsePrimary tokens fuel c
      pure (.SUBTRACT left right, c)
    else if checkVal tokens current "duplicate" then do
      let c ← consumeKeywords tokens "the power of" (advance tokens current).2
      let (left, c) ← parsePrimary tokens fuel c
      let (right, c) ← parsePrimary tokens fuel c
      let c ← consumeKeywords tokens "times" c
      pure (.MULTIPLY left right, c)
    else if checkVal tokens current "split" then do
      let c ← consumeKeywords tokens "the power of" (advance tokens current).2
      let (left, c) ← parsePrimary tokens fuel c
      let (right, c) ← parsePrimary tokens fuel c
      let c ← consumeKeywords tokens "times" c
      pure (.DIVIDE left right, c)
    else if checkVal tokens current "find" then do
      let c ← consumeKeywords tokens "the source of the messages" (advance tokens current).2
      pure (.INPUT, c)
    else if checkVal tokens current "may" then do
      let c ← consumeKeywords tokens "the sorcerers cast their spells on" (advance tokens current).2
      let (ordChar, c) ← parsePrimary tokens fuel c
      pure (.ORD ordChar, c)
    else if checkVal tokens current "get" then do
      let c ← consumeKeywords tokens "the character from the spell" (advance tokens current).2
      let (chrChar, c) ← parsePrimary tokens fuel c
      pure (.CHR chrChar, c)
    else if checkVal tokens current "is" then do
      let (left, c) ← parsePrimary tokens fuel (advance tokens current).2
      if checkVal tokens c "equal" then do
        let c ← consumeKeywords tokens "to" (advance tokens c).2
        let (right, c) ← parsePrimary tokens fuel c
        pure (.EQUAL left right, c)
      else if checkVal tokens c "not" then do
        let c ← consumeKeywords tokens "equal to" (advance tokens c).2
        let (right, c) ← parsePrimary tokens fuel c
        pure (.NOTEQUAL left right, c)
      else if checkVal tokens c "greater" then do
        let c ← consumeKeywords tokens "than" (advance tokens c).2
        let (right, c) ← parsePrimary tokens fuel c
        pure (.GREATER left right, c)
      else if checkVal tokens c "less" then do
        let c ← consumeKeywords tokens "than" (advance tokens c).2
        let (right, c) ← parsePrimary tokens fuel c
        pure (.LESS left right, c)
      else match peek tokens c with
        | some t => .throw (.unexpectedAfterIs t.text)
        | none => .throw .undefinedToken
    else if check tokens current .IDENTIFIER then
      literal tokens current (fun text => .IDENTIFIER text)
    else match peek tokens current with
      | some t => .throw (.unexpectedPrimary t)
      | none => .throw .undefinedToken

/-- `Parser.parseExpression`. -/
def parseExpression (tokens : List Token) (fuel : Nat) (current : Nat) :
    Outcome ParseError (Node × Nat) :=
  parsePrimary tokens fuel current

/-- `Parser.parsePrintStatement`. -/
def parsePrintStatement (tokens : List Token) (fuel : Nat) (current : Nat) :
    Outcome ParseError (Node × Nat) := do
  let c ← consumeKeywords tokens "shout the many cries of" current
  let (value, c) ← parseExpression tokens fuel c
  pure (.PRINT value, c)

/-- `Parser.parseCreateStatement`. -/
def parseCreateStatement (tokens : List Token) (fuel : Nat) (current : Nat) :
    Outcome ParseError (Node × Nat) := do
  let c ← consumeKeywords tokens "create a new spell named" current
  if check tokens c .IDENTIFIER then do
    let (name, c) ← parseExpression tokens fuel c
    let c ← consumeKeywords tokens "with the power of" c
    let (value, c) ← parseExpression tokens fuel c
    pure (.CREATE name value, c)
  else .throw .expectedNameAfterNamed

/-- `Parser.parseSetStatement`. -/
def parseSetStatement (tokens : List Token) (fuel : Nat) (current : Nat) :
    Outcome ParseError (Node × Nat) := do
  let c ← consumeKeywords tokens "set the power of" current
  if check tokens c .IDENTIFIER then do
    let (name, c) ← parseExpression tokens fuel c
    let c ← consumeKeywords tokens "to" c
    let (value, c) ← parseExpression tokens fuel c
    pure (.SET name value, c)
  else .throw .expectedNameAfterOf

mutual

/-- `Parser.parseStatement`: `none` is the `null` it returns at the end of the tokens
and on a token that starts no statement. -/
def parseStatement (tokens : List Token) : Nat → Nat → Outcome ParseError (Option Node × Nat)
  | 0, _ => .outOfFuel
  | fuel + 1, current =>
    if isAtEnd tokens current then .ok (none, current)
    else if checkVal tokens current "shout" then do
      let (node, c) ← parsePrintStatement tokens fuel current
      pure (some node, c)
    else if checkVal tokens current "create" then do
      let (node, c) ← parseCreateStatement tokens fuel current
      pure (some node, c)
    else if checkVal tokens current "cast" then do
      let (node, c) ← parseIfStatement tokens fuel current
      pure (some node, c)
    else if checkVal tokens current "set" then do
      let (node, c) ← parseSetStatement tokens fuel current
      pure (some node, c)
    else if checkVal tokens current "whilst" then do
      let (node, c) ← parseWhileStatement tokens fuel current
      pure (some node, c)
    else .ok (none, current)
termination_by structural fuel _ => fuel

/-- The `while` loop of `Parser.parseBlock`, with the `block` built so far; one unit
of fuel per iteration. -/
def parseBlockLoop (tokens : List Token) :
    Nat → Nat → List (Option Node) → Outcome ParseError (List (Option Node) × Nat)
  | 0, _, _ => .outOfFuel
  | fuel + 1, current, block =>
    if !isAtEnd tokens current && !checkVal tokens current "done" &&
        !checkVal tokens current "else" then do
      let (statement, c) ← parseStatement tokens fuel current
      parseBlockLoop tokens fuel c (block ++ [statement])
    else .ok (block, current)
termination_by structural fuel _ _ => fuel

/-- `Parser.parseBlock`. -/
def parseBlock (tokens : List Token) :
    Nat → Nat → Outcome ParseError (List (Option Node) × Nat)
  | 0, _ => .outOfFuel
  | fuel + 1, current => do
    let c ← consumeKeywords tokens "do" current
    parseBlockLoop tokens fuel c []
termination_by structural fuel _ => fuel

/-- `Parser.parseIfStatement`. -/
def parseIfStatement (tokens : List Token) : Nat → Nat → Outcome ParseError (Node × Nat)
  | 0, _ => .outOfFuel
  | fuel + 1, current => do
    let c ← consumeKeywords tokens "cast only if the spell" current
    let (condition, c) ← parseExpression tokens fuel c
    let c ← consumeKeywords tokens "is true" c
    let (thenBranch, c) ← parseBlock tokens fuel c
    if checkVal tokens c "else" then do
      let (elseBranch, c) ← parseBlock tokens fuel (advance tokens c).2
      let c ← matchToken tokens c .IDENTIFIER (some "done")
      pure (.IF condition thenBranch (some elseBranch), c)
    else do
      let c ← matchToken tokens c .IDENTIFIER (some "done")
      pure (.IF condition thenBranch none, c)
termination_by structural fuel _ => fuel

/-- `Parser.parseWhileStatement`. -/
def parseWhileStatement (tokens : List Token) : Nat → Nat → Outcome ParseError (Node × Nat)
  | 0, _ => .outOfFuel
  | fuel + 1, current => do
    let c ← consumeKeywords tokens "whilst the spell" current
    let (condition, c) ← parseExpression tokens fuel c
    let c ← consumeKeywords tokens "is true" c
    let (body, c) ← parseBlock tokens fuel c
    let c ← matchToken tokens c .IDENTIFIER (some "done")
    pure (.WHILE condition body, c)
termination_by structural fuel _ => fuel

end

/-- The loop of `Parser.parse`, with the `program` built so far; one unit of fuel per
iteration. -/
def parseLoop (tokens : List Token) : Nat → Nat → List Node → Outcome ParseError (List Node)
  | 0, _, _ => .outOfFuel
  | fuel + 1, current, program =>
    if !isAtEnd tokens current then
      match parseStatement tokens fuel current with
      | .ok (some statement, c) => parseLoop tokens fuel c (program ++ [statement])
      | .ok (none, _) => .ok program
      | .throw e => .throw e
      | .outOfFuel => .outOfFuel
    else .ok program

/-- `Parser.parse` on a parser constructed from `tokens`. -/
def parse (fuel : Nat) (tokens : List Token) : Outcome ParseError (List Node) :=
  parseLoop tokens fuel 0 []

end Parser

/-! ## Interpreter (`src/interpreter.js`) -/

/-- What a run has done to the outside: the chunks written by `process.stdout.write`,
the calls `outputFn(message, severity)` (severity `none` when the call passes one
argument) and the prompts passed to `inputFn`, each in order. -/
structure World where
  stdout : List Value
  outputCalls : List (String × Option String)
  inputCalls : List String
  deriving DecidableEq, Repr

/-- The world before a run. -/
def World.initial : World := ⟨[], [], []⟩

/-- The result of an evaluation: the value returned or the error thrown, with the
environment chain and the world as the call leaves them. -/
abbrev Eval := Outcome (RuntimeError × Environment × World) (Value × Environment × World)

/-- The expression `node.name.value` of the CREATE and SET cases, as far as the code
looks at it: the string when it is one, else its `typeof`. -/
def Node.nameValue : Node → Except String String
  | .STRING value => .ok value
  | .IDENTIFIER value => .ok value
  | .INTEGER _ => .error "number"
  | .FLOAT _ => .error "number"
  | .CREATE _ _ => .error "object"
  | .SET _ _ => .error "object"
  | .PRINT _ => .error "object"
  | .ORD _ => .error "object"
  | .CHR _ => .error "object"
  | _ => .error "undefined"

/-- The world an evaluation leaves, when it returns or throws. -/
def Eval.world? : Eval → Option World
  | .ok (_, _, world) => some world
  | .throw (_, _, world) => some world
  | .outOfFuel => none

/-- An evaluation function never calls `outputFn`. -/
def KeepsOutput (ev : Node → Environment → World → Eval) : Prop :=
  ∀ node env world w, (ev node env world).world? = some w → w.outputCalls = world.outputCalls

/-- The prompt of the INPUT case. -/
def inputPrompt : String := "Enter the source of the messages:"

/-- The ORD case once its operand is evaluated: `charCodeAt(0)` of a string of length
one. -/
def ordOf : Value → Option Value
  | .string s =>
    match s.data with
    | [c] => if c.toNat < 65536 then some (.number (.finite (c.toNat : ℚ))) else none
    | _ => none
  | _ => none

/-- The CHR case once its operand is evaluated: `String.fromCharCode` of an integer,
which keeps the code modulo `2 ^ 16`. -/
def chrOf : Value → Option Value
  | .number n =>
    if n.isInteger then
      match n with
      | .finite q => some (.string (String.mk [Char.ofNat (q.num % 65536).toNat]))
      | _ => none
    else none
  | _ => none

/-- `Interpreter.executeBlock` after the child scope is created: the `for` loop over
the statements, which `evaluate` runs in `blockEnv`. -/
def executeStatements (evaluate : Node → Environment → World → Eval) :
    List (Option Node) → Environment → World → Eval
  | [], blockEnv, world => .ok (.null, blockEnv, world)
  | none :: _, blockEnv, world => .throw (.nullNode, blockEnv, world)
  | some statement :: rest, blockEnv, world =>
    match evaluate statement blockEnv world with
    | .ok (_, blockEnv, world) => executeStatements evaluate rest blockEnv world
    | other => other

/-- The chain a block leaves to its caller: the child scope is dropped. -/
def leaveBlock (parentEnv : Environment) : Eval → Eval
  | .ok (v, blockEnv, world) => .ok (v, (blockEnv.parent).getD parentEnv, world)
  | .throw (e, blockEnv, world) => .throw (e, (blockEnv.parent).getD parentEnv, world)
  | .outOfFuel => .outOfFuel

/-- `Interpreter.executeBlock`, given `evaluate`. -/
def executeBlock (evaluate : Node → Environment → World → Eval)
    (statements : List (Option Node)) (parentEnv : Environment) (world : World) : Eval :=
  leaveBlock parentEnv (executeStatements evaluate statements parentEnv.createChild world)

/-- A binary node whose operands are evaluated left first. -/
def evalBinary (evaluate : Node → Environment → World → Eval) (left right : Node)
    (env : Environment) (world : World) (op : Value → Value → Value) : Eval :=
  match evaluate left env world with
  | .ok (l, env, world) =>
    match evaluate right env world with
    | .ok (r, env, world) => .ok (op l r, env, world)
    | other => other
  | other => other

/-- `Interpreter.evaluate`.  One unit of fuel per nested call and per iteration of a
WHILE loop. -/
def evaluate (host : Host) : Nat → Node → Environment → World → Eval
  | 0, _, _, _ => .outOfFuel
  | fuel + 1, node, env, world =>
    match node with
    | .STRING value => .ok (.string value, env, world)
    | .INTEGER value => .ok (.number value, env, world)
    | .FLOAT value => .ok (.number value, env, world)
    | .IDENTIFIER value =>
      match env.get value with
      | .ok v => .ok (v, env, world)
      | .error e => .throw (e, env, world)
    | .CREATE name value =>
      match evaluate host fuel value env world with
      | .ok (createValue, env, world) =>
        match name.nameValue with
        | .ok varNameCreate => .ok (.null, env.define varNameCreate createValue, world)
        | .error t => .throw (.createExpectsIdentifier t, env, world)
      | other => other
    | .SET name value =>
      match evaluate host fuel value env world with
      | .ok (setValue, env, world) =>
        match name.nameValue with
        | .ok varNameSet =>
          match env.assign varNameSet setValue with
          | (.ok _, env) => .ok (.null, env, world)
          | (.error e, env) => .throw (e, env, world)
        | .error t => .throw (.setExpectsIdentifier t, env, world)
      | other => other
    | .PRINT value =>
      match evaluate host fuel value env world with
      | .ok (printValue, env, world) =>
        match host.stdoutWrite printValue with
        | none => .ok (.null, env, { world with stdout := world.stdout ++ [printValue] })
        | some m => .throw (.host m, env, world)
      | other => other
    | .ADD left right =>
      evalBinary (evaluate host fuel) left right env world host.jsAdd
    | .SUBTRACT left right =>
      evalBinary (evaluate host fuel) left right env world
        (fun l r => .number ((host.toNumber l).sub (host.toNumber r)))
    | .MULTIPLY left right =>
      evalBinary (evaluate host fuel) left right env world
        (fun l r => .number ((host.toNumber l).mul (host.toNumber r)))
    | .DIVIDE left right =>
      match evaluate host fuel right env world with
      | .ok (rightDiv, env, world) =>
        if rightDiv.strictEquals (.number (.finite 0)) then .throw (.divisionByZero, env, world)
        else
          match evaluate host fuel left env world with
          | .ok (l, env, world) =>
            .ok (.number ((host.toNumber l).div (host.toNumber rightDiv)), env, world)
          | other => other
      | other => other
    | .EQUAL left right =>
      evalBinary (evaluate host fuel) left right env world
        (fun l r => .boolean (l.strictEquals r))
    | .NOTEQUAL left right =>
      evalBinary (evaluate host fuel) left right env world
        (fun l r => .boolean (!l.strictEquals r))
    | .GREATER left right =>
      evalBinary (evaluate host fuel) left right env world
        (fun l r => .boolean (host.jsLess r l))
    | .LESS left right =>
      evalBinary (evaluate host fuel) left right env world
        (fun l r => .boolean (host.jsLess l r))
    | .INPUT =>
      let inputVal := host.inputFn world.inputCalls.length inputPrompt
      let world := { world with inputCalls := world.inputCalls ++ [inputPrompt] }
      let numVal := host.toNumber inputVal
      if numVal = .nan then .ok (inputVal, env, world) else .ok (.number numVal, env, world)
    | .ORD value =>
      match evaluate host fuel value env world with
      | .ok (ordStr, env, world) =>
        match ordOf ordStr with
        | some code => .ok (code, env, world)
        | none => .throw (.ordRequiresChar, env, world)
      | other => other
    | .CHR value =>
      match evaluate host fuel value env world with
      | .ok (chrCode, env, world) =>
        match chrOf chrCode with
        | some s => .ok (s, env, world)
        | none => .throw (.chrRequiresInteger, env, world)
      | other => other
    | .IF condition code else_ =>
      match evaluate host fuel condition env world with
      | .ok (c, env, world) =>
        if c.truthy then
          match executeBlock (evaluate host fuel) code env world with
          | .ok (_, env, world) => .ok (.null, env, world)
          | other => other
        else
          match else_ with
          | some block =>
            match executeBlock (evaluate host fuel) block env world with
            | .ok (_, env, world) => .ok (.null, env, world)
            | other => other
          | none => .ok (.null, env, world)
      | other => other
    | .WHILE condition code =>
      match evaluate host fuel condition env world with
      | .ok (c, env, world) =>
        if c.truthy then
          match executeBlock (evaluate host fuel) code env world with
          | .ok (_, env, world) => evaluate host fuel (.WHILE condition code) env world
          | other => other
        else .ok (.null, env, world)
      | other => other

/-- The `for` loop of `Interpreter.run` over the program. -/
def runStatements (host : Host) (fuel : Nat) : List Node → Environment → World → Eval
  | [], env, world => .ok (.null, env, world)
  | statement :: rest, env, world =>
    match evaluate host fuel statement env world with
    | .ok (_, env, world) => runStatements host fuel rest env world
    | other => other

/-- `Interpreter.run` on an interpreter constructed from `program`: the program runs
in a new global scope, and an error it throws is caught and passed to `outputFn` with
the severity `error`.  The result is the global scope and the world at the end,
`none` when the fuel ran out. -/
def run (host : Host) (fuel : Nat) (program : List Node) (world : World) :
    Option (Environment × World) :=
  match runStatements host fuel program (.root []) world with
  | .ok (_, env, world) => some (env, world)
  | .throw (e, env, world) =>
    some (env, { world with
      outputCalls := world.outputCalls ++ [("Runtime Error: " ++ e.message, some "error")] })
  | .outOfFuel => none

/-- The tokens of `whilst the spell 1 is true do`: a block that is opened and never
closed. -/
def unclosedTokens : List Token :=
  [⟨.IDENTIFIER, "whilst"⟩, ⟨.IDENTIFIER, "the"⟩, ⟨.IDENTIFIER, "spell"⟩, ⟨.INTEGER, "1"⟩,
   ⟨.IDENTIFIER, "is"⟩, ⟨.IDENTIFIER, "true"⟩, ⟨.IDENTIFIER, "do"⟩, eofToken]

/-- The tokens of `whilst the spell 1 is true do 5 done`: a block in which a token
starts no statement. -/
def strayTokens : List Token :=
  [⟨.IDENTIFIER, "whilst"⟩, ⟨.IDENTIFIER, "the"⟩, ⟨.IDENTIFIER, "spell"⟩, ⟨.INTEGER, "1"⟩,
   ⟨.IDENTIFIER, "is"⟩, ⟨.IDENTIFIER, "true"⟩, ⟨.IDENTIFIER, "do"⟩, ⟨.INTEGER, "5"⟩,
   ⟨.IDENTIFIER, "done"⟩, eofToken]

/-- The call `process.stdout.write(chunk)` under Node.js: a string is written, a
number, a boolean or `null` makes the call throw a `TypeError`. -/
def nodeStdoutWrite : Value → Option String
  | .string _ => none
  | _ => some ("The " ++ String.mk [dquote] ++ "chunk" ++ String.mk [dquote] ++
      " argument must be of type string or an instance of Buffer, TypedArray, or DataView.")

/-- The host of the examples: Node.js for `process.stdout.write`, an `inputFn` that
answers `null`, and the two conversions on decimal integers (the examples use no
other; elsewhere these two fields model nothing). -/
def exampleHost : Host where
  stdoutWrite := nodeStdoutWrite
  inputFn := fun _ _ => .null
  stringToNumber := fun s => if s.data.all isDigit ∧ s ≠ "" then parseInt s else .nan
  numberToString := fun n =>
    match n with
    | .finite q => toString q.num
    | .nan => "NaN"
    | .posInf => "Infinity"
    | .negInf => "-Infinity"


/-! ## Predicates and examples of the later properties -/

/-- The characters the specification lists for the lexer: space, tab, line feed,
carriage return, `#`, the two quotes, digits, letters and underscore, and the symbol
characters. -/
def isListedChar (c : Char) : Bool :=
  c == ' ' || c == Char.ofNat 9 || c == Char.ofNat 10 || c == Char.ofNat 13 || c == '#' ||
  c == dquote || c == squote || isDigit c || isAlpha c || isSymbol c

/-- The state a left-to-right reading of a text ends in, from the given state (the
states are those of `quotesPaired`). -/
def readQuotes : QuoteState → List Char → QuoteState
  | state, [] => state
  | .outside, c :: rest =>
    if c = '#' then readQuotes .comment rest
    else if c = dquote ∨ c = squote then readQuotes (.string c) rest
    else readQuotes .outside rest
  | .comment, c :: rest =>
    if c = '\n' then readQuotes .outside rest else readQuotes .comment rest
  | .string q, c :: rest =>
    if c = q then readQuotes .outside rest else readQuotes (.string q) rest

/-- The tokens of a phrase of keywords: one IDENTIFIER token per word. -/
def keywordTokens (phrase : String) : List Token :=
  (splitSpaces phrase).map (fun word => ⟨.IDENTIFIER, word⟩)

/-- The identifier texts on which `parsePrimary` starts a keyword expression. -/
def expressionKeywords : List String :=
  ["combine", "remove", "duplicate", "split", "find", "may", "get", "is"]

/-- An expression node, as `parseExpression` builds them: a literal, an identifier,
INPUT, or an operator node over expressions. -/
def Node.isExpression : Node → Bool
  | .STRING _ => true
  | .INTEGER _ => true
  | .FLOAT _ => true
  | .IDENTIFIER _ => true
  | .INPUT => true
  | .ADD left right => left.isExpression && right.isExpression
  | .SUBTRACT left right => left.isExpression && right.isExpression
  | .MULTIPLY left right => left.isExpression && right.isExpression
  | .DIVIDE left right => left.isExpression && right.isExpression
  | .EQUAL left right => left.isExpression && right.isExpression
  | .NOTEQUAL left right => left.isExpression && right.isExpression
  | .GREATER left right => left.isExpression && right.isExpression
  | .LESS left right => left.isExpression && right.isExpression
  | .ORD value => value.isExpression
  | .CHR value => value.isExpression
  | _ => false

/-- A pure expression node: an expression without INPUT. -/
def Node.isPure : Node → Bool
  | .STRING _ => true
  | .INTEGER _ => true
  | .FLOAT _ => true
  | .IDENTIFIER _ => true
  | .ADD left right => left.isPure && right.isPure
  | .SUBTRACT left right => left.isPure && right.isPure
  | .MULTIPLY left right => left.isPure && right.isPure
  | .DIVIDE left right => left.isPure && right.isPure
  | .EQUAL left right => left.isPure && right.isPure
  | .NOTEQUAL left right => left.isPure && right.isPure
  | .GREATER left right => left.isPure && right.isPure
  | .LESS left right => left.isPure && right.isPure
  | .ORD value => value.isPure
  | .CHR value => value.isPure
  | _ => false

/-- The number of operator nodes nested above the deepest literal of an expression
(blocks are not counted). -/
def Node.operatorDepth : Node → Nat
  | .ADD left right => max left.operatorDepth right.operatorDepth + 1
  | .SUBTRACT left right => max left.operatorDepth right.operatorDepth + 1
  | .MULTIPLY left right => max left.operatorDepth right.operatorDepth + 1
  | .DIVIDE left right => max left.operatorDepth right.operatorDepth + 1
  | .EQUAL left right => max left.operatorDepth right.operatorDepth + 1
  | .NOTEQUAL left right => max left.operatorDepth right.operatorDepth + 1
  | .GREATER left right => max left.operatorDepth right.operatorDepth + 1
  | .LESS left right => max left.operatorDepth right.operatorDepth + 1
  | .ORD value => value.operatorDepth + 1
  | .CHR value => value.operatorDepth + 1
  | _ => 0

mutual

/-- No SET node occurs in the node, at any depth. -/
def Node.noSet : Node → Bool
  | .SET _ _ => false
  | .CREATE name value => name.noSet && value.noSet
  | .PRINT value => value.noSet
  | .ORD value => value.noSet
  | .CHR value => value.noSet
  | .ADD left right => left.noSet && right.noSet
  | .SUBTRACT left right => left.noSet && right.noSet
  | .MULTIPLY left right => left.noSet && right.noSet
  | .DIVIDE left right => left.noSet && right.noSet
  | .EQUAL left right => left.noSet && right.noSet
  | .NOTEQUAL left right => left.noSet && right.noSet
  | .GREATER left right => left.noSet && right.noSet
  | .LESS left right => left.noSet && right.noSet
  | .IF condition code else_ => condition.noSet && blockNoSet code && elseNoSet else_
  | .WHILE condition code => condition.noSet && blockNoSet code
  | _ => true

/-- No SET node occurs in the block, at any depth. -/
def blockNoSet : List (Option Node) → Bool
  | [] => true
  | statement :: rest => statementNoSet statement && blockNoSet rest

/-- No SET node occurs in the element of a block. -/
def statementNoSet : Option Node → Bool
  | none => true
  | some node => node.noSet

/-- No SET node occurs in the optional else-block. -/
def elseNoSet : Option (List (Option Node)) → Bool
  | none => true
  | some block => blockNoSet block

end

/-- The environment an evaluation leaves, when it returns or throws. -/
def Eval.env? : Eval → Option Environment
  | .ok (_, env, _) => some env
  | .throw (_, env, _) => some env
  | .outOfFuel => none

/-- The value of a run of hexadecimal, octal or binary digits, `none` when a character
is no digit of the radix or the run is empty. -/
def radixValue (radix : Nat) (ds : List Char) : Option Nat :=
  let digit (c : Char) : Option Nat :=
    if isDigit c then some (c.toNat - 48)
    else if 97 ≤ c.toNat ∧ c.toNat ≤ 102 then some (c.toNat - 87)
    else if 65 ≤ c.toNat ∧ c.toNat ≤ 70 then some (c.toNat - 55)
    else none
  if ds = [] then none
  else ds.foldl (fun acc c =>
    match acc, digit c with
    | some n, some d => if d < radix then some (radix * n + d) else none
    | _, _ => none) (some 0)

/-- The exponent part of a numeric string: nothing (exponent zero), or `e` or `E`, an
optional sign and digits up to the end; `none` when the text is neither. -/
def exponentOfString (cs : List Char) : Option Int :=
  match cs with
  | [] => some 0
  | e :: rest =>
    if e = 'e' ∨ e = 'E' then
      let negative := rest.head? = some '-'
      let ds := if rest.head? = some '-' ∨ rest.head? = some '+' then rest.drop 1 else rest
      if ds ≠ [] ∧ ds.all isDigit then
        some (if negative then -(digitsValue ds : Int) else (digitsValue ds : Int))
      else none
    else none

/-- A numeric string without white space around it and without radix prefix: an
optional sign, then `Infinity` or a decimal literal that takes the whole text. -/
def decimalOfString (cs : List Char) : JSNumber :=
  let negative := cs.head? = some '-'
  let cs := if cs.head? = some '-' ∨ cs.head? = some '+' then cs.drop 1 else cs
  if cs = "Infinity".data then (if negative then .negInf else .posInf)
  else
    let ip := cs.takeWhile isDigit
    let r1 := cs.dropWhile isDigit
    let fp := if r1.head? = some '.' then (r1.drop 1).takeWhile isDigit else []
    let r2 := if r1.head? = some '.' then (r1.drop 1).dropWhile isDigit else r1
    if ip = [] ∧ fp = [] then .nan
    else
      match exponentOfString r2 with
      | none => .nan
      | some e =>
        let mantissa : ℚ := (digitsValue (ip ++ fp) : ℚ) / (10 ^ fp.length : ℚ)
        let magnitude : ℚ :=
          if 0 ≤ e then mantissa * (10 ^ e.toNat : ℚ) else mantissa / (10 ^ (-e).toNat : ℚ)
        if negative then .finite (-magnitude) else .finite magnitude

/-- The conversion `Number(text)` of JavaScript on a string: white space is trimmed at
both ends; the empty text is 0; a text with prefix `0x`, `0o` or `0b` is read in that
radix; any other text is read as a signed decimal literal or `Infinity`; a text that is
none of these is `NaN`. -/
def stringToNumber (text : String) : JSNumber :=
  let cs := ((text.data.dropWhile isSpace).reverse.dropWhile isSpace).reverse
  if cs = [] then .finite 0
  else
    match cs with
    | '0' :: x :: rest =>
      if x = 'x' ∨ x = 'X' then
        (match radixValue 16 rest with
         | some n => .finite (n : ℚ)
         | none => .nan)
      else if x = 'o' ∨ x = 'O' then
        (match radixValue 8 rest with
         | some n => .finite (n : ℚ)
         | none => .nan)
      else if x = 'b' ∨ x = 'B' then
        (match radixValue 2 rest with
         | some n => .finite (n : ℚ)
         | none => .nan)
      else decimalOfString cs
    | _ => decimalOfString cs

/-- A host whose `inputFn` answers its calls with the given values in order (`null`
when they are used up) and which converts strings to numbers as `Number` does; its
other fields are those of `exampleHost`. -/
def scriptedHost (answers : List Value) : Host where
  stdoutWrite := exampleHost.stdoutWrite
  inputFn := fun k _ => answers.getD k .null
  stringToNumber := stringToNumber
  numberToString := exampleHost.numberToString

/-- The program of `create a new spell named x with the power of n` followed by
`whilst the spell is x greater than 0 is true do set the power of x to remove the
power of 1 from x shout the many cries of x done`. -/
def countdownProgram (n : Nat) : List Node :=
  [.CREATE (.IDENTIFIER "x") (.INTEGER (.finite (n : ℚ))),
   .WHILE (.GREATER (.IDENTIFIER "x") (.INTEGER (.finite 0)))
     [some (.SET (.IDENTIFIER "x") (.SUBTRACT (.IDENTIFIER "x") (.INTEGER (.finite 1)))),
      some (.PRINT (.IDENTIFIER "x"))]]

/-- The environment chain and the world an evaluation leaves, when it returns or
throws. -/
def Eval.state? : Eval → Option (Environment × World)
  | .ok (_, env, world) => some (env, world)
  | .throw (_, env, world) => some (env, world)
  | .outOfFuel => none

/-- A loop whose body prints `y` when asked to and then creates `y`: the loop and the
question are both decided by the input. -/
def loopLocalProgram : Node :=
  .WHILE .INPUT
    [some (.IF .INPUT [some (.PRINT (.IDENTIFIER "y"))] none),
     some (.CREATE (.IDENTIFIER "y") (.STRING "a"))]

/-- The values `n - 1`, `n - 2`, ..., `0`, in that order. -/
def countdownValues (n : Nat) : List Value :=
  (List.range n).reverse.map (fun k => Value.number (.finite (k : ℚ)))

/-- The loop of `countdownProgram`. -/
def countdownLoop : Node :=
  .WHILE (.GREATER (.IDENTIFIER "x") (.INTEGER (.finite 0)))
    [some (.SET (.IDENTIFIER "x") (.SUBTRACT (.IDENTIFIER "x") (.INTEGER (.finite 1)))),
     some (.PRINT (.IDENTIFIER "x"))]

/-- A host like `exampleHost` whose `process.stdout.write` accepts every value. -/
def permissiveHost : Host where
  stdoutWrite := fun _ => none
  inputFn := exampleHost.inputFn
  stringToNumber := exampleHost.stringToNumber
  numberToString := exampleHost.numberToString

/-- The tokens of the countdown program for `n = 3`. -/
def countdownTokens : List Token :=
  keywordTokens "create a new spell named x with the power of" ++ [⟨.INTEGER, "3"⟩] ++
  keywordTokens "whilst the spell is x greater than" ++ [⟨.INTEGER, "0"⟩] ++
  keywordTokens "is true do set the power of x to remove the power of" ++ [⟨.INTEGER, "1"⟩] ++
  keywordTokens "from x shout the many cries of x done" ++ [eofToken]


/-! ## Examples of the conditional -/

/-- The text of the conditional with both blocks: `cast only if the spell is 1 equal to
1 is true do shout the many cries of "yes" else do shout the many cries of "no" done`. -/
def ifElseSource : String :=
  "cast only if the spell is 1 equal to 1 is true do shout the many cries of " ++
  String.mk [dquote] ++ "yes" ++ String.mk [dquote] ++
  " else do shout the many cries of " ++ String.mk [dquote] ++ "no" ++ String.mk [dquote] ++
  " done"

/-- The tokens of `ifElseSource`. -/
def ifElseTokens : List Token :=
  keywordTokens "cast only if the spell is" ++ [⟨.INTEGER, "1"⟩] ++
  keywordTokens "equal to" ++ [⟨.INTEGER, "1"⟩] ++
  keywordTokens "is true do shout the many cries of" ++ [⟨.STRING, "yes"⟩] ++
  keywordTokens "else do shout the many cries of" ++ [⟨.STRING, "no"⟩] ++
  keywordTokens "done" ++ [eofToken]

/-- A conditional that prints `yes` in its then-block and `no` in its else-block. -/
def yesNo (condition : Node) : Node :=
  .IF condition [some (.PRINT (.STRING "yes"))] (some [some (.PRINT (.STRING "no"))])

/-! ## Statements at the top level -/

/-- The identifier texts on which `parseStatement` starts a statement. -/
def statementKeywords : List String := ["shout", "create", "cast", "set", "whilst"]

/-- The token array holds the complete statements `statements` one after the other
from the cursor `current` up to the cursor `stop`: `parseStatement` reads each of them,
with the given fuel, where the one before ended. -/
def Parser.completeStatements (tokens : List Token) (fuel : Nat) :
    List Node → Nat → Nat → Prop
  | [], current, stop => current = stop
  | statement :: rest, current, stop =>
    ∃ next, parseStatement tokens fuel current = .ok (some statement, next) ∧
      completeStatements tokens fuel rest next stop

/-! ## The cursor of the parser -/

/-- The outcome of a call of the parser keeps the cursor inside the token array: the
cursor it returns (read from the result by `cursor`) is below the length of the array,
and the error it throws is not the `TypeError` of reading `peek()` outside the array. -/
def Parser.cursorInside {α : Type} (tokens : List Token) (cursor : α → Nat) :
    Outcome ParseError α → Prop
  | .ok a => cursor a < tokens.length
  | .throw e => e ≠ .undefinedToken
  | .outOfFuel => True

/-! ## The grammar of programs

The statement and expression grammar of the language, as a syntax tree with the texts
of the literal tokens, its token sequence and the AST it stands for. -/

/-- An expression of the grammar: a literal with the text of its token, the lookup of
a spell, or a keyword form over expressions. -/
inductive Expression
  /-- A STRING token. -/
  | string (text : String)
  /-- An INTEGER token. -/
  | integer (text : String)
  /-- A FLOAT token. -/
  | float (text : String)
  /-- An IDENTIFIER token: the lookup of a spell. -/
  | spell (name : String)
  /-- The form `combine the power of a and b`. -/
  | combine (a b : Expression)
  /-- The form `remove the power of a from b`. -/
  | remove (a b : Expression)
  /-- The form `duplicate the power of a b times`. -/
  | duplicate (a b : Expression)
  /-- The form `split the power of a b times`. -/
  | split (a b : Expression)
  /-- The form `find the source of the messages`. -/
  | find
  /-- The form `may the sorcerers cast their spells on e`. -/
  | may (e : Expression)
  /-- The form `get the character from the spell e`. -/
  | get (e : Expression)
  /-- The form `is a equal to b`. -/
  | isEqual (a b : Expression)
  /-- The form `is a not equal to b`. -/
  | isNotEqual (a b : Expression)
  /-- The form `is a greater than b`. -/
  | isGreater (a b : Expression)
  /-- The form `is a less than b`. -/
  | isLess (a b : Expression)

/-- A statement of the grammar. -/
inductive Statement
  /-- The statement `shout the many cries of value`. -/
  | shout (value : Expression)
  /-- The statement `create a new spell named name with the power of value`. -/
  | create (name : String) (value : Expression)
  /-- The statement `set the power of name to value`. -/
  | set (name : String) (value : Expression)
  /-- The statement `cast only if the spell condition is true do block done`. -/
  | cast (condition : Expression) (block : List Statement)
  /-- The statement `cast only if the spell condition is true do block else do other
  done`. -/
  | castElse (condition : Expression) (block other : List Statement)
  /-- The statement `whilst the spell condition is true do block done`. -/
  | whilst (condition : Expression) (block : List Statement)

/-- The tokens of an expression. -/
def Expression.tokens : Expression → List Token
  | .string text => [⟨.STRING, text⟩]
  | .integer text => [⟨.INTEGER, text⟩]
  | .float text => [⟨.FLOAT, text⟩]
  | .spell name => [⟨.IDENTIFIER, name⟩]
  | .combine a b =>
    keywordTokens "combine the power of" ++ (a.tokens ++ (keywordTokens "and" ++ b.tokens))
  | .remove a b =>
    keywordTokens "remove the power of" ++ (a.tokens ++ (keywordTokens "from" ++ b.tokens))
  | .duplicate a b =>
    keywordTokens "duplicate the power of" ++ (a.tokens ++ (b.tokens ++ keywordTokens "times"))
  | .split a b =>
    keywordTokens "split the power of" ++ (a.tokens ++ (b.tokens ++ keywordTokens "times"))
  | .find => keywordTokens "find the source of the messages"
  | .may e => keywordTokens "may the sorcerers cast their spells on" ++ e.tokens
  | .get e => keywordTokens "get the character from the spell" ++ e.tokens
  | .isEqual a b => keywordTokens "is" ++ (a.tokens ++ (keywordTokens "equal to" ++ b.tokens))
  | .isNotEqual a b =>
    keywordTokens "is" ++ (a.tokens ++ (keywordTokens "not equal to" ++ b.tokens))
  | .isGreater a b =>
    keywordTokens "is" ++ (a.tokens ++ (keywordTokens "greater than" ++ b.tokens))
  | .isLess a b => keywordTokens "is" ++ (a.tokens ++ (keywordTokens "less than" ++ b.tokens))

/-- The AST node an expression stands for. -/
def Expression.node : Expression → Node
  | .string text => .STRING text
  | .integer text => .INTEGER (parseInt text)
  | .float text => .FLOAT (parseFloat text)
  | .spell name => .IDENTIFIER name
  | .combine a b => .ADD a.node b.node
  | .remove a b => .SUBTRACT b.node a.node
  | .duplicate a b => .MULTIPLY a.node b.node
  | .split a b => .DIVIDE a.node b.node
  | .find => .INPUT
  | .may e => .ORD e.node
  | .get e => .CHR e.node
  | .isEqual a b => .EQUAL a.node b.node
  | .isNotEqual a b => .NOTEQUAL a.node b.node
  | .isGreater a b => .GREATER a.node b.node
  | .isLess a b => .LESS a.node b.node

/-- No spell of the expression is named by one of the words that start a keyword
form. -/
def Expression.namesFree : Expression → Bool
  | .string _ => true
  | .integer _ => true
  | .float _ => true
  | .spell name => !expressionKeywords.contains name
  | .combine a b => a.namesFree && b.namesFree
  | .remove a b => a.namesFree && b.namesFree
  | .duplicate a b => a.namesFree && b.namesFree
  | .split a b => a.namesFree && b.namesFree
  | .find => true
  | .may e => e.namesFree
  | .get e => e.namesFree
  | .isEqual a b => a.namesFree && b.namesFree
  | .isNotEqual a b => a.namesFree && b.namesFree
  | .isGreater a b => a.namesFree && b.namesFree
  | .isLess a b => a.namesFree && b.namesFree

mutual

/-- The tokens of a statement. -/
def Statement.tokens : Statement → List Token
  | .shout value => keywordTokens "shout the many cries of" ++ value.tokens
  | .create name value =>
    keywordTokens "create a new spell named" ++
      (⟨.IDENTIFIER, name⟩ :: (keywordTokens "with the power of" ++ value.tokens))
  | .set name value =>
    keywordTokens "set the power of" ++
      (⟨.IDENTIFIER, name⟩ :: (keywordTokens "to" ++ value.tokens))
  | .cast condition block =>
    keywordTokens "cast only if the spell" ++ (condition.tokens ++
      (keywordTokens "is true do" ++ (blockTokens block ++ keywordTokens "done")))
  | .castElse condition block other =>
    keywordTokens "cast only if the spell" ++ (condition.tokens ++
      (keywordTokens "is true do" ++ (blockTokens block ++
        (keywordTokens "else do" ++ (blockTokens other ++ keywordTokens "done")))))
  | .whilst condition block =>
    keywordTokens "whilst the spell" ++ (condition.tokens ++
      (keywordTokens "is true do" ++ (blockTokens block ++ keywordTokens "done")))

/-- The tokens of a sequence of statements. -/
def blockTokens : List Statement → List Token
  | [] => []
  | statement :: rest => statement.tokens ++ blockTokens rest

end

mutual

/-- The AST node a statement stands for. -/
def Statement.node : Statement → Node
  | .shout value => .PRINT value.node
  | .create name value => .CREATE (.IDENTIFIER name) value.node
  | .set name value => .SET (.IDENTIFIER name) value.node
  | .cast condition block => .IF condition.node (blockNodes block) none
  | .castElse condition block other =>
    .IF condition.node (blockNodes block) (some (blockNodes other))
  | .whilst condition block => .WHILE condition.node (blockNodes block)

/-- The array of nodes a block stands for. -/
def blockNodes : List Statement → List (Option Node)
  | [] => []
  | statement :: rest => some statement.node :: blockNodes rest

end

mutual

/-- No spell of the statement, named or looked up, is named by one of the words that
start a keyword form. -/
def Statement.namesFree : Statement → Bool
  | .shout value => value.namesFree
  | .create name value => !expressionKeywords.contains name && value.namesFree
  | .set name value => !expressionKeywords.contains name && value.namesFree
  | .cast condition block => condition.namesFree && blockNamesFree block
  | .castElse condition block other =>
    condition.namesFree && blockNamesFree block && blockNamesFree other
  | .whilst condition block => condition.namesFree && blockNamesFree block

/-- No spell of the statements is named by one of the words that start a keyword
form. -/
def blockNamesFree : List Statement → Bool
  | [] => true
  | statement :: rest => statement.namesFree && blockNamesFree rest

end

/-- The property `type` of a node. -/
def Node.type : Node → String
  | .STRING _ => "STRING"
  | .INTEGER _ => "INTEGER"
  | .FLOAT _ => "FLOAT"
  | .IDENTIFIER _ => "IDENTIFIER"
  | .CREATE _ _ => "CREATE"
  | .SET _ _ => "SET"
  | .PRINT _ => "PRINT"
  | .ADD _ _ => "ADD"
  | .SUBTRACT _ _ => "SUBTRACT"
  | .MULTIPLY _ _ => "MULTIPLY"
  | .DIVIDE _ _ => "DIVIDE"
  | .EQUAL _ _ => "EQUAL"
  | .NOTEQUAL _ _ => "NOTEQUAL"
  | .GREATER _ _ => "GREATER"
  | .LESS _ _ => "LESS"
  | .INPUT => "INPUT"
  | .ORD _ => "ORD"
  | .CHR _ => "CHR"
  | .IF _ _ _ => "IF"
  | .WHILE _ _ => "WHILE"

/-- The kind of statement a leading keyword selects. -/
def statementType (keyword : String) : String :=
  if keyword = "shout" then "PRINT"
  else if keyword = "create" then "CREATE"
  else if keyword = "set" then "SET"
  else if keyword = "cast" then "IF"
  else if keyword = "whilst" then "WHILE"
  else "none"

/-- The text of the first token of a statement: its leading keyword. -/
def Statement.keyword (statement : Statement) : String :=
  match statement.tokens.head? with
  | some t => t.text
  | none => ""

/-- A text of three statements, on three lines, the first with a comment. -/
def threeStatementsSource : String :=
  "create a new spell named x with the power of 2 # two\n" ++
  "whilst the spell x is true do set the power of x to 0 done\n" ++
  "shout the many cries of x"

/-- The syntax tree of `threeStatementsSource`. -/
def threeStatements : List Statement :=
  [.create "x" (.integer "2"),
   .whilst (.spell "x") [.set "x" (.integer "0")],
   .shout (.spell "x")]

/-- A text of two statements, the second a CREATE statement whose spell is named by a
keyword. -/
def keywordNameSource : String :=
  "shout the many cries of 1\n" ++ "create a new spell named get with the power of 5"

/-- The tokens of `keywordNameSource`. -/
def keywordNameTokens : List Token :=
  keywordTokens "shout the many cries of" ++ [⟨.INTEGER, "1"⟩] ++
  keywordTokens "create a new spell named get with the power of" ++
    [⟨.INTEGER, "5"⟩, eofToken]

end SpellCast

namespace SpellCast

/-! ## Environment: lemmas -/

theorem Variables.get_eq_none_of_has_false (vars : Variables) (name : String)
    (h : vars.has name = false) : vars.get name = none := by
  induction vars with
  | nil => rfl
  | cons kv rest ih =>
    simp only [Variables.has, List.any_cons, Bool.or_eq_false_iff] at h
    simp only [Variables.get, List.find?_cons, h.1]
    exact ih h.2

theorem Variables.has_of_get_eq_some (vars : Variables) (name : String) (v : Value)
    (h : vars.get name = some v) : vars.has name = true := by
  by_contra hn
  rw [Variables.get_eq_none_of_has_false vars name (by simpa using hn)] at h
  cases h

theorem Variables.get_set_self (vars : Variables) (name : String) (value : Value) :
    (vars.set name value).get name = some value := by
  unfold Variables.set
  split
  · rename_i h
    induction vars with
    | nil => simp [Variables.has] at h
    | cons kv rest ih =>
      by_cases hk : kv.1 = name
      · simp [Variables.get, List.find?_cons, hk]
      · have hr : Variables.has rest name = true := by
          simpa [Variables.has, hk] using h
        have := ih hr
        simpa [Variables.get, List.find?_cons, hk] using this
  · rename_i h
    have h' : vars.has name = false := by simpa using h
    induction vars with
    | nil => simp [Variables.get]
    | cons kv rest ih =>
      simp only [Variables.has, List.any_cons, Bool.or_eq_false_iff] at h'
      have hr : ¬ Variables.has rest name = true := by simp [Variables.has, h'.2]
      have := ih hr h'.2
      simpa [Variables.get, List.find?_cons, h'.1] using this

theorem Variables.get_replace_other (vars : Variables) (name other : String) (value : Value)
    (hne : other ≠ name) :
    Variables.get (vars.map (fun kv => if kv.1 == name then (kv.1, value) else kv)) other =
      Variables.get vars other := by
  induction vars with
  | nil => rfl
  | cons kv rest ih =>
    simp only [Variables.get, List.map_cons, List.find?_cons] at ih ⊢
    by_cases hk : kv.1 = name
    · have hko : (kv.1 == other) = false := by
        simp only [beq_eq_false_iff_ne, ne_eq]
        exact fun h => hne (h ▸ hk ▸ rfl)
      simp only [hk, beq_self_eq_true, if_true]
      rw [hk] at hko
      simp only [hko]
      exact ih
    · have hkn : (kv.1 == name) = false := by simpa using hk
      simp only [hkn, Bool.false_eq_true, if_false]
      cases hko : (kv.1 == other)
      · exact ih
      · rfl

theorem Variables.get_append_other (vars : Variables) (name other : String) (value : Value)
    (hne : other ≠ name) :
    Variables.get (vars ++ [(name, value)]) other = Variables.get vars other := by
  induction vars with
  | nil =>
    have : (name == other) = false := by simpa using Ne.symm hne
    simp [Variables.get, List.find?_cons, this]
  | cons kv rest ih =>
    simp only [Variables.get, List.cons_append, List.find?_cons] at ih ⊢
    cases hko : (kv.1 == other)
    · exact ih
    · rfl

theorem Variables.get_set_other (vars : Variables) (name other : String) (value : Value)
    (hne : other ≠ name) : (vars.set name value).get other = vars.get other := by
  unfold Variables.set
  split
  · exact Variables.get_replace_other vars name other value hne
  · exact Variables.get_append_other vars name other value hne

theorem Environment.assign_of_defined (name : String) (value : Value) (env : Environment)
    (h : ∃ vs ∈ env.scopes, Variables.has vs name = true) :
    ∃ pre s post, env.scopes = pre ++ s :: post ∧
      (∀ vs ∈ pre, Variables.has vs name = false) ∧ Variables.has s name = true ∧
      (env.assign name value).1 = .ok () ∧
      (env.assign name value).2.scopes = pre ++ Variables.set s name value :: post := by
  induction env with
  | root vars =>
    obtain ⟨vs, hvs, hhas⟩ := h
    simp only [Environment.scopes, List.mem_singleton] at hvs
    subst hvs
    exact ⟨[], vs, [], rfl, by simp, hhas, by simp [Environment.assign, hhas],
      by simp [Environment.assign, hhas, Environment.scopes]⟩
  | child vars p ih =>
    by_cases hv : Variables.has vars name = true
    · exact ⟨[], vars, p.scopes, rfl, by simp, hv, by simp [Environment.assign, hv],
        by simp [Environment.assign, hv, Environment.scopes]⟩
    · have hp : ∃ vs ∈ p.scopes, Variables.has vs name = true := by
        obtain ⟨vs, hvs, hhas⟩ := h
        simp only [Environment.scopes, List.mem_cons] at hvs
        rcases hvs with rfl | hvs
        · exact absurd hhas hv
        · exact ⟨vs, hvs, hhas⟩
      obtain ⟨pre, s, post, hsc, hpre, hs, hok, hres⟩ := ih hp
      refine ⟨vars :: pre, s, post, by simp [Environment.scopes, hsc], ?_, hs, ?_, ?_⟩
      · intro vs hvs
        simp only [List.mem_cons] at hvs
        rcases hvs with rfl | hvs
        · simpa using hv
        · exact hpre vs hvs
      · simp [Environment.assign, hv, hok]
      · simp [Environment.assign, hv, Environment.scopes, hres]

theorem Environment.assign_of_undefined (name : String) (value : Value) (env : Environment)
    (h : ∀ vs ∈ env.scopes, Variables.has vs name = false) :
    env.assign name value = (.error (.undefinedVariable name), env) := by
  induction env with
  | root vars =>
    have hv := h vars (by simp [Environment.scopes])
    simp [Environment.assign, hv]
  | child vars p ih =>
    have hv := h vars (by simp [Environment.scopes])
    have hp := ih (fun vs hvs => h vs (by simp [Environment.scopes, hvs]))
    simp [Environment.assign, hv, hp]

theorem Environment.get_of_undefined (name : String) (env : Environment)
    (h : ∀ vs ∈ env.scopes, Variables.has vs name = false) :
    env.get name = .error (.undefinedVariable name) := by
  induction env with
  | root vars =>
    have hv := h vars (by simp [Environment.scopes])
    simp [Environment.get, Variables.get_eq_none_of_has_false vars name hv]
  | child vars p ih =>
    have hv := h vars (by simp [Environment.scopes])
    have hp := ih (fun vs hvs => h vs (by simp [Environment.scopes, hvs]))
    simp [Environment.get, Variables.get_eq_none_of_has_false vars name hv, hp]

end SpellCast
namespace SpellCast

theorem getElem?_of_drop {source : List Char} {i : Nat} {c : Char} {r : List Char}
    (h : source.drop i = c :: r) : source[i]? = some c := by
  rw [← List.head?_drop, h]; rfl

theorem getElem?_add_of_drop {source : List Char} {i : Nat} {l : List Char}
    (h : source.drop i = l) (k : Nat) : source[i + k]? = l[k]? := by
  rw [← h, List.getElem?_drop]

theorem drop_add_of_drop {source : List Char} {i : Nat} {l : List Char}
    (h : source.drop i = l) (k : Nat) : source.drop (i + k) = l.drop k := by
  rw [← h, List.drop_drop]

theorem length_of_drop {source : List Char} {i : Nat} {l : List Char}
    (h : source.drop i = l) (hl : l ≠ []) : source.length = i + l.length := by
  have h1 : (source.drop i).length = l.length := by rw [h]
  rw [List.length_drop] at h1
  have h2 : 0 < l.length := List.length_pos.mpr hl
  omega

theorem takeWhile_run (p : Char → Bool) (run rest : List Char)
    (hrun : ∀ c ∈ run, p c = true) (hstop : ∀ c, rest.head? = some c → p c = false) :
    (run ++ rest).takeWhile p = run := by
  rw [List.takeWhile_append_of_pos hrun]
  cases rest with
  | nil => simp
  | cons c r => simp [List.takeWhile_cons, hstop c rfl]

theorem scanWhile_run (p : Char → Bool) {source : List Char} {i : Nat} (run rest : List Char)
    (hdrop : source.drop i = run ++ rest)
    (hrun : ∀ c ∈ run, p c = true) (hstop : ∀ c, rest.head? = some c → p c = false) :
    scanWhile p source i = i + run.length := by
  unfold scanWhile
  rw [hdrop, takeWhile_run p run rest hrun hstop]

theorem slice_run {source : List Char} {i : Nat} (run rest : List Char)
    (hdrop : source.drop i = run ++ rest) : slice source i (i + run.length) = run := by
  unfold slice
  rw [hdrop]
  simp

theorem drop_scanWhile (p : Char → Bool) (source : List Char) (i : Nat) :
    source.drop (scanWhile p source i) = (source.drop i).dropWhile p := by
  unfold scanWhile
  rw [← List.drop_drop]
  generalize source.drop i = l
  induction l with
  | nil => rfl
  | cons c r ih =>
    rw [List.takeWhile_cons, List.dropWhile_cons]
    split
    · simpa using ih
    · rfl

theorem isDigit_bounds {c : Char} (h : isDigit c = true) : 48 ≤ c.toNat ∧ c.toNat ≤ 57 := by
  simpa [isDigit] using h

theorem isDigit_not_special {c : Char} (h : isDigit c = true) :
    isSpace c = false ∧ c ≠ '#' ∧ c ≠ dquote ∧ c ≠ squote := by
  have hb := isDigit_bounds h
  refine ⟨?_, ?_, ?_, ?_⟩
  · simp only [isSpace, Bool.or_eq_false_iff, Bool.and_eq_false_iff, decide_eq_false_iff_not]
    omega
  · rintro rfl; revert h; decide
  · rintro rfl; revert h; decide
  · rintro rfl; revert h; decide

end SpellCast
namespace SpellCast

/-! ## Lexer: lemmas -/

theorem drop_of_getElem? {source : List Char} {i : Nat} {c : Char}
    (h : source[i]? = some c) : source.drop i = c :: source.drop (i + 1) := by
  have hi : i < source.length := by
    by_contra hn
    rw [List.getElem?_eq_none (by omega)] at h
    cases h
  rw [List.drop_eq_getElem_cons hi]
  rw [List.getElem?_eq_getElem hi] at h
  cases h
  rfl

theorem lt_length_of_getElem? {source : List Char} {i : Nat} {c : Char}
    (h : source[i]? = some c) : i < source.length := by
  by_contra hn
  rw [List.getElem?_eq_none (by omega)] at h
  cases h

theorem scanWhile_ge (p : Char → Bool) (source : List Char) (i : Nat) :
    i ≤ scanWhile p source i := by
  unfold scanWhile; omega

theorem scanWhile_gt (p : Char → Bool) {source : List Char} {i : Nat} {c : Char}
    (h : source[i]? = some c) (hp : p c = true) : i + 1 ≤ scanWhile p source i := by
  unfold scanWhile
  rw [drop_of_getElem? h, List.takeWhile_cons, hp]
  simp

theorem tokenizeLoop_terminates (source : List Char) :
    ∀ (fuel i : Nat) (tokens : List Token), 0 < fuel → source.length < fuel + i →
      tokenizeLoop source fuel i tokens ≠ .outOfFuel := by
  intro fuel
  induction fuel with
  | zero => intro i tokens h; omega
  | succ fuel ih =>
    intro i tokens _ hlen
    rw [tokenizeLoop]
    split
    · simp
    · rename_i c hc
      have hi := lt_length_of_getElem? hc
      have hf : 0 < fuel := by omega
      dsimp only
      split_ifs with h1 h2 h3 h4 h5 h6 h7 h8 h9
      · exact ih _ _ hf (by omega)
      · have := scanWhile_gt (fun x => x != '\n') hc (by subst h2; decide)
        exact ih _ _ hf (by omega)
      · simp
      · have := scanWhile_ge (fun x => x != c) source (i + 1)
        exact ih _ _ hf (by omega)
      · have h1 := scanWhile_gt isDigit hc h5
        have h2 := scanWhile_ge isDigit source (scanWhile isDigit source i + 1)
        exact ih _ _ hf (by omega)
      · have h1 := scanWhile_gt isDigit hc h5
        exact ih _ _ hf (by omega)
      · have h1 := scanWhile_gt isDigit hc h5
        exact ih _ _ hf (by omega)
      · have h1 := scanWhile_gt isAlnum hc (by simp [isAlnum, h8])
        exact ih _ _ hf (by omega)
      · exact ih _ _ hf (by omega)
      · simp

theorem tokenizeLoop_shape (source : List Char) :
    ∀ (fuel i : Nat) (tokens ts : List Token), (∀ t ∈ tokens, t.kind ≠ .EOF) →
      tokenizeLoop source fuel i tokens = .ok ts →
      ∃ init, ts = init ++ [eofToken] ∧ ∀ t ∈ init, t.kind ≠ .EOF := by
  intro fuel
  induction fuel with
  | zero => intro i tokens ts _ h; simp [tokenizeLoop] at h
  | succ fuel ih =>
    intro i tokens ts hinv h
    rw [tokenizeLoop] at h
    have hpush : ∀ t : Token, t.kind ≠ .EOF → ∀ u ∈ tokens ++ [t], u.kind ≠ .EOF := by
      intro t ht u hu
      rcases List.mem_append.mp hu with hu | hu
      · exact hinv u hu
      · simp only [List.mem_singleton] at hu
        subst hu
        exact ht
    split at h
    · simp only [Outcome.ok.injEq] at h
      exact ⟨tokens, h.symm, hinv⟩
    · dsimp only at h
      split_ifs at h with h1 h2 h3 h4 h5 h6 h7 h8 h9
      · exact ih _ _ _ hinv h
      · exact ih _ _ _ hinv h
      · exact ih _ _ _ (hpush _ (by simp)) h
      · exact ih _ _ _ (hpush _ (by simp)) h
      · exact ih _ _ _ (hpush _ (by simp)) h
      · exact ih _ _ _ (hpush _ (by simp)) h
      · exact ih _ _ _ (hpush _ (by simp)) h
      · exact ih _ _ _ (hpush _ (by simp)) h

end SpellCast
namespace SpellCast

theorem quote_not_special {q : Char} (hq : q = dquote ∨ q = squote) :
    isSpace q = false ∧ q ≠ '#' := by
  rcases hq with rfl | rfl <;> exact ⟨by decide, by decide⟩

theorem tokenizeLoop_end (source : List Char) (fuel i : Nat) (tokens : List Token)
    (h : source.length ≤ i) :
    tokenizeLoop source (fuel + 1) i tokens = .ok (tokens ++ [eofToken]) := by
  rw [tokenizeLoop, List.getElem?_eq_none h]

theorem tokenizeLoop_string (source : List Char) (fuel i : Nat) (tokens : List Token)
    (q : Char) (s rest : List Char) (hq : q = dquote ∨ q = squote)
    (hdrop : source.drop i = q :: (s ++ q :: rest)) (hs : q ∉ s) :
    tokenizeLoop source (fuel + 1) i tokens =
      tokenizeLoop source fuel (i + 1 + s.length + 1) (tokens ++ [⟨.STRING, String.mk s⟩]) := by
  have hd1 : source.drop (i + 1) = s ++ q :: rest := by
    rw [drop_add_of_drop hdrop 1]; rfl
  have hscan : scanWhile (fun x => x != q) source (i + 1) = i + 1 + s.length :=
    scanWhile_run _ s (q :: rest) hd1
      (by intro c hc; simp only [bne_iff_ne, ne_eq]; rintro rfl; exact hs hc)
      (by intro c hc; simp only [List.head?_cons, Option.some.injEq] at hc; simp [hc])
  have hlen : source.length = i + 1 + (s.length + (rest.length + 1)) := by
    rw [length_of_drop hd1 (by simp)]; simp
  rw [tokenizeLoop, getElem?_of_drop hdrop]
  simp only [(quote_not_special hq).1, (quote_not_special hq).2, hq, Bool.false_eq_true,
    if_false, if_true, hscan]
  rw [if_neg (by omega), slice_run s (q :: rest) hd1]

theorem tokenizeLoop_unterminated (source : List Char) (fuel i : Nat) (tokens : List Token)
    (q : Char) (s : List Char) (hq : q = dquote ∨ q = squote)
    (hdrop : source.drop i = q :: s) (hs : q ∉ s) :
    tokenizeLoop source (fuel + 1) i tokens = .throw (.unterminatedString i) := by
  have hd1 : source.drop (i + 1) = s ++ [] := by
    rw [drop_add_of_drop hdrop 1]; simp
  have hscan : scanWhile (fun x => x != q) source (i + 1) = i + 1 + s.length :=
    scanWhile_run _ s [] hd1
      (by intro c hc; simp only [bne_iff_ne, ne_eq]; rintro rfl; exact hs hc)
      (by intro c hc; simp at hc)
  have hlen : source.length = i + (s.length + 1) := by
    rw [length_of_drop hdrop (by simp)]; simp
  rw [tokenizeLoop, getElem?_of_drop hdrop]
  simp only [(quote_not_special hq).1, (quote_not_special hq).2, hq, Bool.false_eq_true,
    if_false, if_true, hscan]
  rw [if_pos (by omega)]
  simp

end SpellCast
namespace SpellCast

theorem head_of_digits {d : List Char} (hd : d ≠ []) (hdig : ∀ c ∈ d, isDigit c = true) :
    ∃ c r, d = c :: r ∧ isDigit c = true := by
  cases d with
  | nil => exact absurd rfl hd
  | cons c r => exact ⟨c, r, rfl, hdig c (by simp)⟩

theorem getElem?_append_length_add (l rest : List Char) (k : Nat) :
    (l ++ rest)[l.length + k]? = rest[k]? := by
  rw [List.getElem?_append_right (by omega)]
  congr 1
  omega

theorem tokenizeLoop_float (source : List Char) (fuel i : Nat) (tokens : List Token)
    (d d2 rest2 : List Char) (hdrop : source.drop i = d ++ '.' :: (d2 ++ rest2))
    (hd : d ≠ []) (hdig : ∀ c ∈ d, isDigit c = true)
    (hd2 : d2 ≠ []) (hdig2 : ∀ c ∈ d2, isDigit c = true)
    (hmax : ∀ c, rest2.head? = some c → isDigit c = false) :
    tokenizeLoop source (fuel + 1) i tokens =
      tokenizeLoop source fuel (i + d.length + 1 + d2.length)
        (tokens ++ [⟨.FLOAT, String.mk (d ++ '.' :: d2)⟩]) := by
  obtain ⟨c, r, rfl, hc⟩ := head_of_digits hd hdig
  obtain ⟨c2, r2, rfl, hc2⟩ := head_of_digits hd2 hdig2
  have hsp := isDigit_not_special hc
  have hscan : scanWhile isDigit source i = i + (c :: r).length :=
    scanWhile_run isDigit (c :: r) ('.' :: (c2 :: r2 ++ rest2)) hdrop hdig
      (by intro x hx; simp only [List.head?_cons, Option.some.injEq] at hx; subst hx; decide)
  have hdot : source[i + (c :: r).length]? = some '.' := by
    rw [getElem?_add_of_drop hdrop]
    exact (getElem?_append_length_add (c :: r) _ 0).trans (by simp)
  have hnext : source[i + (c :: r).length + 1]? = some c2 := by
    rw [Nat.add_assoc, getElem?_add_of_drop hdrop]
    exact (getElem?_append_length_add (c :: r) _ 1).trans (by simp)
  have hd1 : source.drop (i + (c :: r).length + 1) = (c2 :: r2) ++ rest2 := by
    rw [Nat.add_assoc, drop_add_of_drop hdrop]
    simp
  have hscan2 : scanWhile isDigit source (i + (c :: r).length + 1) =
      i + (c :: r).length + 1 + (c2 :: r2).length :=
    scanWhile_run isDigit (c2 :: r2) rest2 hd1 hdig2 hmax
  have hslice : slice source i (i + (c :: r).length + 1 + (c2 :: r2).length) =
      (c :: r) ++ '.' :: (c2 :: r2) := by
    have := @slice_run source i ((c :: r) ++ '.' :: (c2 :: r2)) rest2
      (by rw [hdrop]; simp)
    rw [← this]
    congr 1
    simp only [List.length_append, List.length_cons]
    omega
  rw [tokenizeLoop, getElem?_of_drop hdrop]
  simp only [hsp.1, hsp.2.1, hsp.2.2.1, hsp.2.2.2, hc, Bool.false_eq_true, if_false, if_true,
    or_self, hscan, hdot, hnext, Option.any_some, hc2, hscan2, hslice]

theorem tokenizeLoop_integer (source : List Char) (fuel i : Nat) (tokens : List Token)
    (d rest : List Char) (hdrop : source.drop i = d ++ rest)
    (hd : d ≠ []) (hdig : ∀ c ∈ d, isDigit c = true)
    (hmax : ∀ c, rest.head? = some c → isDigit c = false)
    (hnofloat : ∀ c r, rest = '.' :: c :: r → isDigit c = false) :
    tokenizeLoop source (fuel + 1) i tokens =
      tokenizeLoop source fuel (i + d.length) (tokens ++ [⟨.INTEGER, String.mk d⟩]) := by
  obtain ⟨c, r, rfl, hc⟩ := head_of_digits hd hdig
  have hsp := isDigit_not_special hc
  have hscan : scanWhile isDigit source i = i + (c :: r).length :=
    scanWhile_run isDigit (c :: r) rest hdrop hdig hmax
  have hslice := @slice_run source i (c :: r) rest hdrop
  have hat : source[i + (c :: r).length]? = rest.head? := by
    rw [getElem?_add_of_drop hdrop, List.head?_eq_getElem?]
    exact getElem?_append_length_add (c :: r) _ 0
  have hat1 : source[i + (c :: r).length + 1]? = (rest.drop 1).head? := by
    rw [Nat.add_assoc, getElem?_add_of_drop hdrop, List.head?_drop]
    exact getElem?_append_length_add (c :: r) _ 1
  rw [tokenizeLoop, getElem?_of_drop hdrop]
  simp only [hsp.1, hsp.2.1, hsp.2.2.1, hsp.2.2.2, hc, Bool.false_eq_true, if_false, if_true,
    or_self, hscan, hslice, hat, hat1]
  split_ifs with h1 h2
  · exfalso
    cases rest with
    | nil => simp at h1
    | cons x rest' =>
      simp only [List.head?_cons, Option.some.injEq] at h1
      subst h1
      cases rest' with
      | nil => simp at h2
      | cons y rest'' =>
        simp only [List.drop_succ_cons, List.drop_zero, List.head?_cons, Option.any_some] at h2
        rw [hnofloat y rest'' rfl] at h2
        cases h2
  · rfl
  · rfl

theorem tokenizeLoop_symbol (source : List Char) (fuel i : Nat) (tokens : List Token)
    (c : Char) (rest : List Char) (hdrop : source.drop i = c :: rest)
    (hc : isSymbol c = true) :
    tokenizeLoop source (fuel + 1) i tokens =
      tokenizeLoop source fuel (i + 1) (tokens ++ [⟨.SYMBOL, String.mk [c]⟩]) := by
  have hmem : c ∈ symbolChars := by simpa [isSymbol] using hc
  have hall : ∀ x ∈ symbolChars, isSpace x = false ∧ x ≠ '#' ∧ x ≠ dquote ∧ x ≠ squote ∧
      isDigit x = false ∧ isAlpha x = false := by decide
  obtain ⟨h1, h2, h3, h4, h5, h6⟩ := hall c hmem
  rw [tokenizeLoop, getElem?_of_drop hdrop]
  simp only [h1, h2, h3, h4, h5, h6, hc, Bool.false_eq_true, if_false, if_true, or_self]

end SpellCast
namespace SpellCast

theorem isSpace_not_special {c : Char} (h : isSpace c = true) :
    c ≠ '#' ∧ c ≠ dquote ∧ c ≠ squote := by
  refine ⟨?_, ?_, ?_⟩ <;> (rintro rfl; revert h; decide)

theorem isAlnum_not_special {c : Char} (h : isAlnum c = true) :
    c ≠ '#' ∧ c ≠ dquote ∧ c ≠ squote := by
  refine ⟨?_, ?_, ?_⟩ <;> (rintro rfl; revert h; decide)

theorem quotesPaired_outside_cons {c : Char} {rest : List Char}
    (hc : c ≠ '#' ∧ c ≠ dquote ∧ c ≠ squote) :
    quotesPaired .outside (c :: rest) = quotesPaired .outside rest := by
  rw [quotesPaired]
  simp [hc.1, hc.2.1, hc.2.2]

theorem quotesPaired_dropWhile (p : Char → Bool)
    (hp : ∀ c, p c = true → c ≠ '#' ∧ c ≠ dquote ∧ c ≠ squote) (l : List Char)
    (h : quotesPaired .outside l = true) : quotesPaired .outside (l.dropWhile p) = true := by
  induction l with
  | nil => exact h
  | cons c r ih =>
    rw [List.dropWhile_cons]
    split
    · rename_i hc
      rw [quotesPaired_outside_cons (hp c hc)] at h
      exact ih h
    · exact h

theorem quotesPaired_comment (l : List Char) (h : quotesPaired .comment l = true) :
    quotesPaired .outside (l.dropWhile (fun x => x != '\n')) = true := by
  induction l with
  | nil => rfl
  | cons c r ih =>
    rw [quotesPaired] at h
    rw [List.dropWhile_cons]
    by_cases hc : c = '\n'
    · subst hc
      simp only [if_true] at h
      simp only [bne_self_eq_false, Bool.false_eq_true, if_false]
      rw [quotesPaired_outside_cons (by decide)]
      exact h
    · simp only [hc, if_false] at h
      have : (c != '\n') = true := by simpa using hc
      simp only [this, if_true]
      exact ih h

theorem quotesPaired_string (q : Char) (l : List Char)
    (h : quotesPaired (.string q) l = true) :
    ∃ s rest, l = s ++ q :: rest ∧ q ∉ s ∧ quotesPaired .outside rest = true := by
  induction l with
  | nil => simp [quotesPaired] at h
  | cons c r ih =>
    rw [quotesPaired] at h
    by_cases hc : c = q
    · subst hc
      simp only [if_true] at h
      exact ⟨[], r, rfl, by simp, h⟩
    · simp only [hc, if_false] at h
      obtain ⟨s, rest, hl, hs, hrest⟩ := ih h
      refine ⟨c :: s, rest, by simp [hl], ?_, hrest⟩
      simp only [List.mem_cons, not_or]
      exact ⟨fun heq => hc heq.symm, hs⟩

theorem tokenizeLoop_no_throw (source : List Char)
    (hvalid : ∀ c ∈ source, isValidChar c = true) :
    ∀ (fuel i : Nat) (tokens : List Token), quotesPaired .outside (source.drop i) = true →
      ∀ e, tokenizeLoop source fuel i tokens ≠ .throw e := by
  intro fuel
  induction fuel with
  | zero => intro i tokens _ e; simp [tokenizeLoop]
  | succ fuel ih =>
    intro i tokens hq e
    cases hc : source[i]? with
    | none => rw [tokenizeLoop, hc]; simp
    | some c =>
      have hdrop := drop_of_getElem? hc
      have hq0 := hq
      rw [hdrop] at hq
      by_cases hquote : c = dquote ∨ c = squote
      · have hns := quote_not_special hquote
        rw [quotesPaired] at hq
        simp only [hns.2, hquote, if_false, if_true] at hq
        obtain ⟨s, rest, hl, hs, hrest⟩ := quotesPaired_string c _ hq
        rw [hl] at hdrop
        rw [tokenizeLoop_string source fuel i tokens c s rest hquote hdrop hs]
        apply ih
        have : source.drop (i + 1 + s.length + 1) = rest := by
          rw [Nat.add_assoc, Nat.add_assoc, drop_add_of_drop hdrop]
          have : 1 + (s.length + 1) = (s.length + 1) + 1 := by omega
          rw [this, List.drop_succ_cons]
          simp
        rw [this]
        exact hrest
      · rw [tokenizeLoop, hc]
        dsimp only
        split_ifs with h1 h2 h4 h5 h6 h7 h8
        · apply ih
          rw [quotesPaired_outside_cons (isSpace_not_special h1)] at hq
          exact hq
        · apply ih
          rw [drop_scanWhile, hdrop, List.dropWhile_cons]
          subst h2
          rw [quotesPaired] at hq
          simp only [if_true] at hq
          simpa using quotesPaired_comment _ hq
        · apply ih
          have hdot : source.drop (scanWhile isDigit source i) =
              '.' :: source.drop (scanWhile isDigit source i + 1) := drop_of_getElem? h5
          have h0 := quotesPaired_dropWhile isDigit
            (fun c hc => ⟨(isDigit_not_special hc).2.1, (isDigit_not_special hc).2.2⟩) _
            hq0
          rw [← drop_scanWhile, hdot, quotesPaired_outside_cons (by decide)] at h0
          rw [drop_scanWhile]
          exact quotesPaired_dropWhile isDigit
            (fun c hc => ⟨(isDigit_not_special hc).2.1, (isDigit_not_special hc).2.2⟩) _ h0
        · apply ih
          rw [drop_scanWhile]
          exact quotesPaired_dropWhile isDigit
            (fun c hc => ⟨(isDigit_not_special hc).2.1, (isDigit_not_special hc).2.2⟩) _
            hq0
        · apply ih
          rw [drop_scanWhile]
          exact quotesPaired_dropWhile isDigit
            (fun c hc => ⟨(isDigit_not_special hc).2.1, (isDigit_not_special hc).2.2⟩) _
            hq0
        · apply ih
          rw [drop_scanWhile]
          exact quotesPaired_dropWhile isAlnum (fun c hc => isAlnum_not_special hc) _
            hq0
        · apply ih
          have hcq : c ≠ '#' ∧ c ≠ dquote ∧ c ≠ squote :=
            ⟨h2, fun h => hquote (Or.inl h), fun h => hquote (Or.inr h)⟩
          rw [quotesPaired_outside_cons hcq] at hq
          exact hq
        · exfalso
          have hv := hvalid c (List.getElem?_mem hc)
          simp only [isValidChar, Bool.or_eq_true, beq_iff_eq] at hv
          have hnq : ¬ c = dquote ∧ ¬ c = squote :=
            ⟨fun h => hquote (Or.inl h), fun h => hquote (Or.inr h)⟩
          simp [h1, h2, hnq.1, hnq.2, h4, h7, h8] at hv

end SpellCast
namespace SpellCast
open Parser

@[simp] theorem Outcome.ok_bind {ε α β : Type} (a : α) (f : α → Outcome ε β) :
    (Outcome.ok a >>= f) = f a := rfl

@[simp] theorem Outcome.throw_bind {ε α β : Type} (e : ε) (f : α → Outcome ε β) :
    ((Outcome.throw e : Outcome ε α) >>= f) = Outcome.throw e := rfl

@[simp] theorem Outcome.outOfFuel_bind {ε α β : Type} (f : α → Outcome ε β) :
    ((Outcome.outOfFuel : Outcome ε α) >>= f) = Outcome.outOfFuel := rfl

theorem parseBlockLoop_stuck (tokens : List Token) (current : Nat)
    (hend : isAtEnd tokens current = false)
    (hdone : checkVal tokens current "done" = false)
    (helse : checkVal tokens current "else" = false)
    (hstmt : ∀ fuel, parseStatement tokens (fuel + 1) current = .ok (none, current)) :
    ∀ fuel block, parseBlockLoop tokens fuel current block = .outOfFuel := by
  intro fuel
  induction fuel with
  | zero => intro block; rfl
  | succ fuel ih =>
    intro block
    rw [parseBlockLoop]
    simp only [hend, hdone, helse, Bool.not_false, Bool.and_self, if_true]
    cases fuel with
    | zero => rfl
    | succ fuel =>
      rw [hstmt fuel]
      exact ih _

theorem parseWhileStatement_stuck (tokens : List Token) (node : Node) (c1 c2 c3 c4 : Nat)
    (h1 : consumeKeywords tokens "whilst the spell" 0 = .ok c1)
    (h2 : ∀ fuel, parseExpression tokens (fuel + 1) c1 = .ok (node, c2))
    (h3 : consumeKeywords tokens "is true" c2 = .ok c3)
    (h4 : consumeKeywords tokens "do" c3 = .ok c4)
    (h5 : ∀ fuel block, parseBlockLoop tokens fuel c4 block = .outOfFuel) :
    ∀ fuel, parseWhileStatement tokens fuel 0 = .outOfFuel := by
  intro fuel
  cases fuel with
  | zero => rfl
  | succ fuel =>
    rw [parseWhileStatement, h1]
    cases fuel with
    | zero => rfl
    | succ fuel =>
      simp only [Outcome.ok_bind, h2 fuel, h3]
      rw [parseBlock, h4]
      simp only [Outcome.ok_bind, h5, Outcome.outOfFuel_bind]

theorem parse_while_stuck (tokens : List Token)
    (h0 : isAtEnd tokens 0 = false)
    (hshout : checkVal tokens 0 "shout" = false)
    (hcreate : checkVal tokens 0 "create" = false)
    (hcast : checkVal tokens 0 "cast" = false)
    (hset : checkVal tokens 0 "set" = false)
    (hwhilst : checkVal tokens 0 "whilst" = true)
    (hw : ∀ fuel, parseWhileStatement tokens fuel 0 = .outOfFuel) :
    ∀ fuel, parse fuel tokens = .outOfFuel := by
  intro fuel
  cases fuel with
  | zero => rfl
  | succ fuel =>
    rw [parse, parseLoop]
    simp only [h0, Bool.not_false, if_true]
    cases fuel with
    | zero => rfl
    | succ fuel =>
      rw [parseStatement]
      simp only [h0, hshout, hcreate, hcast, hset, hwhilst, Bool.false_eq_true, if_false,
        if_true, hw, Outcome.outOfFuel_bind]

end SpellCast
namespace SpellCast
open Parser

theorem executeStatements_keepsOutput (ev : Node → Environment → World → Eval)
    (hev : KeepsOutput ev) (statements : List (Option Node)) :
    ∀ env world w, (executeStatements ev statements env world).world? = some w →
      w.outputCalls = world.outputCalls := by
  induction statements with
  | nil =>
    intro env world w h
    simp only [executeStatements, Eval.world?, Option.some.injEq] at h
    rw [← h]
  | cons s rest ih =>
    intro env world w h
    cases s with
    | none =>
      simp only [executeStatements, Eval.world?, Option.some.injEq] at h
      rw [← h]
    | some statement =>
      rw [executeStatements] at h
      cases hs : ev statement env world with
      | ok r =>
        obtain ⟨v, env1, world1⟩ := r
        rw [hs] at h
        have h1 := hev statement env world world1 (by rw [hs]; rfl)
        rw [ih env1 world1 w h, h1]
      | throw r =>
        obtain ⟨e, env1, world1⟩ := r
        rw [hs] at h
        simp only [Eval.world?, Option.some.injEq] at h
        rw [← h]
        exact hev statement env world world1 (by rw [hs]; rfl)
      | outOfFuel =>
        rw [hs] at h
        cases h

theorem leaveBlock_world (parentEnv : Environment) (r : Eval) :
    (leaveBlock parentEnv r).world? = r.world? := by
  cases r with
  | ok a => rfl
  | throw a => rfl
  | outOfFuel => rfl

theorem executeBlock_keepsOutput (ev : Node → Environment → World → Eval)
    (hev : KeepsOutput ev) (statements : List (Option Node)) (env : Environment)
    (world w : World) (h : (executeBlock ev statements env world).world? = some w) :
    w.outputCalls = world.outputCalls := by
  rw [executeBlock, leaveBlock_world] at h
  exact executeStatements_keepsOutput ev hev statements _ _ _ h

theorem evalBinary_keepsOutput (ev : Node → Environment → World → Eval)
    (hev : KeepsOutput ev) (left right : Node) (env : Environment) (world w : World)
    (op : Value → Value → Value)
    (h : (evalBinary ev left right env world op).world? = some w) :
    w.outputCalls = world.outputCalls := by
  rw [evalBinary] at h
  cases hl : ev left env world with
  | ok r =>
    obtain ⟨v, env1, world1⟩ := r
    rw [hl] at h
    dsimp only at h
    have h1 := hev left env world world1 (by rw [hl]; rfl)
    cases hr : ev right env1 world1 with
    | ok r2 =>
      obtain ⟨v2, env2, world2⟩ := r2
      rw [hr] at h
      simp only [Eval.world?, Option.some.injEq] at h
      rw [← h, hev right env1 world1 world2 (by rw [hr]; rfl), h1]
    | throw r2 =>
      obtain ⟨e2, env2, world2⟩ := r2
      rw [hr] at h
      simp only [Eval.world?, Option.some.injEq] at h
      rw [← h, hev right env1 world1 world2 (by rw [hr]; rfl), h1]
    | outOfFuel =>
      rw [hr] at h
      cases h
  | throw r =>
    obtain ⟨e, env1, world1⟩ := r
    rw [hl] at h
    simp only [Eval.world?, Option.some.injEq] at h
    rw [← h]
    exact hev left env world world1 (by rw [hl]; rfl)
  | outOfFuel =>
    rw [hl] at h
    cases h


theorem evaluate_keepsOutput (host : Host) : ∀ fuel, KeepsOutput (evaluate host fuel) := by
  intro fuel
  induction fuel with
  | zero => intro node env world w h; cases h
  | succ fuel ih =>
    intro node env world w h
    cases node with
    | STRING value => simp only [evaluate, Eval.world?, Option.some.injEq] at h; rw [← h]
    | INTEGER value => simp only [evaluate, Eval.world?, Option.some.injEq] at h; rw [← h]
    | FLOAT value => simp only [evaluate, Eval.world?, Option.some.injEq] at h; rw [← h]
    | IDENTIFIER value =>
      rw [evaluate] at h
      split at h <;> (simp only [Eval.world?, Option.some.injEq] at h; rw [← h])
    | CREATE name value =>
      rw [evaluate] at h
      cases hs : evaluate host fuel value env world with
      | ok a =>
        obtain ⟨v, env1, world1⟩ := a
        rw [hs] at h
        dsimp only at h
        have h1 := ih value env world world1 (by rw [hs]; rfl)
        rw [← h1]
        split at h <;> (simp only [Eval.world?, Option.some.injEq] at h; rw [← h])
      | throw a =>
        obtain ⟨e, env1, world1⟩ := a
        rw [hs] at h
        simp only [Eval.world?, Option.some.injEq] at h
        rw [← h]
        exact ih value env world world1 (by rw [hs]; rfl)
      | outOfFuel => rw [hs] at h; cases h
    | SET name value =>
      rw [evaluate] at h
      cases hs : evaluate host fuel value env world with
      | ok a =>
        obtain ⟨v, env1, world1⟩ := a
        rw [hs] at h
        dsimp only at h
        have h1 := ih value env world world1 (by rw [hs]; rfl)
        rw [← h1]
        split at h
        · split at h <;> (simp only [Eval.world?, Option.some.injEq] at h; rw [← h])
        · simp only [Eval.world?, Option.some.injEq] at h; rw [← h]
      | throw a =>
        obtain ⟨e, env1, world1⟩ := a
        rw [hs] at h
        simp only [Eval.world?, Option.some.injEq] at h
        rw [← h]
        exact ih value env world world1 (by rw [hs]; rfl)
      | outOfFuel => rw [hs] at h; cases h
    | PRINT value =>
      rw [evaluate] at h
      cases hs : evaluate host fuel value env world with
      | ok a =>
        obtain ⟨v, env1, world1⟩ := a
        rw [hs] at h
        dsimp only at h
        have h1 := ih value env world world1 (by rw [hs]; rfl)
        rw [← h1]
        split at h <;> (simp only [Eval.world?, Option.some.injEq] at h; rw [← h])
      | throw a =>
        obtain ⟨e, env1, world1⟩ := a
        rw [hs] at h
        simp only [Eval.world?, Option.some.injEq] at h
        rw [← h]
        exact ih value env world world1 (by rw [hs]; rfl)
      | outOfFuel => rw [hs] at h; cases h
    | ADD left right => exact evalBinary_keepsOutput _ ih _ _ _ _ _ _ (by rw [evaluate] at h; exact h)
    | SUBTRACT left right => exact evalBinary_keepsOutput _ ih _ _ _ _ _ _ (by rw [evaluate] at h; exact h)
    | MULTIPLY left right => exact evalBinary_keepsOutput _ ih _ _ _ _ _ _ (by rw [evaluate] at h; exact h)
    | DIVIDE left right =>
      rw [evaluate] at h
      cases hs : evaluate host fuel right env world with
      | ok a =>
        obtain ⟨v, env1, world1⟩ := a
        rw [hs] at h
        dsimp only at h
        have h1 := ih right env world world1 (by rw [hs]; rfl)
        rw [← h1]
        split at h
        · simp only [Eval.world?, Option.some.injEq] at h; rw [← h]
        · cases hl : evaluate host fuel left env1 world1 with
          | ok a =>
            obtain ⟨l, env2, world2⟩ := a
            rw [hl] at h
            simp only [Eval.world?, Option.some.injEq] at h
            rw [← h]
            exact ih left env1 world1 world2 (by rw [hl]; rfl)
          | throw a =>
            obtain ⟨e, env2, world2⟩ := a
            rw [hl] at h
            simp only [Eval.world?, Option.some.injEq] at h
            rw [← h]
            exact ih left env1 world1 world2 (by rw [hl]; rfl)
          | outOfFuel => rw [hl] at h; cases h
      | throw a =>
        obtain ⟨e, env1, world1⟩ := a
        rw [hs] at h
        simp only [Eval.world?, Option.some.injEq] at h
        rw [← h]
        exact ih right env world world1 (by rw [hs]; rfl)
      | outOfFuel => rw [hs] at h; cases h
    | EQUAL left right => exact evalBinary_keepsOutput _ ih _ _ _ _ _ _ (by rw [evaluate] at h; exact h)
    | NOTEQUAL left right => exact evalBinary_keepsOutput _ ih _ _ _ _ _ _ (by rw [evaluate] at h; exact h)
    | GREATER left right => exact evalBinary_keepsOutput _ ih _ _ _ _ _ _ (by rw [evaluate] at h; exact h)
    | LESS left right => exact evalBinary_keepsOutput _ ih _ _ _ _ _ _ (by rw [evaluate] at h; exact h)
    | INPUT =>
      rw [evaluate] at h
      split at h <;> (simp only [Eval.world?, Option.some.injEq] at h; rw [← h])
    | ORD value =>
      rw [evaluate] at h
      cases hs : evaluate host fuel value env world with
      | ok a =>
        obtain ⟨v, env1, world1⟩ := a
        rw [hs] at h
        dsimp only at h
        have h1 := ih value env world world1 (by rw [hs]; rfl)
        rw [← h1]
        split at h <;> (simp only [Eval.world?, Option.some.injEq] at h; rw [← h])
      | throw a =>
        obtain ⟨e, env1, world1⟩ := a
        rw [hs] at h
        simp only [Eval.world?, Option.some.injEq] at h
        rw [← h]
        exact ih value env world world1 (by rw [hs]; rfl)
      | outOfFuel => rw [hs] at h; cases h
    | CHR value =>
      rw [evaluate] at h
      cases hs : evaluate host fuel value env world with
      | ok a =>
        obtain ⟨v, env1, world1⟩ := a
        rw [hs] at h
        dsimp only at h
        have h1 := ih value env world world1 (by rw [hs]; rfl)
        rw [← h1]
        split at h <;> (simp only [Eval.world?, Option.some.injEq] at h; rw [← h])
      | throw a =>
        obtain ⟨e, env1, world1⟩ := a
        rw [hs] at h
        simp only [Eval.world?, Option.some.injEq] at h
        rw [← h]
        exact ih value env world world1 (by rw [hs]; rfl)
      | outOfFuel => rw [hs] at h; cases h
    | IF condition code else_ =>
      rw [evaluate] at h
      cases hs : evaluate host fuel condition env world with
      | ok a =>
        obtain ⟨v, env1, world1⟩ := a
        rw [hs] at h
        dsimp only at h
        have h1 := ih condition env world world1 (by rw [hs]; rfl)
        rw [← h1]
        have blk : ∀ (block : List (Option Node)) (w2 : World),
            (executeBlock (evaluate host fuel) block env1 world1).world? = some w2 →
            w2.outputCalls = world1.outputCalls :=
          fun block w2 hb => executeBlock_keepsOutput _ ih block env1 world1 w2 hb
        split at h
        · cases hb : executeBlock (evaluate host fuel) code env1 world1 with
          | ok a => rw [hb] at h; exact blk code w (by rw [hb]; exact h)
          | throw a => rw [hb] at h; exact blk code w (by rw [hb]; exact h)
          | outOfFuel => rw [hb] at h; cases h
        · split at h
          · rename_i block
            cases hb : executeBlock (evaluate host fuel) block env1 world1 with
            | ok a => rw [hb] at h; exact blk block w (by rw [hb]; exact h)
            | throw a => rw [hb] at h; exact blk block w (by rw [hb]; exact h)
            | outOfFuel => rw [hb] at h; cases h
          · simp only [Eval.world?, Option.some.injEq] at h; rw [← h]
      | throw a =>
        obtain ⟨e, env1, world1⟩ := a
        rw [hs] at h
        simp only [Eval.world?, Option.some.injEq] at h
        rw [← h]
        exact ih condition env world world1 (by rw [hs]; rfl)
      | outOfFuel => rw [hs] at h; cases h
    | WHILE condition code =>
      rw [evaluate] at h
      cases hs : evaluate host fuel condition env world with
      | ok a =>
        obtain ⟨v, env1, world1⟩ := a
        rw [hs] at h
        dsimp only at h
        have h1 := ih condition env world world1 (by rw [hs]; rfl)
        rw [← h1]
        split at h
        · cases hb : executeBlock (evaluate host fuel) code env1 world1 with
          | ok a =>
            obtain ⟨b, env2, world2⟩ := a
            rw [hb] at h
            rw [ih _ env2 world2 w h]
            exact executeBlock_keepsOutput _ ih code env1 world1 world2 (by rw [hb]; rfl)
          | throw a =>
            obtain ⟨e, env2, world2⟩ := a
            rw [hb] at h
            simp only [Eval.world?, Option.some.injEq] at h
            rw [← h]
            exact executeBlock_keepsOutput _ ih code env1 world1 world2 (by rw [hb]; rfl)
          | outOfFuel => rw [hb] at h; cases h
        · simp only [Eval.world?, Option.some.injEq] at h; rw [← h]
      | throw a =>
        obtain ⟨e, env1, world1⟩ := a
        rw [hs] at h
        simp only [Eval.world?, Option.some.injEq] at h
        rw [← h]
        exact ih condition env world world1 (by rw [hs]; rfl)
      | outOfFuel => rw [hs] at h; cases h

end SpellCast
namespace SpellCast
open Parser

/-- C1 fails on the code: the PRINT case passes the evaluated operand, uncoerced, to
`process.stdout.write` and never calls `outputFn`.  For the program
`shout the many cries of combine the power of 2 and 3` the number 5 goes to
`process.stdout.write` (which may throw), on every host; evaluating any node leaves the
list of calls of `outputFn` as it was; and under Node.js the whole run delivers to
`outputFn` one error report and never the text `5`. -/
theorem print_bypasses_output_sink (host : Host) (env : Environment) (world : World) :
    tokenize "shout the many cries of combine the power of 2 and 3" =
      .ok [⟨.IDENTIFIER, "shout"⟩, ⟨.IDENTIFIER, "the"⟩, ⟨.IDENTIFIER, "many"⟩,
        ⟨.IDENTIFIER, "cries"⟩, ⟨.IDENTIFIER, "of"⟩, ⟨.IDENTIFIER, "combine"⟩,
        ⟨.IDENTIFIER, "the"⟩, ⟨.IDENTIFIER, "power"⟩, ⟨.IDENTIFIER, "of"⟩, ⟨.INTEGER, "2"⟩,
        ⟨.IDENTIFIER, "and"⟩, ⟨.INTEGER, "3"⟩, eofToken] ∧
    parse 4 [⟨.IDENTIFIER, "shout"⟩, ⟨.IDENTIFIER, "the"⟩, ⟨.IDENTIFIER, "many"⟩,
        ⟨.IDENTIFIER, "cries"⟩, ⟨.IDENTIFIER, "of"⟩, ⟨.IDENTIFIER, "combine"⟩,
        ⟨.IDENTIFIER, "the"⟩, ⟨.IDENTIFIER, "power"⟩, ⟨.IDENTIFIER, "of"⟩, ⟨.INTEGER, "2"⟩,
        ⟨.IDENTIFIER, "and"⟩, ⟨.INTEGER, "3"⟩, eofToken] =
      .ok [.PRINT (.ADD (.INTEGER (.finite 2)) (.INTEGER (.finite 3)))] ∧
    evaluate host 3 (.PRINT (.ADD (.INTEGER (.finite 2)) (.INTEGER (.finite 3)))) env world =
      (match host.stdoutWrite (.number (.finite 5)) with
        | none => .ok (.null, env, { world with stdout := world.stdout ++ [.number (.finite 5)] })
        | some m => .throw (.host m, env, world)) ∧
    (∀ fuel node w, (evaluate host fuel node env world).world? = some w →
      w.outputCalls = world.outputCalls) ∧
    run exampleHost 3 [.PRINT (.ADD (.INTEGER (.finite 2)) (.INTEGER (.finite 3)))]
        World.initial =
      some (.root [], { stdout := [], inputCalls := [], outputCalls :=
        [("Runtime Error: " ++ (RuntimeError.host ("The " ++ String.mk [dquote] ++ "chunk" ++
            String.mk [dquote] ++
            " argument must be of type string or an instance of Buffer, TypedArray, or DataView.")).message,
          some "error")] }) := by
  refine ⟨by decide, by rfl, ?_, fun fuel node w h => evaluate_keepsOutput host fuel node env world w h, ?_⟩
  · have h5 : JSNumber.add (.finite 2) (.finite 3) = .finite 5 := by
      simp only [JSNumber.add]; norm_num
    cases hw : host.stdoutWrite (.number (.finite 5)) <;>
      simp only [evaluate, evalBinary, Host.jsAdd, Host.toNumber, h5, hw]
  · have h5 : JSNumber.add (.finite 2) (.finite 3) = .finite 5 := by
      simp only [JSNumber.add]; norm_num
    simp only [run, runStatements, evaluate, evalBinary, Host.jsAdd, Host.toNumber, h5,
      exampleHost, nodeStdoutWrite, World.initial, List.append_nil, List.nil_append]

end SpellCast
namespace SpellCast
open Parser

/-- C2 fails on the code: on the tokens of `whilst the spell 1 is true do` (the block
reaches EOF before `done`) and on those of `whilst the spell 1 is true do 5 done` (the
block reaches a token that starts no statement), `parse` neither returns nor throws,
whatever fuel its loops are given: the loop of `parseBlock` finds that `isAtEnd` is
false, gets `null` from `parseStatement` without moving the cursor, and repeats. -/
theorem parse_unclosed_block_never_returns :
    tokenize "whilst the spell 1 is true do" = .ok unclosedTokens ∧
    (∀ fuel, parse fuel unclosedTokens = .outOfFuel) ∧
    tokenize "whilst the spell 1 is true do 5 done" = .ok strayTokens ∧
    (∀ fuel, parse fuel strayTokens = .outOfFuel) :=
  ⟨by decide,
   parse_while_stuck unclosedTokens (by decide) (by decide) (by decide) (by decide) (by decide)
    (by decide)
    (parseWhileStatement_stuck unclosedTokens (.INTEGER (.finite 1)) 3 4 6 7 (by decide)
      (by intro fuel; rfl) (by decide) (by decide)
      (parseBlockLoop_stuck unclosedTokens 7 (by decide) (by decide) (by decide)
        (by intro fuel; rfl))),
   by decide,
   parse_while_stuck strayTokens (by decide) (by decide) (by decide) (by decide) (by decide)
    (by decide)
    (parseWhileStatement_stuck strayTokens (.INTEGER (.finite 1)) 3 4 6 7 (by decide)
      (by intro fuel; rfl) (by decide) (by decide)
      (parseBlockLoop_stuck strayTokens 7 (by decide) (by decide) (by decide)
        (by intro fuel; rfl)))⟩

end SpellCast
namespace SpellCast
open Parser

/-- C3: when the right operand of a DIVIDE node evaluates to the number zero,
`evaluate` throws the division-by-zero error in the state the right operand left: the
left operand is not evaluated and nothing is divided.  So the node parsed from
`split the power of 10 0 times` fails, and a PRINT of it fails the same way with
nothing written: the world is unchanged. -/
theorem divide_by_zero_fails (host : Host) (fuel : Nat) (left right : Node)
    (env env1 : Environment) (world world1 : World)
    (h : evaluate host fuel right env world = .ok (.number (.finite 0), env1, world1)) :
    evaluate host (fuel + 1) (.DIVIDE left right) env world =
      .throw (.divisionByZero, env1, world1) ∧
    tokenize "split the power of 10 0 times" =
      .ok [⟨.IDENTIFIER, "split"⟩, ⟨.IDENTIFIER, "the"⟩, ⟨.IDENTIFIER, "power"⟩,
        ⟨.IDENTIFIER, "of"⟩, ⟨.INTEGER, "10"⟩, ⟨.INTEGER, "0"⟩, ⟨.IDENTIFIER, "times"⟩,
        eofToken] ∧
    parseExpression [⟨.IDENTIFIER, "split"⟩, ⟨.IDENTIFIER, "the"⟩, ⟨.IDENTIFIER, "power"⟩,
        ⟨.IDENTIFIER, "of"⟩, ⟨.INTEGER, "10"⟩, ⟨.INTEGER, "0"⟩, ⟨.IDENTIFIER, "times"⟩,
        eofToken] 2 0 =
      .ok (.DIVIDE (.INTEGER (.finite 10)) (.INTEGER (.finite 0)), 7) ∧
    evaluate host 2 (.DIVIDE (.INTEGER (.finite 10)) (.INTEGER (.finite 0))) env world =
      .throw (.divisionByZero, env, world) ∧
    evaluate host 3 (.PRINT (.DIVIDE (.INTEGER (.finite 10)) (.INTEGER (.finite 0)))) env world =
      .throw (.divisionByZero, env, world) := by
  refine ⟨?_, by decide, by rfl, ?_, ?_⟩
  · rw [evaluate, h]
    simp [Value.strictEquals]
  · simp [evaluate, Value.strictEquals]
  · simp [evaluate, Value.strictEquals]

theorem divide_by_zero_fails_witness :
    evaluate exampleHost 1 (.INTEGER (.finite 0)) (.root []) World.initial =
      .ok (.number (.finite 0), .root [], World.initial) ∧
    evaluate exampleHost (1 + 1) (.DIVIDE .INPUT (.INTEGER (.finite 0))) (.root []) World.initial =
      .throw (.divisionByZero, .root [], World.initial) :=
  ⟨rfl, (divide_by_zero_fails exampleHost 1 .INPUT (.INTEGER (.finite 0)) (.root []) (.root [])
    World.initial World.initial rfl).1⟩

end SpellCast
namespace SpellCast

/-- C4: when some scope of the chain defines the name, `assign` on the innermost scope
returns normally and changes exactly one map of the chain: the chain splits into the
scopes `pre` that do not define the name, the nearest scope `s` that does, and the
scopes `post` behind it; afterwards the chain is `pre`, then `s` with the name set to
the value (the other names of `s` keep their values), then `post`.  So a name defined
only in an ancestor is updated there and the scopes before it gain no binding. -/
theorem assign_updates_nearest_defining_scope (name : String) (value : Value)
    (env : Environment) (h : ∃ vs ∈ env.scopes, Variables.has vs name = true) :
    ∃ pre s post, env.scopes = pre ++ s :: post ∧
      (∀ vs ∈ pre, Variables.has vs name = false) ∧ Variables.has s name = true ∧
      (env.assign name value).1 = .ok () ∧
      (env.assign name value).2.scopes = pre ++ Variables.set s name value :: post ∧
      Variables.get (Variables.set s name value) name = some value ∧
      ∀ other, other ≠ name →
        Variables.get (Variables.set s name value) other = Variables.get s other := by
  obtain ⟨pre, s, post, h1, h2, h3, h4, h5⟩ := Environment.assign_of_defined name value env h
  exact ⟨pre, s, post, h1, h2, h3, h4, h5, Variables.get_set_self s name value,
    fun other hne => Variables.get_set_other s name other value hne⟩

theorem assign_updates_nearest_defining_scope_witness :
    (∃ vs ∈ (Environment.child [("y", .null)]
        (.child [("x", .boolean true)] (.root [("x", .null)]))).scopes,
      Variables.has vs "x" = true) ∧
    ∃ pre s post,
      (Environment.child [("y", .null)]
        (.child [("x", .boolean true)] (.root [("x", .null)]))).scopes = pre ++ s :: post ∧
      (∀ vs ∈ pre, Variables.has vs "x" = false) ∧ Variables.has s "x" = true ∧
      ((Environment.child [("y", .null)]
        (.child [("x", .boolean true)] (.root [("x", .null)]))).assign "x" (.string "v")).1 =
          .ok () ∧
      ((Environment.child [("y", .null)]
        (.child [("x", .boolean true)] (.root [("x", .null)]))).assign "x"
          (.string "v")).2.scopes = pre ++ Variables.set s "x" (.string "v") :: post ∧
      Variables.get (Variables.set s "x" (.string "v")) "x" = some (.string "v") ∧
      ∀ other, other ≠ "x" →
        Variables.get (Variables.set s "x" (.string "v")) other = Variables.get s other :=
  ⟨⟨[("x", .boolean true)], by decide, by decide⟩,
    assign_updates_nearest_defining_scope "x" (.string "v") _
      ⟨[("x", .boolean true)], by decide, by decide⟩⟩

end SpellCast
namespace SpellCast

/-- C5: `define` on a child scope changes the map of that scope only: the parent chain
of the result is the parent chain it had (so every ancestor map, and what `get`
returns on the parent, is unchanged), the map of the child is its old map with the
name set, and `get` of the name on the child then returns the value. -/
theorem define_changes_current_scope_only (vars : Variables) (parent : Environment)
    (name : String) (value : Value) :
    ((Environment.child vars parent).define name value).parent = some parent ∧
    ((Environment.child vars parent).define name value).scopes =
      Variables.set vars name value :: parent.scopes ∧
    ((Environment.child vars parent).define name value).get name = .ok value := by
  refine ⟨rfl, rfl, ?_⟩
  simp only [Environment.define, Environment.withVariables, Environment.vars, Environment.get,
    Variables.get_set_self]

end SpellCast
namespace SpellCast

/-- C6: when no scope of the chain defines the name, whatever the depth of the chain,
`get` and `assign` on the innermost scope both throw the undefined-variable error, and
the chain after the failed `assign` is the chain before it. -/
theorem undefined_name_fails (name : String) (value : Value) (env : Environment)
    (h : ∀ vs ∈ env.scopes, Variables.has vs name = false) :
    env.get name = .error (.undefinedVariable name) ∧
    env.assign name value = (.error (.undefinedVariable name), env) :=
  ⟨Environment.get_of_undefined name env h, Environment.assign_of_undefined name value env h⟩

theorem undefined_name_fails_witness :
    (∀ vs ∈ (Environment.child [("y", .null)] (.child [] (.root [("z", .null)]))).scopes,
      Variables.has vs "x" = false) ∧
    (Environment.child [("y", .null)] (.child [] (.root [("z", .null)]))).get "x" =
      .error (.undefinedVariable "x") ∧
    (Environment.child [("y", .null)] (.child [] (.root [("z", .null)]))).assign "x"
        (.boolean true) =
      (.error (.undefinedVariable "x"),
        Environment.child [("y", .null)] (.child [] (.root [("z", .null)]))) :=
  ⟨by decide, undefined_name_fails "x" (.boolean true) _ (by decide)⟩

end SpellCast
namespace SpellCast

/-- C7: `tokenize` terminates on every source text (the fuel it gives its main loop
never runs out), and a token sequence it returns is some tokens none of which has
kind EOF followed by the EOF token: it is not empty, its last token has kind EOF and
no other token has. -/
theorem tokenize_terminates_with_single_eof (source : String) :
    tokenize source ≠ .outOfFuel ∧
    ∀ ts, tokenize source = .ok ts →
      ∃ init, ts = init ++ [eofToken] ∧ eofToken.kind = .EOF ∧ ∀ t ∈ init, t.kind ≠ .EOF := by
  constructor
  · exact tokenizeLoop_terminates source.data _ 0 [] (by omega) (by omega)
  · intro ts h
    obtain ⟨init, h1, h2⟩ := tokenizeLoop_shape source.data _ 0 [] ts (by simp) h
    exact ⟨init, h1, rfl, h2⟩

theorem tokenize_terminates_with_single_eof_witness :
    tokenize "x = 12" ≠ .outOfFuel ∧
    ∃ init, [⟨.IDENTIFIER, "x"⟩, ⟨.SYMBOL, "="⟩, ⟨.INTEGER, "12"⟩, eofToken] = init ++ [eofToken] ∧
      eofToken.kind = .EOF ∧ ∀ t ∈ init, t.kind ≠ .EOF :=
  ⟨(tokenize_terminates_with_single_eof "x = 12").1,
    (tokenize_terminates_with_single_eof "x = 12").2 _ (by decide)⟩

end SpellCast
namespace SpellCast

/-- C8, as stated, fails: in the text of the four characters double quote, single
quote, double quote, single quote each quote occurs twice and every character is
valid, yet `tokenize` throws the unterminated-string error (the last quote opens a
string that is never closed). -/
theorem even_quote_counts_counterexample :
    [dquote, squote, dquote, squote].count dquote % 2 = 0 ∧
    [dquote, squote, dquote, squote].count squote % 2 = 0 ∧
    (∀ c ∈ [dquote, squote, dquote, squote], isValidChar c = true) ∧
    tokenize (String.mk [dquote, squote, dquote, squote]) = .throw (.unterminatedString 3) := by
  decide

/-- C8, amended: on a source text of valid characters whose quotes are paired the way
the lexer reads them (every quote met outside comments and strings is followed by the
same quote), `tokenize` does not throw: it returns a token sequence. -/
theorem tokenize_never_throws_on_paired_quotes (source : String)
    (hvalid : ∀ c ∈ source.data, isValidChar c = true)
    (hpaired : quotesPaired .outside source.data = true) :
    ∃ ts, tokenize source = .ok ts := by
  cases h : tokenize source with
  | ok ts => exact ⟨ts, rfl⟩
  | throw e =>
    exact absurd h (tokenizeLoop_no_throw source.data hvalid _ 0 [] (by simpa using hpaired) e)
  | outOfFuel =>
    exact absurd h (tokenizeLoop_terminates source.data _ 0 [] (by omega) (by omega))

theorem tokenize_never_throws_on_paired_quotes_witness :
    (∀ c ∈ (String.mk [dquote, squote, dquote, Char.ofNat 32, Char.ofNat 120]).data,
      isValidChar c = true) ∧
    quotesPaired .outside (String.mk [dquote, squote, dquote, Char.ofNat 32, Char.ofNat 120]).data
      = true ∧
    ∃ ts, tokenize (String.mk [dquote, squote, dquote, Char.ofNat 32, Char.ofNat 120]) = .ok ts :=
  ⟨by decide, by decide,
    tokenize_never_throws_on_paired_quotes _ (by decide) (by decide)⟩

end SpellCast
namespace SpellCast

/-- C9: for a quote character `q` and a text `s` without `q`, `tokenize` on `q s q`
returns the STRING token of text `s` (verbatim, whatever else `s` contains) followed
by EOF, and on `q s`, with no closing quote, it throws the unterminated-string
error. -/
theorem string_literal_verbatim (q : Char) (s : List Char) (hq : q = dquote ∨ q = squote)
    (hs : q ∉ s) :
    tokenize (String.mk (q :: (s ++ [q]))) = .ok [⟨.STRING, String.mk s⟩, eofToken] ∧
    tokenize (String.mk (q :: s)) = .throw (.unterminatedString 0) := by
  constructor
  · unfold tokenize
    simp only [List.length_cons, List.length_append, List.length_nil]
    rw [tokenizeLoop_string _ _ 0 [] q s [] hq rfl hs,
      tokenizeLoop_end _ _ _ _ (by simp only [List.length_cons, List.length_append, List.length_nil]; omega)]
    rfl
  · unfold tokenize
    exact tokenizeLoop_unterminated _ _ 0 [] q s hq rfl hs

theorem string_literal_verbatim_witness :
    (squote = dquote ∨ squote = squote) ∧
    squote ∉ [Char.ofNat 97, dquote, Char.ofNat 35, Char.ofNat 92, Char.ofNat 110, Char.ofNat 10] ∧
    tokenize (String.mk (squote ::
        ([Char.ofNat 97, dquote, Char.ofNat 35, Char.ofNat 92, Char.ofNat 110, Char.ofNat 10] ++
          [squote]))) =
      .ok [⟨.STRING,
        String.mk [Char.ofNat 97, dquote, Char.ofNat 35, Char.ofNat 92, Char.ofNat 110, Char.ofNat 10]⟩,
        eofToken] ∧
    tokenize (String.mk (squote ::
        [Char.ofNat 97, dquote, Char.ofNat 35, Char.ofNat 92, Char.ofNat 110, Char.ofNat 10])) =
      .throw (.unterminatedString 0) :=
  ⟨Or.inr rfl, by decide, string_literal_verbatim squote _ (Or.inr rfl) (by decide)⟩

end SpellCast
namespace SpellCast

/-- C10: when the main loop of `tokenize` stands on a maximal run `d` of decimal
digits: if `d` is followed by a dot and a non-empty maximal run `d2` of digits, the
loop pushes the one token FLOAT of text `d.d2` and goes on after `d2`; otherwise it
pushes the token INTEGER of text `d` and goes on right after `d`, where a dot that
follows is pushed next as a SYMBOL token.  So `12.5`, `12.` and `1.2.3` give the token
sequences of the examples. -/
theorem number_tokens (pre d rest : List Char) (tokens : List Token) (fuel : Nat)
    (hd : d ≠ []) (hdig : ∀ c ∈ d, isDigit c = true) :
    (∀ d2 rest2, rest = '.' :: (d2 ++ rest2) → d2 ≠ [] → (∀ c ∈ d2, isDigit c = true) →
      (∀ c, rest2.head? = some c → isDigit c = false) →
      tokenizeLoop (pre ++ (d ++ rest)) (fuel + 1) pre.length tokens =
        tokenizeLoop (pre ++ (d ++ rest)) fuel (pre.length + d.length + 1 + d2.length)
          (tokens ++ [⟨.FLOAT, String.mk (d ++ '.' :: d2)⟩])) ∧
    ((∀ c, rest.head? = some c → isDigit c = false) →
      (∀ c r, rest = '.' :: c :: r → isDigit c = false) →
      tokenizeLoop (pre ++ (d ++ rest)) (fuel + 1) pre.length tokens =
        tokenizeLoop (pre ++ (d ++ rest)) fuel (pre.length + d.length)
          (tokens ++ [⟨.INTEGER, String.mk d⟩]) ∧
      ∀ r, rest = '.' :: r →
        tokenizeLoop (pre ++ (d ++ rest)) (fuel + 1 + 1) pre.length tokens =
          tokenizeLoop (pre ++ (d ++ rest)) fuel (pre.length + d.length + 1)
            (tokens ++ [⟨.INTEGER, String.mk d⟩, ⟨.SYMBOL, "."⟩])) ∧
    tokenize "12.5" = .ok [⟨.FLOAT, "12.5"⟩, eofToken] ∧
    tokenize "12." = .ok [⟨.INTEGER, "12"⟩, ⟨.SYMBOL, "."⟩, eofToken] ∧
    tokenize "1.2.3" =
      .ok [⟨.FLOAT, "1.2"⟩, ⟨.SYMBOL, "."⟩, ⟨.INTEGER, "3"⟩, eofToken] := by
  have hdrop : (pre ++ (d ++ rest)).drop pre.length = d ++ rest := List.drop_left _ _
  refine ⟨?_, ?_, by decide, by decide, by decide⟩
  · intro d2 rest2 hrest hd2 hdig2 hmax
    subst hrest
    exact tokenizeLoop_float _ fuel _ tokens d d2 rest2 hdrop hd hdig hd2 hdig2 hmax
  · intro hmax hnofloat
    have hint := tokenizeLoop_integer _ (fuel + 1) _ tokens d rest hdrop hd hdig hmax hnofloat
    refine ⟨tokenizeLoop_integer _ fuel _ tokens d rest hdrop hd hdig hmax hnofloat, ?_⟩
    intro r hr
    subst hr
    rw [hint, tokenizeLoop_symbol _ fuel _ _ '.' r
      (by rw [drop_add_of_drop hdrop]; simp) (by decide)]
    simp

theorem number_tokens_witness :
    tokenizeLoop ("x=".data ++ ("12".data ++ ".5;".data)) (3 + 1) 2 [] =
      tokenizeLoop ("x=".data ++ ("12".data ++ ".5;".data)) 3 (2 + 2 + 1 + 1)
        ([] ++ [⟨.FLOAT, String.mk ("12".data ++ '.' :: "5".data)⟩]) :=
  (number_tokens "x=".data "12".data ".5;".data [] 3 (by decide) (by decide)).1
    "5".data ";".data rfl (by decide) (by decide) (by decide)

end SpellCast
namespace SpellCast

/-! ## Lexer: an unexpected character outside strings and comments -/

theorem readQuotes_outside_cons {c : Char} {rest : List Char}
    (hc : c ≠ '#' ∧ c ≠ dquote ∧ c ≠ squote) :
    readQuotes .outside (c :: rest) = readQuotes .outside rest := by
  rw [readQuotes]
  simp [hc.1, hc.2.1, hc.2.2]

theorem readQuotes_dropWhile (p : Char → Bool)
    (hp : ∀ c, p c = true → c ≠ '#' ∧ c ≠ dquote ∧ c ≠ squote) (l : List Char) :
    readQuotes .outside (l.dropWhile p) = readQuotes .outside l := by
  induction l with
  | nil => rfl
  | cons c r ih =>
    rw [List.dropWhile_cons]
    split
    · rename_i hc
      rw [readQuotes_outside_cons (hp c hc)]
      exact ih
    · rfl

theorem readQuotes_comment (l : List Char) (h : readQuotes .comment l = .outside) :
    ∃ a b, l = a ++ '\n' :: b ∧ (∀ x ∈ a, (x != '\n') = true) ∧
      readQuotes .outside b = .outside := by
  induction l with
  | nil => simp [readQuotes] at h
  | cons c r ih =>
    rw [readQuotes] at h
    by_cases hc : c = '\n'
    · subst hc
      simp only [if_true] at h
      exact ⟨[], r, rfl, by simp, h⟩
    · simp only [hc, if_false] at h
      obtain ⟨a, b, hl, ha, hb⟩ := ih h
      refine ⟨c :: a, b, by simp [hl], ?_, hb⟩
      intro x hx
      simp only [List.mem_cons] at hx
      rcases hx with rfl | hx
      · simpa using hc
      · exact ha x hx

theorem readQuotes_string (q : Char) (l : List Char)
    (h : readQuotes (.string q) l = .outside) :
    ∃ s rest, l = s ++ q :: rest ∧ q ∉ s ∧ readQuotes .outside rest = .outside := by
  induction l with
  | nil => simp [readQuotes] at h
  | cons c r ih =>
    rw [readQuotes] at h
    by_cases hc : c = q
    · subst hc
      simp only [if_true] at h
      exact ⟨[], r, rfl, by simp, h⟩
    · simp only [hc, if_false] at h
      obtain ⟨s, rest, hl, hs, hrest⟩ := ih h
      refine ⟨c :: s, rest, by simp [hl], ?_, hrest⟩
      simp only [List.mem_cons, not_or]
      exact ⟨fun heq => hc heq.symm, hs⟩

theorem dropWhile_append_stop (p : Char → Bool) (mid : List Char) (c : Char)
    (rest : List Char) (hc : p c = false) :
    (mid ++ c :: rest).dropWhile p = mid.dropWhile p ++ c :: rest := by
  induction mid with
  | nil => simp [List.dropWhile_cons, hc]
  | cons m r ih =>
    simp only [List.cons_append, List.dropWhile_cons]
    split
    · exact ih
    · rfl

theorem isValidChar_false {c : Char} (h : isValidChar c = false) :
    isSpace c = false ∧ c ≠ '#' ∧ c ≠ dquote ∧ c ≠ squote ∧ isDigit c = false ∧
      isAlpha c = false ∧ isSymbol c = false := by
  simp only [isValidChar, Bool.or_eq_false_iff, beq_eq_false_iff_ne, ne_eq] at h
  obtain ⟨⟨⟨⟨⟨⟨h1, h2⟩, h3⟩, h4⟩, h5⟩, h6⟩, h7⟩ := h
  exact ⟨h1, h2, h3, h4, h5, h6, h7⟩

theorem tokenizeLoop_unexpected (source : List Char) (c : Char) (rest : List Char)
    (hc : isValidChar c = false) :
    ∀ (fuel j : Nat) (tokens : List Token) (mid : List Char),
      source.drop j = mid ++ c :: rest → readQuotes .outside mid = .outside →
      tokenizeLoop source fuel j tokens = .outOfFuel ∨
      ∃ c' p, tokenizeLoop source fuel j tokens = .throw (.unexpectedCharacter c' p) ∧
        isValidChar c' = false := by
  obtain ⟨c1, c2, c3, c4, c5, c6, c7⟩ := isValidChar_false hc
  have c8 : isAlnum c = false := by simp [isAlnum, c5, c6]
  intro fuel
  induction fuel with
  | zero => intro j tokens mid _ _; exact Or.inl rfl
  | succ fuel ih =>
    intro j tokens mid hdrop hq
    cases mid with
    | nil =>
      right
      refine ⟨c, j, ?_, hc⟩
      rw [tokenizeLoop, getElem?_of_drop hdrop]
      simp only [c1, c2, c3, c4, c5, c6, c7, Bool.false_eq_true, if_false, or_self]
    | cons m mid' =>
      have hm : source[j]? = some m := getElem?_of_drop hdrop
      have hd1 : source.drop (j + 1) = mid' ++ c :: rest := by
        rw [drop_add_of_drop hdrop 1]; rfl
      by_cases hquote : m = dquote ∨ m = squote
      · have hns := quote_not_special hquote
        rw [readQuotes] at hq
        simp only [hns.2, hquote, if_false, if_true] at hq
        obtain ⟨s, b, hl, hs, hb⟩ := readQuotes_string m _ hq
        have hdrop' : source.drop j = m :: (s ++ m :: (b ++ c :: rest)) := by
          rw [hdrop, hl]; simp
        rw [tokenizeLoop_string source fuel j tokens m s (b ++ c :: rest) hquote hdrop' hs]
        apply ih _ _ b
        · rw [Nat.add_assoc, Nat.add_assoc, drop_add_of_drop hdrop']
          have : 1 + (s.length + 1) = (s.length + 1) + 1 := by omega
          rw [this, List.drop_succ_cons]
          simp
        · exact hb
      · rw [tokenizeLoop, hm]
        dsimp only
        have hnq : m ≠ dquote ∧ m ≠ squote :=
          ⟨fun h => hquote (Or.inl h), fun h => hquote (Or.inr h)⟩
        have digitsPlain : ∀ x, isDigit x = true → x ≠ '#' ∧ x ≠ dquote ∧ x ≠ squote :=
          fun x hx => ⟨(isDigit_not_special hx).2.1, (isDigit_not_special hx).2.2⟩
        have hrun : ∀ (p : Char → Bool), p c = false →
            (∀ x, p x = true → x ≠ '#' ∧ x ≠ dquote ∧ x ≠ squote) →
            source.drop (scanWhile p source j) = (m :: mid').dropWhile p ++ c :: rest ∧
            readQuotes .outside ((m :: mid').dropWhile p) = .outside := by
          intro p hpc hp
          refine ⟨?_, ?_⟩
          · rw [drop_scanWhile, hdrop]
            exact dropWhile_append_stop p (m :: mid') c rest hpc
          · rw [readQuotes_dropWhile p hp]; exact hq
        split_ifs with h1 h2 h4 h5 h6 h7 h8
        · apply ih _ _ mid' hd1
          rw [readQuotes_outside_cons (isSpace_not_special h1)] at hq
          exact hq
        · subst h2
          rw [readQuotes] at hq
          simp only [if_true] at hq
          obtain ⟨a, b, hl, ha, hb⟩ := readQuotes_comment _ hq
          apply ih _ _ ('\n' :: b)
          · rw [drop_scanWhile, hdrop, hl]
            have e1 : '#' :: (a ++ '\n' :: b) ++ c :: rest =
                ('#' :: a) ++ ('\n' :: (b ++ c :: rest)) := by simp
            have ha' : ∀ x ∈ '#' :: a, (x != '\n') = true := by
              intro x hx
              simp only [List.mem_cons] at hx
              rcases hx with rfl | hx
              · decide
              · exact ha x hx
            rw [e1, List.dropWhile_append_of_pos ha']
            simp [List.dropWhile_cons]
          · rw [readQuotes_outside_cons (by decide)]
            exact hb
        · obtain ⟨hd, hr⟩ := hrun isDigit c5 digitsPlain
          have hdot := drop_of_getElem? h5
          rw [hd] at hdot
          cases hmid2 : (m :: mid').dropWhile isDigit with
          | nil =>
            rw [hmid2] at hdot
            simp only [List.nil_append, List.cons.injEq] at hdot
            exact absurd hdot.1 (by rintro rfl; revert c7; decide)
          | cons x mid3 =>
            rw [hmid2] at hdot hr
            simp only [List.cons_append, List.cons.injEq] at hdot
            obtain ⟨hx, hd3⟩ := hdot
            subst hx
            rw [readQuotes_outside_cons (by decide)] at hr
            apply ih _ _ (mid3.dropWhile isDigit)
            · rw [drop_scanWhile, ← hd3]
              exact dropWhile_append_stop isDigit mid3 c rest c5
            · rw [readQuotes_dropWhile isDigit digitsPlain]; exact hr
        · obtain ⟨hd, hr⟩ := hrun isDigit c5 digitsPlain
          exact ih _ _ _ hd hr
        · obtain ⟨hd, hr⟩ := hrun isDigit c5 digitsPlain
          exact ih _ _ _ hd hr
        · obtain ⟨hd, hr⟩ := hrun isAlnum c8 (fun x hx => isAlnum_not_special hx)
          exact ih _ _ _ hd hr
        · apply ih _ _ mid' hd1
          rw [readQuotes_outside_cons ⟨h2, hnq.1, hnq.2⟩] at hq
          exact hq
        · right
          refine ⟨m, j, rfl, ?_⟩
          simp [isValidChar, h1, h2, hnq.1, hnq.2, h4, h7, h8]

end SpellCast
namespace SpellCast
open Parser

/-! ## Parser: lemmas on the cursor primitives -/

theorem Parser.isAtEnd_of_token {tokens : List Token} {c : Nat} {t : Token}
    (h : tokens[c]? = some t) : isAtEnd tokens c = false := by
  have hc : c < tokens.length := by
    by_contra hn
    rw [List.getElem?_eq_none (by omega)] at h
    cases h
  simp only [isAtEnd, peek, h, Token.type, Bool.or_eq_false_iff, decide_eq_false_iff_not]
  exact ⟨by omega, by decide⟩

theorem Parser.checkVal_of_token {tokens : List Token} {c : Nat} {t : Token}
    (h : tokens[c]? = some t) (val : String) :
    checkVal tokens c val = (t.kind == TokenKind.IDENTIFIER && t.text == val) := by
  simp only [checkVal, isAtEnd_of_token h, peek, h, Bool.false_eq_true, if_false]

theorem Parser.check_of_token {tokens : List Token} {c : Nat} {t : Token}
    (h : tokens[c]? = some t) (kind : TokenKind) :
    check tokens c kind = (t.kind == kind) := by
  simp only [check, isAtEnd_of_token h, peek, h, Bool.false_eq_true, if_false]

theorem Parser.advance_of_token {tokens : List Token} {c : Nat} {t : Token}
    (h : tokens[c]? = some t) : advance tokens c = (some t, c + 1) := by
  simp only [advance, isAtEnd_of_token h, previous, Bool.false_eq_true, if_false,
    Nat.add_one_ne_zero, Nat.add_sub_cancel, h]

theorem Parser.consumeKeywordList_of_phrase (tokens : List Token) (words : List String) :
    ∀ c, words.map (fun word => (⟨.IDENTIFIER, word⟩ : Token)) <+: tokens.drop c →
      consumeKeywordList tokens words c = .ok (c + words.length) := by
  induction words with
  | nil => intro c _; rfl
  | cons w ws ih =>
    intro c hp
    obtain ⟨rest, hrest⟩ := hp
    have h0 : tokens[c]? = some ⟨.IDENTIFIER, w⟩ := by
      rw [← List.head?_drop, ← hrest]; rfl
    have h1 : ws.map (fun word => (⟨.IDENTIFIER, word⟩ : Token)) <+: tokens.drop (c + 1) := by
      refine ⟨rest, ?_⟩
      rw [← List.drop_drop, ← hrest]
      rfl
    rw [consumeKeywordList, checkVal_of_token h0, advance_of_token h0]
    simp only [beq_self_eq_true, Bool.and_self, if_true]
    rw [ih (c + 1) h1]
    simp only [List.length_cons]
    congr 1
    omega

theorem Parser.consumeKeywords_of_phrase (tokens : List Token) (phrase : String) (c : Nat)
    (h : keywordTokens phrase <+: tokens.drop c) :
    consumeKeywords tokens phrase c = .ok (c + (splitSpaces phrase).length) :=
  consumeKeywordList_of_phrase tokens (splitSpaces phrase) c h

theorem phrase_split {tokens : List Token} {c : Nat} {p q : List Token}
    (h : p ++ q <+: tokens.drop c) : p <+: tokens.drop c ∧ q <+: tokens.drop (c + p.length) := by
  obtain ⟨rest, hrest⟩ := h
  refine ⟨⟨q ++ rest, by rw [← hrest]; simp⟩, ⟨rest, ?_⟩⟩
  rw [← List.drop_drop, ← hrest]
  simp

theorem token_of_phrase {tokens : List Token} {c : Nat} {t : Token} {q : List Token}
    (h : t :: q <+: tokens.drop c) : tokens[c]? = some t ∧ q <+: tokens.drop (c + 1) := by
  obtain ⟨rest, hrest⟩ := h
  refine ⟨?_, ⟨rest, ?_⟩⟩
  · rw [← List.head?_drop, ← hrest]; rfl
  · rw [← List.drop_drop, ← hrest]; rfl

theorem Parser.parsePrimary_remove (tokens : List Token) (fuel current : Nat) (a b : Node)
    (c1 c2 : Nat)
    (hphrase : keywordTokens "remove the power of" <+: tokens.drop current)
    (hA : parseExpression tokens fuel (current + 4) = .ok (a, c1))
    (hfrom : tokens[c1]? = some ⟨.IDENTIFIER, "from"⟩)
    (hB : parseExpression tokens fuel (c1 + 1) = .ok (b, c2)) :
    parseExpression tokens (fuel + 1) current = .ok (.SUBTRACT b a, c2) := by
  have hk : keywordTokens "remove the power of" =
      ⟨.IDENTIFIER, "remove"⟩ :: keywordTokens "the power of" := by decide
  rw [hk] at hphrase
  obtain ⟨h0, h1⟩ := token_of_phrase hphrase
  have hfromkw : consumeKeywords tokens "from" c1 = .ok (c1 + 1) := by
    simp only [consumeKeywords, show splitSpaces "from" = ["from"] by decide, consumeKeywordList,
      checkVal_of_token hfrom, advance_of_token hfrom, beq_self_eq_true, Bool.and_self, if_true]
  unfold parseExpression at hA hB ⊢
  rw [parsePrimary]
  simp only [check_of_token h0, checkVal_of_token h0, advance_of_token h0,
    consumeKeywords_of_phrase tokens "the power of" (current + 1) h1]
  simp only [show splitSpaces "the power of" = ["the", "power", "of"] by decide,
    List.length_cons, List.length_nil]
  simp +decide only [hA, hfromkw, hB, Outcome.ok_bind, if_true, if_false, bind_pure_comp]
  rfl

end SpellCast
namespace SpellCast
open Parser

theorem Parser.parsePrimary_identifier (tokens : List Token) (fuel c : Nat) (n : String)
    (h : tokens[c]? = some ⟨.IDENTIFIER, n⟩) (hn : n ∉ expressionKeywords) :
    parsePrimary tokens (fuel + 1) c = .ok (.IDENTIFIER n, c + 1) := by
  simp only [expressionKeywords, List.mem_cons, List.mem_singleton, List.not_mem_nil,
    or_false, not_or] at hn
  obtain ⟨k1, k2, k3, k4, k5, k6, k7, k8⟩ := hn
  rw [parsePrimary]
  simp only [check_of_token h, checkVal_of_token h, literal, advance_of_token h]
  simp +decide [k1, k2, k3, k4, k5, k6, k7, k8]

theorem Parser.parseStatement_create (tokens : List Token) (fuel current : Nat) (n : String)
    (e : Node) (c2 : Nat)
    (hphrase : keywordTokens "create a new spell named" ++
      ⟨.IDENTIFIER, n⟩ :: keywordTokens "with the power of" <+: tokens.drop current)
    (hn : n ∉ expressionKeywords)
    (hE : parseExpression tokens (fuel + 1) (current + 10) = .ok (e, c2)) :
    parseStatement tokens (fuel + 2) current = .ok (some (.CREATE (.IDENTIFIER n) e), c2) := by
  obtain ⟨hp1, hp2⟩ := phrase_split hphrase
  obtain ⟨hname, hp3⟩ := token_of_phrase hp2
  have hlen : (keywordTokens "create a new spell named").length = 5 := by decide
  rw [hlen] at hname hp3
  have hk : keywordTokens "create a new spell named" =
      ⟨.IDENTIFIER, "create"⟩ :: keywordTokens "a new spell named" := by decide
  have h0 := (token_of_phrase (hk ▸ hp1)).1
  rw [parseStatement]
  simp only [isAtEnd_of_token h0, checkVal_of_token h0, Bool.false_eq_true, if_false]
  simp +decide only [if_true, if_false]
  rw [parseCreateStatement, consumeKeywords_of_phrase tokens _ current hp1]
  simp only [show (splitSpaces "create a new spell named").length = 5 by decide,
    Outcome.ok_bind, check_of_token hname, beq_self_eq_true, if_true]
  unfold parseExpression at hE ⊢
  rw [parsePrimary_identifier tokens fuel (current + 5) n hname hn]
  simp only [Outcome.ok_bind, consumeKeywords_of_phrase tokens _ (current + 5 + 1) hp3,
    show (splitSpaces "with the power of").length = 4 by decide]
  rw [show current + 5 + 1 + 4 = current + 10 by omega, hE]
  rfl

theorem Parser.parseStatement_set (tokens : List Token) (fuel current : Nat) (n : String)
    (e : Node) (c2 : Nat)
    (hphrase : keywordTokens "set the power of" ++
      ⟨.IDENTIFIER, n⟩ :: keywordTokens "to" <+: tokens.drop current)
    (hn : n ∉ expressionKeywords)
    (hE : parseExpression tokens (fuel + 1) (current + 6) = .ok (e, c2)) :
    parseStatement tokens (fuel + 2) current = .ok (some (.SET (.IDENTIFIER n) e), c2) := by
  obtain ⟨hp1, hp2⟩ := phrase_split hphrase
  obtain ⟨hname, hp3⟩ := token_of_phrase hp2
  have hlen : (keywordTokens "set the power of").length = 4 := by decide
  rw [hlen] at hname hp3
  have hk : keywordTokens "set the power of" =
      ⟨.IDENTIFIER, "set"⟩ :: keywordTokens "the power of" := by decide
  have h0 := (token_of_phrase (hk ▸ hp1)).1
  rw [parseStatement]
  simp only [isAtEnd_of_token h0, checkVal_of_token h0, Bool.false_eq_true, if_false]
  simp +decide only [if_true, if_false]
  rw [parseSetStatement, consumeKeywords_of_phrase tokens _ current hp1]
  simp only [show (splitSpaces "set the power of").length = 4 by decide,
    Outcome.ok_bind, check_of_token hname, beq_self_eq_true, if_true]
  unfold parseExpression at hE ⊢
  rw [parsePrimary_identifier tokens fuel (current + 4) n hname hn]
  simp only [Outcome.ok_bind, consumeKeywords_of_phrase tokens _ (current + 4 + 1) hp3,
    show (splitSpaces "to").length = 1 by decide]
  rw [show current + 4 + 1 + 1 = current + 6 by omega, hE]
  rfl

end SpellCast
namespace SpellCast

/-! ## Interpreter: expressions leave the environment chain unchanged -/

theorem evalBinary_state (ev : Node → Environment → World → Eval) (left right : Node)
    (env : Environment) (world : World) (op : Value → Value → Value) (e : Environment)
    (w : World) (PL PR : Prop)
    (hl : ∀ env' world' e1 w1, (ev left env' world').state? = some (e1, w1) →
      e1 = env' ∧ (PL → w1 = world'))
    (hr : ∀ env' world' e1 w1, (ev right env' world').state? = some (e1, w1) →
      e1 = env' ∧ (PR → w1 = world'))
    (h : (evalBinary ev left right env world op).state? = some (e, w)) :
    e = env ∧ (PL ∧ PR → w = world) := by
  rw [evalBinary] at h
  cases hs : ev left env world with
  | ok a =>
    obtain ⟨l, env1, world1⟩ := a
    obtain ⟨he, hw⟩ := hl env world env1 world1 (by rw [hs]; rfl)
    subst he
    rw [hs] at h
    dsimp only at h
    cases hs2 : ev right env1 world1 with
    | ok a2 =>
      obtain ⟨r, env2, world2⟩ := a2
      obtain ⟨he2, hw2⟩ := hr env1 world1 env2 world2 (by rw [hs2]; rfl)
      rw [hs2] at h
      simp only [Eval.state?, Option.some.injEq, Prod.mk.injEq] at h
      obtain ⟨rfl, rfl⟩ := h
      exact ⟨he2, fun hp => (hw2 hp.2).trans (hw hp.1)⟩
    | throw a2 =>
      obtain ⟨x, env2, world2⟩ := a2
      obtain ⟨he2, hw2⟩ := hr env1 world1 env2 world2 (by rw [hs2]; rfl)
      rw [hs2] at h
      simp only [Eval.state?, Option.some.injEq, Prod.mk.injEq] at h
      obtain ⟨rfl, rfl⟩ := h
      exact ⟨he2, fun hp => (hw2 hp.2).trans (hw hp.1)⟩
    | outOfFuel => rw [hs2] at h; cases h
  | throw a =>
    obtain ⟨x, env1, world1⟩ := a
    obtain ⟨he, hw⟩ := hl env world env1 world1 (by rw [hs]; rfl)
    rw [hs] at h
    simp only [Eval.state?, Option.some.injEq, Prod.mk.injEq] at h
    obtain ⟨rfl, rfl⟩ := h
    exact ⟨he, fun hp => hw hp.1⟩
  | outOfFuel => rw [hs] at h; cases h

theorem evaluate_expression_state (host : Host) :
    ∀ (fuel : Nat) (node : Node) (env : Environment) (world : World) (e : Environment)
      (w : World), node.isExpression = true →
      (evaluate host fuel node env world).state? = some (e, w) →
      e = env ∧ (node.isPure = true → w = world) := by
  intro fuel
  induction fuel with
  | zero => intro node env world e w _ h; cases h
  | succ fuel ih =>
    intro node env world e w hx h
    cases node with
    | STRING value =>
      simp only [evaluate, Eval.state?, Option.some.injEq, Prod.mk.injEq] at h
      exact ⟨h.1.symm, fun _ => h.2.symm⟩
    | INTEGER value =>
      simp only [evaluate, Eval.state?, Option.some.injEq, Prod.mk.injEq] at h
      exact ⟨h.1.symm, fun _ => h.2.symm⟩
    | FLOAT value =>
      simp only [evaluate, Eval.state?, Option.some.injEq, Prod.mk.injEq] at h
      exact ⟨h.1.symm, fun _ => h.2.symm⟩
    | IDENTIFIER value =>
      rw [evaluate] at h
      split at h <;>
        (simp only [Eval.state?, Option.some.injEq, Prod.mk.injEq] at h
         exact ⟨h.1.symm, fun _ => h.2.symm⟩)
    | INPUT =>
      rw [evaluate] at h
      split at h <;>
        (simp only [Eval.state?, Option.some.injEq, Prod.mk.injEq] at h
         exact ⟨h.1.symm, fun hp => by simp [Node.isPure] at hp⟩)
    | ADD left right =>
      rw [evaluate] at h
      simp only [Node.isExpression, Bool.and_eq_true] at hx
      obtain ⟨he, hw⟩ := evalBinary_state _ left right env world _ e w _ _
        (fun env' world' e1 w1 h1 => ih left env' world' e1 w1 hx.1 h1)
        (fun env' world' e1 w1 h1 => ih right env' world' e1 w1 hx.2 h1) h
      exact ⟨he, fun hp => hw (by simpa [Node.isPure] using hp)⟩
    | SUBTRACT left right =>
      rw [evaluate] at h
      simp only [Node.isExpression, Bool.and_eq_true] at hx
      obtain ⟨he, hw⟩ := evalBinary_state _ left right env world _ e w _ _
        (fun env' world' e1 w1 h1 => ih left env' world' e1 w1 hx.1 h1)
        (fun env' world' e1 w1 h1 => ih right env' world' e1 w1 hx.2 h1) h
      exact ⟨he, fun hp => hw (by simpa [Node.isPure] using hp)⟩
    | MULTIPLY left right =>
      rw [evaluate] at h
      simp only [Node.isExpression, Bool.and_eq_true] at hx
      obtain ⟨he, hw⟩ := evalBinary_state _ left right env world _ e w _ _
        (fun env' world' e1 w1 h1 => ih left env' world' e1 w1 hx.1 h1)
        (fun env' world' e1 w1 h1 => ih right env' world' e1 w1 hx.2 h1) h
      exact ⟨he, fun hp => hw (by simpa [Node.isPure] using hp)⟩
    | EQUAL left right =>
      rw [evaluate] at h
      simp only [Node.isExpression, Bool.and_eq_true] at hx
      obtain ⟨he, hw⟩ := evalBinary_state _ left right env world _ e w _ _
        (fun env' world' e1 w1 h1 => ih left env' world' e1 w1 hx.1 h1)
        (fun env' world' e1 w1 h1 => ih right env' world' e1 w1 hx.2 h1) h
      exact ⟨he, fun hp => hw (by simpa [Node.isPure] using hp)⟩
    | NOTEQUAL left right =>
      rw [evaluate] at h
      simp only [Node.isExpression, Bool.and_eq_true] at hx
      obtain ⟨he, hw⟩ := evalBinary_state _ left right env world _ e w _ _
        (fun env' world' e1 w1 h1 => ih left env' world' e1 w1 hx.1 h1)
        (fun env' world' e1 w1 h1 => ih right env' world' e1 w1 hx.2 h1) h
      exact ⟨he, fun hp => hw (by simpa [Node.isPure] using hp)⟩
    | GREATER left right =>
      rw [evaluate] at h
      simp only [Node.isExpression, Bool.and_eq_true] at hx
      obtain ⟨he, hw⟩ := evalBinary_state _ left right env world _ e w _ _
        (fun env' world' e1 w1 h1 => ih left env' world' e1 w1 hx.1 h1)
        (fun env' world' e1 w1 h1 => ih right env' world' e1 w1 hx.2 h1) h
      exact ⟨he, fun hp => hw (by simpa [Node.isPure] using hp)⟩
    | LESS left right =>
      rw [evaluate] at h
      simp only [Node.isExpression, Bool.and_eq_true] at hx
      obtain ⟨he, hw⟩ := evalBinary_state _ left right env world _ e w _ _
        (fun env' world' e1 w1 h1 => ih left env' world' e1 w1 hx.1 h1)
        (fun env' world' e1 w1 h1 => ih right env' world' e1 w1 hx.2 h1) h
      exact ⟨he, fun hp => hw (by simpa [Node.isPure] using hp)⟩
    | DIVIDE left right =>
      rw [evaluate] at h
      simp only [Node.isExpression, Bool.and_eq_true] at hx
      cases hs : evaluate host fuel right env world with
      | ok a =>
        obtain ⟨v, env1, world1⟩ := a
        obtain ⟨he, hw⟩ := ih right env world env1 world1 hx.2 (by rw [hs]; rfl)
        subst he
        rw [hs] at h
        dsimp only at h
        split at h
        · simp only [Eval.state?, Option.some.injEq, Prod.mk.injEq] at h
          obtain ⟨rfl, rfl⟩ := h
          exact ⟨rfl, fun hp => hw (by simp [Node.isPure] at hp; exact hp.2)⟩
        · cases hs2 : evaluate host fuel left env1 world1 with
          | ok a2 =>
            obtain ⟨l, env2, world2⟩ := a2
            obtain ⟨he2, hw2⟩ := ih left env1 world1 env2 world2 hx.1 (by rw [hs2]; rfl)
            rw [hs2] at h
            simp only [Eval.state?, Option.some.injEq, Prod.mk.injEq] at h
            obtain ⟨rfl, rfl⟩ := h
            exact ⟨he2, fun hp => by
              simp only [Node.isPure, Bool.and_eq_true] at hp
              exact (hw2 hp.1).trans (hw hp.2)⟩
          | throw a2 =>
            obtain ⟨x, env2, world2⟩ := a2
            obtain ⟨he2, hw2⟩ := ih left env1 world1 env2 world2 hx.1 (by rw [hs2]; rfl)
            rw [hs2] at h
            simp only [Eval.state?, Option.some.injEq, Prod.mk.injEq] at h
            obtain ⟨rfl, rfl⟩ := h
            exact ⟨he2, fun hp => by
              simp only [Node.isPure, Bool.and_eq_true] at hp
              exact (hw2 hp.1).trans (hw hp.2)⟩
          | outOfFuel => rw [hs2] at h; cases h
      | throw a =>
        obtain ⟨x, env1, world1⟩ := a
        obtain ⟨he, hw⟩ := ih right env world env1 world1 hx.2 (by rw [hs]; rfl)
        rw [hs] at h
        simp only [Eval.state?, Option.some.injEq, Prod.mk.injEq] at h
        obtain ⟨rfl, rfl⟩ := h
        exact ⟨he, fun hp => hw (by simp [Node.isPure] at hp; exact hp.2)⟩
      | outOfFuel => rw [hs] at h; cases h
    | ORD value =>
      rw [evaluate] at h
      simp only [Node.isExpression] at hx
      cases hs : evaluate host fuel value env world with
      | ok a =>
        obtain ⟨v, env1, world1⟩ := a
        obtain ⟨he, hw⟩ := ih value env world env1 world1 hx (by rw [hs]; rfl)
        subst he
        rw [hs] at h
        dsimp only at h
        split at h <;>
          (simp only [Eval.state?, Option.some.injEq, Prod.mk.injEq] at h
           obtain ⟨rfl, rfl⟩ := h
           exact ⟨rfl, fun hp => hw (by simpa [Node.isPure] using hp)⟩)
      | throw a =>
        obtain ⟨x, env1, world1⟩ := a
        obtain ⟨he, hw⟩ := ih value env world env1 world1 hx (by rw [hs]; rfl)
        rw [hs] at h
        simp only [Eval.state?, Option.some.injEq, Prod.mk.injEq] at h
        obtain ⟨rfl, rfl⟩ := h
        exact ⟨he, fun hp => hw (by simpa [Node.isPure] using hp)⟩
      | outOfFuel => rw [hs] at h; cases h
    | CHR value =>
      rw [evaluate] at h
      simp only [Node.isExpression] at hx
      cases hs : evaluate host fuel value env world with
      | ok a =>
        obtain ⟨v, env1, world1⟩ := a
        obtain ⟨he, hw⟩ := ih value env world env1 world1 hx (by rw [hs]; rfl)
        subst he
        rw [hs] at h
        dsimp only at h
        split at h <;>
          (simp only [Eval.state?, Option.some.injEq, Prod.mk.injEq] at h
           obtain ⟨rfl, rfl⟩ := h
           exact ⟨rfl, fun hp => hw (by simpa [Node.isPure] using hp)⟩)
      | throw a =>
        obtain ⟨x, env1, world1⟩ := a
        obtain ⟨he, hw⟩ := ih value env world env1 world1 hx (by rw [hs]; rfl)
        rw [hs] at h
        simp only [Eval.state?, Option.some.injEq, Prod.mk.injEq] at h
        obtain ⟨rfl, rfl⟩ := h
        exact ⟨he, fun hp => hw (by simpa [Node.isPure] using hp)⟩
      | outOfFuel => rw [hs] at h; cases h
    | CREATE name value => simp [Node.isExpression] at hx
    | SET name value => simp [Node.isExpression] at hx
    | PRINT value => simp [Node.isExpression] at hx
    | IF condition code else_ => simp [Node.isExpression] at hx
    | WHILE condition code => simp [Node.isExpression] at hx

end SpellCast
namespace SpellCast

theorem evalBinary_returns (ev : Node → Environment → World → Eval) (left right : Node)
    (env : Environment) (world : World) (op : Value → Value → Value)
    (hl : ∀ env' world', ev left env' world' ≠ .outOfFuel)
    (hr : ∀ env' world', ev right env' world' ≠ .outOfFuel) :
    evalBinary ev left right env world op ≠ .outOfFuel := by
  rw [evalBinary]
  cases hs : ev left env world with
  | ok a =>
    obtain ⟨l, env1, world1⟩ := a
    dsimp only
    cases hs2 : ev right env1 world1 with
    | ok a2 => simp
    | throw a2 => simp
    | outOfFuel => exact absurd hs2 (hr env1 world1)
  | throw a => simp
  | outOfFuel => exact absurd hs (hl env world)

theorem evaluate_pure_returns (host : Host) :
    ∀ (fuel : Nat) (node : Node) (env : Environment) (world : World),
      node.isPure = true → node.operatorDepth < fuel →
      evaluate host fuel node env world ≠ .outOfFuel := by
  intro fuel
  induction fuel with
  | zero => intro node env world _ hd; omega
  | succ fuel ih =>
    intro node env world hp hd
    cases node with
    | STRING value => simp [evaluate]
    | INTEGER value => simp [evaluate]
    | FLOAT value => simp [evaluate]
    | IDENTIFIER value =>
      rw [evaluate]
      split <;> simp
    | ADD left right =>
      rw [evaluate]
      simp only [Node.isPure, Bool.and_eq_true] at hp
      simp only [Node.operatorDepth] at hd
      exact evalBinary_returns _ left right env world _
        (fun env' world' => ih left env' world' hp.1 (by omega))
        (fun env' world' => ih right env' world' hp.2 (by omega))
    | SUBTRACT left right =>
      rw [evaluate]
      simp only [Node.isPure, Bool.and_eq_true] at hp
      simp only [Node.operatorDepth] at hd
      exact evalBinary_returns _ left right env world _
        (fun env' world' => ih left env' world' hp.1 (by omega))
        (fun env' world' => ih right env' world' hp.2 (by omega))
    | MULTIPLY left right =>
      rw [evaluate]
      simp only [Node.isPure, Bool.and_eq_true] at hp
      simp only [Node.operatorDepth] at hd
      exact evalBinary_returns _ left right env world _
        (fun env' world' => ih left env' world' hp.1 (by omega))
        (fun env' world' => ih right env' world' hp.2 (by omega))
    | EQUAL left right =>
      rw [evaluate]
      simp only [Node.isPure, Bool.and_eq_true] at hp
      simp only [Node.operatorDepth] at hd
      exact evalBinary_returns _ left right env world _
        (fun env' world' => ih left env' world' hp.1 (by omega))
        (fun env' world' => ih right env' world' hp.2 (by omega))
    | NOTEQUAL left right =>
      rw [evaluate]
      simp only [Node.isPure, Bool.and_eq_true] at hp
      simp only [Node.operatorDepth] at hd
      exact evalBinary_returns _ left right env world _
        (fun env' world' => ih left env' world' hp.1 (by omega))
        (fun env' world' => ih right env' world' hp.2 (by omega))
    | GREATER left right =>
      rw [evaluate]
      simp only [Node.isPure, Bool.and_eq_true] at hp
      simp only [Node.operatorDepth] at hd
      exact evalBinary_returns _ left right env world _
        (fun env' world' => ih left env' world' hp.1 (by omega))
        (fun env' world' => ih right env' world' hp.2 (by omega))
    | LESS left right =>
      rw [evaluate]
      simp only [Node.isPure, Bool.and_eq_true] at hp
      simp only [Node.operatorDepth] at hd
      exact evalBinary_returns _ left right env world _
        (fun env' world' => ih left env' world' hp.1 (by omega))
        (fun env' world' => ih right env' world' hp.2 (by omega))
    | DIVIDE left right =>
      rw [evaluate]
      simp only [Node.isPure, Bool.and_eq_true] at hp
      simp only [Node.operatorDepth] at hd
      cases hs : evaluate host fuel right env world with
      | ok a =>
        obtain ⟨v, env1, world1⟩ := a
        dsimp only
        split
        · simp
        · cases hs2 : evaluate host fuel left env1 world1 with
          | ok a2 => simp
          | throw a2 => simp
          | outOfFuel => exact absurd hs2 (ih left env1 world1 hp.1 (by omega))
      | throw a => simp
      | outOfFuel => exact absurd hs (ih right env world hp.2 (by omega))
    | ORD value =>
      rw [evaluate]
      simp only [Node.isPure] at hp
      simp only [Node.operatorDepth] at hd
      cases hs : evaluate host fuel value env world with
      | ok a =>
        obtain ⟨v, env1, world1⟩ := a
        dsimp only
        split <;> simp
      | throw a => simp
      | outOfFuel => exact absurd hs (ih value env world hp (by omega))
    | CHR value =>
      rw [evaluate]
      simp only [Node.isPure] at hp
      simp only [Node.operatorDepth] at hd
      cases hs : evaluate host fuel value env world with
      | ok a =>
        obtain ⟨v, env1, world1⟩ := a
        dsimp only
        split <;> simp
      | throw a => simp
      | outOfFuel => exact absurd hs (ih value env world hp (by omega))
    | INPUT => simp [Node.isPure] at hp
    | CREATE name value => simp [Node.isPure] at hp
    | SET name value => simp [Node.isPure] at hp
    | PRINT value => simp [Node.isPure] at hp
    | IF condition code else_ => simp [Node.isPure] at hp
    | WHILE condition code => simp [Node.isPure] at hp

end SpellCast
namespace SpellCast

theorem Node.isExpression_of_isPure :
    ∀ (k : Nat) (node : Node), node.operatorDepth < k → node.isPure = true →
      node.isExpression = true := by
  intro k
  induction k with
  | zero => intro node hd; omega
  | succ k ih =>
    intro node hd hp
    cases node <;> simp only [Node.isPure, Bool.and_eq_true, Bool.false_eq_true] at hp <;>
      simp only [Node.operatorDepth] at hd <;>
      simp only [Node.isExpression, Bool.and_eq_true]
    all_goals first
      | exact ⟨ih _ (by omega) hp.1, ih _ (by omega) hp.2⟩
      | exact ih _ (by omega) hp

end SpellCast
namespace SpellCast

/-! ## Interpreter: without SET, only the innermost scope can change -/

theorem Environment.parent_define (name : String) (value : Value) (env : Environment) :
    (env.define name value).parent = env.parent := by
  cases env <;> rfl

theorem evalBinary_parent (ev : Node → Environment → World → Eval) (left right : Node)
    (env : Environment) (world : World) (op : Value → Value → Value) (e : Environment)
    (hl : ∀ env' world' e1, (ev left env' world').env? = some e1 → e1.parent = env'.parent)
    (hr : ∀ env' world' e1, (ev right env' world').env? = some e1 → e1.parent = env'.parent)
    (h : (evalBinary ev left right env world op).env? = some e) :
    e.parent = env.parent := by
  rw [evalBinary] at h
  cases hs : ev left env world with
  | ok a =>
    obtain ⟨l, env1, world1⟩ := a
    have h1 := hl env world env1 (by rw [hs]; rfl)
    rw [hs] at h
    dsimp only at h
    cases hs2 : ev right env1 world1 with
    | ok a2 =>
      obtain ⟨r, env2, world2⟩ := a2
      have h2 := hr env1 world1 env2 (by rw [hs2]; rfl)
      rw [hs2] at h
      simp only [Eval.env?, Option.some.injEq] at h
      subst h
      exact h2.trans h1
    | throw a2 =>
      obtain ⟨x, env2, world2⟩ := a2
      have h2 := hr env1 world1 env2 (by rw [hs2]; rfl)
      rw [hs2] at h
      simp only [Eval.env?, Option.some.injEq] at h
      subst h
      exact h2.trans h1
    | outOfFuel => rw [hs2] at h; cases h
  | throw a =>
    obtain ⟨x, env1, world1⟩ := a
    have h1 := hl env world env1 (by rw [hs]; rfl)
    rw [hs] at h
    simp only [Eval.env?, Option.some.injEq] at h
    subst h
    exact h1
  | outOfFuel => rw [hs] at h; cases h

theorem executeStatements_parent (ev : Node → Environment → World → Eval)
    (hev : ∀ node env world e, node.noSet = true → (ev node env world).env? = some e →
      e.parent = env.parent)
    (statements : List (Option Node)) :
    ∀ env world e, blockNoSet statements = true →
      (executeStatements ev statements env world).env? = some e → e.parent = env.parent := by
  induction statements with
  | nil =>
    intro env world e _ h
    simp only [executeStatements, Eval.env?, Option.some.injEq] at h
    subst h
    rfl
  | cons s rest ih =>
    intro env world e hn h
    simp only [blockNoSet, Bool.and_eq_true] at hn
    cases s with
    | none =>
      simp only [executeStatements, Eval.env?, Option.some.injEq] at h
      subst h
      rfl
    | some statement =>
      rw [executeStatements] at h
      cases hs : ev statement env world with
      | ok a =>
        obtain ⟨v, env1, world1⟩ := a
        have h1 := hev statement env world env1 hn.1 (by rw [hs]; rfl)
        rw [hs] at h
        exact (ih env1 world1 e hn.2 h).trans h1
      | throw a =>
        obtain ⟨x, env1, world1⟩ := a
        have h1 := hev statement env world env1 hn.1 (by rw [hs]; rfl)
        rw [hs] at h
        simp only [Eval.env?, Option.some.injEq] at h
        subst h
        exact h1
      | outOfFuel => rw [hs] at h; cases h

theorem executeBlock_env (ev : Node → Environment → World → Eval)
    (hev : ∀ node env world e, node.noSet = true → (ev node env world).env? = some e →
      e.parent = env.parent)
    (statements : List (Option Node)) (env : Environment) (world : World) (e : Environment)
    (hn : blockNoSet statements = true)
    (h : (executeBlock ev statements env world).env? = some e) : e = env := by
  rw [executeBlock] at h
  cases hs : executeStatements ev statements env.createChild world with
  | ok a =>
    obtain ⟨v, env1, world1⟩ := a
    have h1 : env1.parent = some env :=
      executeStatements_parent ev hev statements env.createChild world env1 hn
        (by rw [hs]; rfl)
    rw [hs] at h
    simp only [leaveBlock, Eval.env?, Option.some.injEq, h1, Option.getD_some] at h
    exact h.symm
  | throw a =>
    obtain ⟨x, env1, world1⟩ := a
    have h1 : env1.parent = some env :=
      executeStatements_parent ev hev statements env.createChild world env1 hn
        (by rw [hs]; rfl)
    rw [hs] at h
    simp only [leaveBlock, Eval.env?, Option.some.injEq, h1, Option.getD_some] at h
    exact h.symm
  | outOfFuel => rw [hs] at h; cases h

theorem evaluate_noSet_parent (host : Host) :
    ∀ (fuel : Nat) (node : Node) (env : Environment) (world : World) (e : Environment),
      node.noSet = true → (evaluate host fuel node env world).env? = some e →
      e.parent = env.parent := by
  intro fuel
  induction fuel with
  | zero => intro node env world e _ h; cases h
  | succ fuel ih =>
    intro node env world e hn h
    have hblock : ∀ (statements : List (Option Node)) (env1 : Environment) (world1 : World)
        (e1 : Environment), blockNoSet statements = true →
        (executeBlock (evaluate host fuel) statements env1 world1).env? = some e1 →
        e1 = env1 :=
      fun statements env1 world1 e1 hb hq =>
        executeBlock_env _ ih statements env1 world1 e1 hb hq
    cases node with
    | STRING value =>
      simp only [evaluate, Eval.env?, Option.some.injEq] at h
      subst h; rfl
    | INTEGER value =>
      simp only [evaluate, Eval.env?, Option.some.injEq] at h
      subst h; rfl
    | FLOAT value =>
      simp only [evaluate, Eval.env?, Option.some.injEq] at h
      subst h; rfl
    | IDENTIFIER value =>
      rw [evaluate] at h
      split at h <;> (simp only [Eval.env?, Option.some.injEq] at h; subst h; rfl)
    | INPUT =>
      rw [evaluate] at h
      split at h <;> (simp only [Eval.env?, Option.some.injEq] at h; subst h; rfl)
    | SET name value => simp [Node.noSet] at hn
    | CREATE name value =>
      simp only [Node.noSet, Bool.and_eq_true] at hn
      rw [evaluate] at h
      cases hs : evaluate host fuel value env world with
      | ok a =>
        obtain ⟨v, env1, world1⟩ := a
        have h1 := ih value env world env1 hn.2 (by rw [hs]; rfl)
        rw [hs] at h
        dsimp only at h
        split at h <;>
          (simp only [Eval.env?, Option.some.injEq] at h
           subst h
           first
             | exact (Environment.parent_define _ _ _).trans h1
             | exact h1)
      | throw a =>
        obtain ⟨x, env1, world1⟩ := a
        have h1 := ih value env world env1 hn.2 (by rw [hs]; rfl)
        rw [hs] at h
        simp only [Eval.env?, Option.some.injEq] at h
        subst h
        exact h1
      | outOfFuel => rw [hs] at h; cases h
    | PRINT value =>
      simp only [Node.noSet] at hn
      rw [evaluate] at h
      cases hs : evaluate host fuel value env world with
      | ok a =>
        obtain ⟨v, env1, world1⟩ := a
        have h1 := ih value env world env1 hn (by rw [hs]; rfl)
        rw [hs] at h
        dsimp only at h
        split at h <;>
          (simp only [Eval.env?, Option.some.injEq] at h
           subst h
           exact h1)
      | throw a =>
        obtain ⟨x, env1, world1⟩ := a
        have h1 := ih value env world env1 hn (by rw [hs]; rfl)
        rw [hs] at h
        simp only [Eval.env?, Option.some.injEq] at h
        subst h
        exact h1
      | outOfFuel => rw [hs] at h; cases h
    | ORD value =>
      simp only [Node.noSet] at hn
      rw [evaluate] at h
      cases hs : evaluate host fuel value env world with
      | ok a =>
        obtain ⟨v, env1, world1⟩ := a
        have h1 := ih value env world env1 hn (by rw [hs]; rfl)
        rw [hs] at h
        dsimp only at h
        split at h <;>
          (simp only [Eval.env?, Option.some.injEq] at h
           subst h
           exact h1)
      | throw a =>
        obtain ⟨x, env1, world1⟩ := a
        have h1 := ih value env world env1 hn (by rw [hs]; rfl)
        rw [hs] at h
        simp only [Eval.env?, Option.some.injEq] at h
        subst h
        exact h1
      | outOfFuel => rw [hs] at h; cases h
    | CHR value =>
      simp only [Node.noSet] at hn
      rw [evaluate] at h
      cases hs : evaluate host fuel value env world with
      | ok a =>
        obtain ⟨v, env1, world1⟩ := a
        have h1 := ih value env world env1 hn (by rw [hs]; rfl)
        rw [hs] at h
        dsimp only at h
        split at h <;>
          (simp only [Eval.env?, Option.some.injEq] at h
           subst h
           exact h1)
      | throw a =>
        obtain ⟨x, env1, world1⟩ := a
        have h1 := ih value env world env1 hn (by rw [hs]; rfl)
        rw [hs] at h
        simp only [Eval.env?, Option.some.injEq] at h
        subst h
        exact h1
      | outOfFuel => rw [hs] at h; cases h
    | ADD left right =>
      rw [evaluate] at h
      simp only [Node.noSet, Bool.and_eq_true] at hn
      exact evalBinary_parent _ left right env world _ e
        (fun env' world' e1 h1 => ih left env' world' e1 hn.1 h1)
        (fun env' world' e1 h1 => ih right env' world' e1 hn.2 h1) h
    | SUBTRACT left right =>
      rw [evaluate] at h
      simp only [Node.noSet, Bool.and_eq_true] at hn
      exact evalBinary_parent _ left right env world _ e
        (fun env' world' e1 h1 => ih left env' world' e1 hn.1 h1)
        (fun env' world' e1 h1 => ih right env' world' e1 hn.2 h1) h
    | MULTIPLY left right =>
      rw [evaluate] at h
      simp only [Node.noSet, Bool.and_eq_true] at hn
      exact evalBinary_parent _ left right env world _ e
        (fun env' world' e1 h1 => ih left env' world' e1 hn.1 h1)
        (fun env' world' e1 h1 => ih right env' world' e1 hn.2 h1) h
    | EQUAL left right =>
      rw [evaluate] at h
      simp only [Node.noSet, Bool.and_eq_true] at hn
      exact evalBinary_parent _ left right env world _ e
        (fun env' world' e1 h1 => ih left env' world' e1 hn.1 h1)
        (fun env' world' e1 h1 => ih right env' world' e1 hn.2 h1) h
    | NOTEQUAL left right =>
      rw [evaluate] at h
      simp only [Node.noSet, Bool.and_eq_true] at hn
      exact evalBinary_parent _ left right env world _ e
        (fun env' world' e1 h1 => ih left env' world' e1 hn.1 h1)
        (fun env' world' e1 h1 => ih right env' world' e1 hn.2 h1) h
    | GREATER left right =>
      rw [evaluate] at h
      simp only [Node.noSet, Bool.and_eq_true] at hn
      exact evalBinary_parent _ left right env world _ e
        (fun env' world' e1 h1 => ih left env' world' e1 hn.1 h1)
        (fun env' world' e1 h1 => ih right env' world' e1 hn.2 h1) h
    | LESS left right =>
      rw [evaluate] at h
      simp only [Node.noSet, Bool.and_eq_true] at hn
      exact evalBinary_parent _ left right env world _ e
        (fun env' world' e1 h1 => ih left env' world' e1 hn.1 h1)
        (fun env' world' e1 h1 => ih right env' world' e1 hn.2 h1) h
    | DIVIDE left right =>
      rw [evaluate] at h
      simp only [Node.noSet, Bool.and_eq_true] at hn
      cases hs : evaluate host fuel right env world with
      | ok a =>
        obtain ⟨v, env1, world1⟩ := a
        have h1 := ih right env world env1 hn.2 (by rw [hs]; rfl)
        rw [hs] at h
        dsimp only at h
        split at h
        · simp only [Eval.env?, Option.some.injEq] at h
          subst h
          exact h1
        · cases hs2 : evaluate host fuel left env1 world1 with
          | ok a2 =>
            obtain ⟨l, env2, world2⟩ := a2
            have h2 := ih left env1 world1 env2 hn.1 (by rw [hs2]; rfl)
            rw [hs2] at h
            simp only [Eval.env?, Option.some.injEq] at h
            subst h
            exact h2.trans h1
          | throw a2 =>
            obtain ⟨x, env2, world2⟩ := a2
            have h2 := ih left env1 world1 env2 hn.1 (by rw [hs2]; rfl)
            rw [hs2] at h
            simp only [Eval.env?, Option.some.injEq] at h
            subst h
            exact h2.trans h1
          | outOfFuel => rw [hs2] at h; cases h
      | throw a =>
        obtain ⟨x, env1, world1⟩ := a
        have h1 := ih right env world env1 hn.2 (by rw [hs]; rfl)
        rw [hs] at h
        simp only [Eval.env?, Option.some.injEq] at h
        subst h
        exact h1
      | outOfFuel => rw [hs] at h; cases h
    | IF condition code else_ =>
      simp only [Node.noSet, Bool.and_eq_true] at hn
      obtain ⟨⟨hc, hcode⟩, helse⟩ := hn
      rw [evaluate] at h
      cases hs : evaluate host fuel condition env world with
      | ok a =>
        obtain ⟨v, env1, world1⟩ := a
        have h1 := ih condition env world env1 hc (by rw [hs]; rfl)
        rw [hs] at h
        dsimp only at h
        split at h
        · cases hb : executeBlock (evaluate host fuel) code env1 world1 with
          | ok a2 =>
            obtain ⟨b, env2, world2⟩ := a2
            have h2 := hblock code env1 world1 env2 hcode (by rw [hb]; rfl)
            rw [hb] at h
            simp only [Eval.env?, Option.some.injEq] at h
            subst h; subst h2
            exact h1
          | throw a2 =>
            obtain ⟨x, env2, world2⟩ := a2
            have h2 := hblock code env1 world1 env2 hcode (by rw [hb]; rfl)
            rw [hb] at h
            simp only [Eval.env?, Option.some.injEq] at h
            subst h; subst h2
            exact h1
          | outOfFuel => rw [hb] at h; cases h
        · split at h
          · rename_i blk
            simp only [elseNoSet] at helse
            cases hb : executeBlock (evaluate host fuel) blk env1 world1 with
            | ok a2 =>
              obtain ⟨b, env2, world2⟩ := a2
              have h2 := hblock blk env1 world1 env2 helse (by rw [hb]; rfl)
              rw [hb] at h
              simp only [Eval.env?, Option.some.injEq] at h
              subst h; subst h2
              exact h1
            | throw a2 =>
              obtain ⟨x, env2, world2⟩ := a2
              have h2 := hblock blk env1 world1 env2 helse (by rw [hb]; rfl)
              rw [hb] at h
              simp only [Eval.env?, Option.some.injEq] at h
              subst h; subst h2
              exact h1
            | outOfFuel => rw [hb] at h; cases h
          · simp only [Eval.env?, Option.some.injEq] at h
            subst h
            exact h1
      | throw a =>
        obtain ⟨x, env1, world1⟩ := a
        have h1 := ih condition env world env1 hc (by rw [hs]; rfl)
        rw [hs] at h
        simp only [Eval.env?, Option.some.injEq] at h
        subst h
        exact h1
      | outOfFuel => rw [hs] at h; cases h
    | WHILE condition code =>
      have hn' := hn
      simp only [Node.noSet, Bool.and_eq_true] at hn
      obtain ⟨hc, hcode⟩ := hn
      rw [evaluate] at h
      cases hs : evaluate host fuel condition env world with
      | ok a =>
        obtain ⟨v, env1, world1⟩ := a
        have h1 := ih condition env world env1 hc (by rw [hs]; rfl)
        rw [hs] at h
        dsimp only at h
        split at h
        · cases hb : executeBlock (evaluate host fuel) code env1 world1 with
          | ok a2 =>
            obtain ⟨b, env2, world2⟩ := a2
            have h2 := hblock code env1 world1 env2 hcode (by rw [hb]; rfl)
            rw [hb] at h
            dsimp only at h
            subst h2
            exact (ih _ env2 world2 e hn' h).trans h1
          | throw a2 =>
            obtain ⟨x, env2, world2⟩ := a2
            have h2 := hblock code env1 world1 env2 hcode (by rw [hb]; rfl)
            rw [hb] at h
            simp only [Eval.env?, Option.some.injEq] at h
            subst h; subst h2
            exact h1
          | outOfFuel => rw [hb] at h; cases h
        · simp only [Eval.env?, Option.some.injEq] at h
          subst h
          exact h1
      | throw a =>
        obtain ⟨x, env1, world1⟩ := a
        have h1 := ih condition env world env1 hc (by rw [hs]; rfl)
        rw [hs] at h
        simp only [Eval.env?, Option.some.injEq] at h
        subst h
        exact h1
      | outOfFuel => rw [hs] at h; cases h

end SpellCast
namespace SpellCast

theorem Eval.state?_of_env? (r : Eval) (e : Environment) (h : r.env? = some e) :
    ∃ w, r.state? = some (e, w) := by
  cases r with
  | ok a =>
    obtain ⟨v, e1, w1⟩ := a
    simp only [Eval.env?, Option.some.injEq] at h
    exact ⟨w1, by rw [← h]; rfl⟩
  | throw a =>
    obtain ⟨x, e1, w1⟩ := a
    simp only [Eval.env?, Option.some.injEq] at h
    exact ⟨w1, by rw [← h]; rfl⟩
  | outOfFuel => cases h

theorem evaluate_expression_env (host : Host) (fuel : Nat) (node : Node) (env : Environment)
    (world : World) (e : Environment) (hx : node.isExpression = true)
    (h : (evaluate host fuel node env world).env? = some e) : e = env := by
  obtain ⟨w, hw⟩ := Eval.state?_of_env? _ e h
  exact (evaluate_expression_state host fuel node env world e w hx hw).1

theorem evaluate_if_env (host : Host) (fuel : Nat) (condition : Node)
    (code : List (Option Node)) (else_ : Option (List (Option Node))) (env : Environment)
    (world : World) (e : Environment)
    (hcond : condition.isExpression = true) (hcode : blockNoSet code = true)
    (helse : elseNoSet else_ = true)
    (h : (evaluate host fuel (.IF condition code else_) env world).env? = some e) :
    e = env := by
  cases fuel with
  | zero => cases h
  | succ fuel =>
    have hblock : ∀ (statements : List (Option Node)) (world1 : World) (e1 : Environment),
        blockNoSet statements = true →
        (executeBlock (evaluate host fuel) statements env world1).env? = some e1 → e1 = env :=
      fun statements world1 e1 hb hq =>
        executeBlock_env _ (evaluate_noSet_parent host fuel) statements env world1 e1 hb hq
    rw [evaluate] at h
    cases hs : evaluate host fuel condition env world with
    | ok a =>
      obtain ⟨v, env1, world1⟩ := a
      have h1 := evaluate_expression_env host fuel condition env world env1 hcond
        (by rw [hs]; rfl)
      subst h1
      rw [hs] at h
      dsimp only at h
      split at h
      · cases hb : executeBlock (evaluate host fuel) code env1 world1 with
        | ok a2 =>
          obtain ⟨b, env2, world2⟩ := a2
          have h2 := hblock code world1 env2 hcode (by rw [hb]; rfl)
          rw [hb] at h
          simp only [Eval.env?, Option.some.injEq] at h
          rw [← h, h2]
        | throw a2 =>
          obtain ⟨x, env2, world2⟩ := a2
          have h2 := hblock code world1 env2 hcode (by rw [hb]; rfl)
          rw [hb] at h
          simp only [Eval.env?, Option.some.injEq] at h
          rw [← h, h2]
        | outOfFuel => rw [hb] at h; cases h
      · split at h
        · rename_i blk
          simp only [elseNoSet] at helse
          cases hb : executeBlock (evaluate host fuel) blk env1 world1 with
          | ok a2 =>
            obtain ⟨b, env2, world2⟩ := a2
            have h2 := hblock blk world1 env2 helse (by rw [hb]; rfl)
            rw [hb] at h
            simp only [Eval.env?, Option.some.injEq] at h
            rw [← h, h2]
          | throw a2 =>
            obtain ⟨x, env2, world2⟩ := a2
            have h2 := hblock blk world1 env2 helse (by rw [hb]; rfl)
            rw [hb] at h
            simp only [Eval.env?, Option.some.injEq] at h
            rw [← h, h2]
          | outOfFuel => rw [hb] at h; cases h
        · simp only [Eval.env?, Option.some.injEq] at h
          exact h.symm
    | throw a =>
      obtain ⟨x, env1, world1⟩ := a
      have h1 := evaluate_expression_env host fuel condition env world env1 hcond
        (by rw [hs]; rfl)
      rw [hs] at h
      simp only [Eval.env?, Option.some.injEq] at h
      rw [← h, h1]
    | outOfFuel => rw [hs] at h; cases h

theorem evaluate_while_env (host : Host) (condition : Node) (code : List (Option Node))
    (hcond : condition.isExpression = true) (hcode : blockNoSet code = true) :
    ∀ (fuel : Nat) (env : Environment) (world : World) (e : Environment),
      (evaluate host fuel (.WHILE condition code) env world).env? = some e → e = env := by
  intro fuel
  induction fuel with
  | zero => intro env world e h; cases h
  | succ fuel ih =>
    intro env world e h
    rw [evaluate] at h
    cases hs : evaluate host fuel condition env world with
    | ok a =>
      obtain ⟨v, env1, world1⟩ := a
      have h1 := evaluate_expression_env host fuel condition env world env1 hcond
        (by rw [hs]; rfl)
      subst h1
      rw [hs] at h
      dsimp only at h
      split at h
      · cases hb : executeBlock (evaluate host fuel) code env1 world1 with
        | ok a2 =>
          obtain ⟨b, env2, world2⟩ := a2
          have h2 := executeBlock_env _ (evaluate_noSet_parent host fuel) code env1 world1
            env2 hcode (by rw [hb]; rfl)
          subst h2
          rw [hb] at h
          exact ih _ world2 e h
        | throw a2 =>
          obtain ⟨x, env2, world2⟩ := a2
          have h2 := executeBlock_env _ (evaluate_noSet_parent host fuel) code env1 world1
            env2 hcode (by rw [hb]; rfl)
          rw [hb] at h
          simp only [Eval.env?, Option.some.injEq] at h
          rw [← h, h2]
        | outOfFuel => rw [hb] at h; cases h
      · simp only [Eval.env?, Option.some.injEq] at h
        exact h.symm
    | throw a =>
      obtain ⟨x, env1, world1⟩ := a
      have h1 := evaluate_expression_env host fuel condition env world env1 hcond
        (by rw [hs]; rfl)
      rw [hs] at h
      simp only [Eval.env?, Option.some.injEq] at h
      rw [← h, h1]
    | outOfFuel => rw [hs] at h; cases h

end SpellCast
namespace SpellCast
open Parser

theorem chrOf_natCast (k : Nat) (hk : k < 65536) :
    chrOf (.number (.finite (k : ℚ))) = some (.string (String.mk [Char.ofNat k])) := by
  have h1 : ((k : ℚ)).den = 1 := Rat.den_natCast k
  have h2 : ((k : ℚ)).num = (k : ℤ) := Rat.num_natCast k
  have h3 : ((k : ℤ) % 65536).toNat = k := by omega
  simp only [chrOf, JSNumber.isInteger, h1, decide_True, if_true, h2, h3]

theorem ordOf_char (c : Char) (hc : c.toNat < 65536) :
    ordOf (.string (String.mk [c])) = some (.number (.finite (c.toNat : ℚ))) := by
  simp only [ordOf, hc, if_true]

theorem toNat_ofNat_of_le (k : Nat) (hk : k ≤ 126) : (Char.ofNat k).toNat = k := by
  interval_cases k <;> rfl

end SpellCast
namespace SpellCast

/-! ## Interpreter: the top-level loop of `run` -/

theorem runStatements_keepsOutput (host : Host) (fuel : Nat) (program : List Node) :
    ∀ env world w, (runStatements host fuel program env world).world? = some w →
      w.outputCalls = world.outputCalls := by
  induction program with
  | nil =>
    intro env world w h
    simp only [runStatements, Eval.world?, Option.some.injEq] at h
    rw [← h]
  | cons s rest ih =>
    intro env world w h
    rw [runStatements] at h
    cases hs : evaluate host fuel s env world with
    | ok a =>
      obtain ⟨v, env1, world1⟩ := a
      rw [hs] at h
      rw [ih env1 world1 w h]
      exact evaluate_keepsOutput host fuel s env world world1 (by rw [hs]; rfl)
    | throw a =>
      obtain ⟨x, env1, world1⟩ := a
      rw [hs] at h
      simp only [Eval.world?, Option.some.injEq] at h
      rw [← h]
      exact evaluate_keepsOutput host fuel s env world world1 (by rw [hs]; rfl)
    | outOfFuel => rw [hs] at h; cases h

theorem runStatements_first_failure (host : Host) (fuel : Nat) (pre : List Node) (s : Node)
    (post : List Node) (x : RuntimeError) (env2 : Environment) (world2 : World) :
    ∀ (env : Environment) (world : World) (v : Value) (env1 : Environment) (world1 : World),
      runStatements host fuel pre env world = .ok (v, env1, world1) →
      evaluate host fuel s env1 world1 = .throw (x, env2, world2) →
      runStatements host fuel (pre ++ s :: post) env world = .throw (x, env2, world2) := by
  induction pre with
  | nil =>
    intro env world v env1 world1 hpre hfail
    simp only [runStatements, Outcome.ok.injEq, Prod.mk.injEq] at hpre
    obtain ⟨_, he, hw⟩ := hpre
    rw [List.nil_append, runStatements, he, hw, hfail]
  | cons p rest ih =>
    intro env world v env1 world1 hpre hfail
    rw [runStatements] at hpre
    rw [List.cons_append, runStatements]
    cases hp : evaluate host fuel p env world with
    | ok a =>
      obtain ⟨v1, e1, w1⟩ := a
      rw [hp] at hpre
      exact ih e1 w1 v env1 world1 hpre hfail
    | throw a => rw [hp] at hpre; cases hpre
    | outOfFuel => rw [hp] at hpre; cases hpre

end SpellCast
namespace SpellCast
open Parser

theorem countdown_stops_at_first_print (host : Host) (fuel n : Nat) (world : World)
    (m : String) (hn : 1 ≤ n)
    (hwrite : host.stdoutWrite (.number (.finite ((n : ℚ) - 1))) = some m) :
    run host (fuel + 4) (countdownProgram n) world =
      some (.root [("x", .number (.finite ((n : ℚ) - 1)))],
        { world with outputCalls :=
          world.outputCalls ++ [("Runtime Error: " ++ m, some "error")] }) := by
  have hpos : ((0 : ℚ) < (n : ℚ)) := by exact_mod_cast hn
  have hsub : (n : ℚ) + -1 = (n : ℚ) - 1 := by ring
  simp +decide [run, runStatements, countdownProgram, evaluate, evalBinary, executeBlock,
    executeStatements, leaveBlock, Environment.get, Environment.assign, Environment.define,
    Environment.createChild, Environment.withVariables, Environment.vars, Environment.parent,
    Variables.get, Variables.set, Variables.has, Node.nameValue, Host.jsLess, Host.toNumber,
    JSNumber.lt, JSNumber.sub, JSNumber.add, JSNumber.neg, Value.truthy, hpos, hsub, hwrite,
    RuntimeError.message]

end SpellCast
namespace SpellCast
open Parser

theorem countdown_condition (host : Host) (fuel k : Nat) (world : World) :
    evaluate host (fuel + 2) (.GREATER (.IDENTIFIER "x") (.INTEGER (.finite 0)))
        (.root [("x", .number (.finite (k : ℚ)))]) world =
      .ok (.boolean (decide (0 < k)), .root [("x", .number (.finite (k : ℚ)))], world) := by
  simp +decide [evaluate, evalBinary, Environment.get, Variables.get, Host.jsLess,
    Host.toNumber, JSNumber.lt]

theorem countdown_body (host : Host) (fuel k : Nat) (world : World)
    (hwrite : ∀ v, host.stdoutWrite v = none) :
    executeBlock (evaluate host (fuel + 3))
        [some (.SET (.IDENTIFIER "x") (.SUBTRACT (.IDENTIFIER "x") (.INTEGER (.finite 1)))),
         some (.PRINT (.IDENTIFIER "x"))]
        (.root [("x", .number (.finite ((k + 1 : Nat) : ℚ)))]) world =
      .ok (.null, .root [("x", .number (.finite (k : ℚ)))],
        { world with stdout := world.stdout ++ [.number (.finite (k : ℚ))] }) := by
  have hsub : ((k : ℚ) + 1) + -1 = (k : ℚ) := by ring
  simp +decide [evaluate, evalBinary, executeBlock, executeStatements, leaveBlock,
    Environment.get, Environment.assign, Environment.createChild, Environment.parent,
    Variables.get, Variables.set, Variables.has, Node.nameValue, Host.toNumber,
    JSNumber.sub, JSNumber.add, JSNumber.neg, hsub, hwrite]

theorem countdown_loop_runs (host : Host) (hwrite : ∀ v, host.stdoutWrite v = none) :
    ∀ (k fuel : Nat) (world : World),
      evaluate host (k + fuel + 4) countdownLoop (.root [("x", .number (.finite (k : ℚ)))])
          world =
        .ok (.null, .root [("x", .number (.finite 0))],
          { world with stdout := world.stdout ++ countdownValues k }) := by
  intro k
  induction k with
  | zero =>
    intro fuel world
    rw [show 0 + fuel + 4 = (fuel + 1 + 2) + 1 by omega, countdownLoop, evaluate,
      countdown_condition host (fuel + 1) 0 world]
    simp [Value.truthy, countdownValues]
  | succ k ih =>
    intro fuel world
    rw [show k + 1 + fuel + 4 = (k + fuel + 2 + 2) + 1 by omega, countdownLoop, evaluate,
      countdown_condition host (k + fuel + 2) (k + 1) world]
    simp only [Value.truthy, Nat.zero_lt_succ, decide_True, if_true]
    rw [show k + fuel + 2 + 2 = (k + fuel + 1) + 3 by omega,
      countdown_body host (k + fuel + 1) k world hwrite]
    dsimp only
    have := ih fuel { world with stdout := world.stdout ++ [.number (.finite (k : ℚ))] }
    rw [countdownLoop, show k + fuel + 4 = k + fuel + 1 + 3 by omega] at this
    rw [this]
    simp [countdownValues, List.range_succ]

end SpellCast
namespace SpellCast

set_option maxRecDepth 8000 in
theorem countdown_tokenize :
    tokenize ("create a new spell named x with the power of 3 " ++
      "whilst the spell is x greater than 0 is true do " ++
      "set the power of x to remove the power of 1 from x shout the many cries of x done") =
      .ok countdownTokens := by
  decide

end SpellCast
namespace SpellCast

/-- C11, as stated, fails: form feed, vertical tab and U+00A0 are none of the listed
characters, yet a text made of them (all outside strings and comments) is tokenized
without error, to the EOF token alone: the lexer skips them as white space. -/
theorem other_blank_characters_counterexample :
    isListedChar (Char.ofNat 12) = false ∧ isListedChar (Char.ofNat 11) = false ∧
    isListedChar (Char.ofNat 160) = false ∧
    readQuotes .outside [] = .outside ∧
    readQuotes .outside [Char.ofNat 12] = .outside ∧
    readQuotes .outside [Char.ofNat 12, Char.ofNat 11] = .outside ∧
    tokenize (String.mk [Char.ofNat 12, Char.ofNat 11, Char.ofNat 160]) = .ok [eofToken] := by
  decide

/-- C11, amended: when a source text has, outside string literals and comments (the
text before it read from the outside state ends in the outside state), a character
that none of the branches of the lexer accepts (no white space of the class `\s`, not
`#`, no quote, no digit, no letter or underscore, no symbol character), `tokenize`
throws the unexpected-character error, for a character of that kind. -/
theorem unexpected_character_fails (source : String) (pre rest : List Char) (c : Char)
    (hsource : source.data = pre ++ c :: rest)
    (houtside : readQuotes .outside pre = .outside)
    (hc : isValidChar c = false) :
    ∃ c' p, tokenize source = .throw (.unexpectedCharacter c' p) ∧ isValidChar c' = false := by
  rcases tokenizeLoop_unexpected source.data c rest hc (source.data.length + 1) 0 [] pre
    (by simpa using hsource) houtside with h | h
  · exact absurd h (tokenizeLoop_terminates source.data _ 0 [] (by omega) (by omega))
  · exact h

theorem unexpected_character_fails_witness :
    "x = 'a?' ? 1".data = "x = 'a?' ".data ++ '?' :: " 1".data ∧
    readQuotes .outside "x = 'a?' ".data = .outside ∧
    isValidChar '?' = false ∧
    ∃ c' p, tokenize "x = 'a?' ? 1" = .throw (.unexpectedCharacter c' p) ∧
      isValidChar c' = false :=
  ⟨by decide, by decide, by decide,
    unexpected_character_fails "x = 'a?' ? 1" "x = 'a?' ".data " 1".data '?'
      (by decide) (by decide) (by decide)⟩

end SpellCast
namespace SpellCast
open Parser

/-- C12: where the tokens at the cursor are `remove the power of`, followed by an
expression that parses to `a`, the keyword `from` and an expression that parses to
`b`, `parseExpression` returns the node SUBTRACT with left `b` and right `a`; and when
`b` evaluates to the integer `vb` and then `a` to the integer `va`, the node evaluates
to `vb - va`.  So `remove the power of 1 from 10` evaluates to 9. -/
theorem remove_parses_to_reversed_subtraction (tokens : List Token) (pfuel current : Nat)
    (a b : Node) (c1 c2 : Nat) (host : Host) (fuel : Nat) (env env1 env2 : Environment)
    (world world1 world2 : World) (vb va : Int)
    (hphrase : keywordTokens "remove the power of" <+: tokens.drop current)
    (hA : parseExpression tokens pfuel (current + 4) = .ok (a, c1))
    (hfrom : tokens[c1]? = some ⟨.IDENTIFIER, "from"⟩)
    (hB : parseExpression tokens pfuel (c1 + 1) = .ok (b, c2))
    (hvb : evaluate host fuel b env world = .ok (.number (.finite (vb : ℚ)), env1, world1))
    (hva : evaluate host fuel a env1 world1 = .ok (.number (.finite (va : ℚ)), env2, world2)) :
    parseExpression tokens (pfuel + 1) current = .ok (.SUBTRACT b a, c2) ∧
    evaluate host (fuel + 1) (.SUBTRACT b a) env world =
      .ok (.number (.finite ((vb - va : Int) : ℚ)), env2, world2) ∧
    tokenize "remove the power of 1 from 10" =
      .ok (keywordTokens "remove the power of" ++
        [⟨.INTEGER, "1"⟩, ⟨.IDENTIFIER, "from"⟩, ⟨.INTEGER, "10"⟩, eofToken]) ∧
    parseExpression (keywordTokens "remove the power of" ++
        [⟨.INTEGER, "1"⟩, ⟨.IDENTIFIER, "from"⟩, ⟨.INTEGER, "10"⟩, eofToken]) 2 0 =
      .ok (.SUBTRACT (.INTEGER (.finite 10)) (.INTEGER (.finite 1)), 7) ∧
    evaluate host 2 (.SUBTRACT (.INTEGER (.finite 10)) (.INTEGER (.finite 1))) env world =
      .ok (.number (.finite 9), env, world) := by
  refine ⟨parsePrimary_remove tokens pfuel current a b c1 c2 hphrase hA hfrom hB, ?_,
    by decide, by rfl, ?_⟩
  · rw [evaluate]
    simp only [evalBinary, hvb, hva, Host.toNumber, JSNumber.sub, JSNumber.add, JSNumber.neg]
    push_cast
    rw [sub_eq_add_neg]
  · simp only [evaluate, evalBinary, Host.toNumber, JSNumber.sub, JSNumber.add, JSNumber.neg]
    norm_num

theorem remove_parses_to_reversed_subtraction_witness :
    parseExpression (keywordTokens "remove the power of" ++
        [⟨.INTEGER, "1"⟩, ⟨.IDENTIFIER, "from"⟩, ⟨.INTEGER, "10"⟩, eofToken]) (1 + 1) 0 =
      .ok (.SUBTRACT (.INTEGER (.finite ((10 : Int) : ℚ))) (.INTEGER (.finite ((1 : Int) : ℚ))), 7) ∧
    evaluate exampleHost (1 + 1)
        (.SUBTRACT (.INTEGER (.finite ((10 : Int) : ℚ))) (.INTEGER (.finite ((1 : Int) : ℚ))))
        (.root []) World.initial =
      .ok (.number (.finite ((10 - 1 : Int) : ℚ)), .root [], World.initial) :=
  ⟨(remove_parses_to_reversed_subtraction _ 1 0 _ _ 5 7 exampleHost 1 (.root []) (.root [])
      (.root []) World.initial World.initial World.initial 10 1
      (by decide) (by rfl) (by decide) (by rfl) (by rfl) (by rfl)).1,
   (remove_parses_to_reversed_subtraction
      (keywordTokens "remove the power of" ++
        [⟨.INTEGER, "1"⟩, ⟨.IDENTIFIER, "from"⟩, ⟨.INTEGER, "10"⟩, eofToken])
      1 0 _ _ 5 7 exampleHost 1 (.root []) (.root [])
      (.root []) World.initial World.initial World.initial 10 1
      (by decide) (by rfl) (by decide) (by rfl) (by rfl) (by rfl)).2.1⟩

end SpellCast
namespace SpellCast
open Parser

/-- C13, as stated, fails for the names it lists: in
`create a new spell named combine with the power of 5` the name `combine` is an
IDENTIFIER token and `5` a well-formed expression, yet `parse` throws (the name is
parsed by `parseExpression`, which starts the `combine the power of` rule and misses
`the`); and `set the power of is to 5` fails the same way in the `is` rule. -/
theorem keyword_spell_name_counterexample :
    tokenize "create a new spell named combine with the power of 5" =
      .ok (keywordTokens "create a new spell named combine with the power of" ++
        [⟨.INTEGER, "5"⟩, eofToken]) ∧
    parseExpression (keywordTokens "create a new spell named combine with the power of" ++
        [⟨.INTEGER, "5"⟩, eofToken]) 1 10 = .ok (.INTEGER (.finite 5), 11) ∧
    parse 5 (keywordTokens "create a new spell named combine with the power of" ++
        [⟨.INTEGER, "5"⟩, eofToken]) =
      .throw (.expectedKeyword "the" ⟨.IDENTIFIER, "with"⟩ 6) ∧
    tokenize "set the power of is to 5" =
      .ok (keywordTokens "set the power of is to" ++ [⟨.INTEGER, "5"⟩, eofToken]) ∧
    parse 5 (keywordTokens "set the power of is to" ++ [⟨.INTEGER, "5"⟩, eofToken]) =
      .throw (.unexpectedAfterIs "5") :=
  ⟨by decide, by rfl, by rfl, by decide, by rfl⟩

/-- C13, amended: for every identifier text `n` that is not one of the expression
keywords `combine`, `remove`, `duplicate`, `split`, `find`, `may`, `get`, `is`: where
the tokens at the cursor are `create a new spell named n with the power of` followed
by an expression that parses to `e`, `parseStatement` returns CREATE with name
IDENTIFIER(n) and value `e`; and where they are `set the power of n to` followed by
such an expression, it returns SET with name IDENTIFIER(n) and value `e`. -/
theorem spell_name_parses_as_identifier (tokens : List Token) (fuel current : Nat)
    (n : String) (e : Node) (c2 : Nat) (hn : n ∉ expressionKeywords) :
    (keywordTokens "create a new spell named" ++
        ⟨.IDENTIFIER, n⟩ :: keywordTokens "with the power of" <+: tokens.drop current →
      parseExpression tokens (fuel + 1) (current + 10) = .ok (e, c2) →
      parseStatement tokens (fuel + 2) current =
        .ok (some (.CREATE (.IDENTIFIER n) e), c2)) ∧
    (keywordTokens "set the power of" ++
        ⟨.IDENTIFIER, n⟩ :: keywordTokens "to" <+: tokens.drop current →
      parseExpression tokens (fuel + 1) (current + 6) = .ok (e, c2) →
      parseStatement tokens (fuel + 2) current =
        .ok (some (.SET (.IDENTIFIER n) e), c2)) :=
  ⟨fun hp hE => parseStatement_create tokens fuel current n e c2 hp hn hE,
   fun hp hE => parseStatement_set tokens fuel current n e c2 hp hn hE⟩

theorem spell_name_parses_as_identifier_witness :
    "shout" ∉ expressionKeywords ∧
    parseStatement (keywordTokens "create a new spell named shout with the power of" ++
        [⟨.INTEGER, "5"⟩, eofToken]) (0 + 2) 0 =
      .ok (some (.CREATE (.IDENTIFIER "shout") (.INTEGER (.finite 5))), 11) :=
  ⟨by decide,
   (spell_name_parses_as_identifier
      (keywordTokens "create a new spell named shout with the power of" ++
        [⟨.INTEGER, "5"⟩, eofToken]) 0 0 "shout" (.INTEGER (.finite 5)) 11 (by decide)).1
      (by decide) (by rfl)⟩

end SpellCast
namespace SpellCast

/-- C14, as stated, fails for a STRING literal as name: the name of
`CREATE(STRING "x", INTEGER 1)` is no IDENTIFIER node and the value evaluates, yet
`evaluate` returns normally and defines `x`; and `SET(STRING "x", INTEGER 2)` assigns
to `x`.  The code only tests that `node.name.value` is a string. -/
theorem string_name_counterexample :
    evaluate exampleHost 2 (.CREATE (.STRING "x") (.INTEGER (.finite 1))) (.root [])
        World.initial =
      .ok (.null, .root [("x", .number (.finite 1))], World.initial) ∧
    evaluate exampleHost 2 (.SET (.STRING "x") (.INTEGER (.finite 2)))
        (.root [("x", .number (.finite 1))]) World.initial =
      .ok (.null, .root [("x", .number (.finite 2))], World.initial) :=
  ⟨by rfl, by rfl⟩

/-- C14, amended: for a CREATE or SET node whose name is neither an IDENTIFIER node
nor a STRING node and whose value evaluates successfully, `evaluate` throws the error
`expects an identifier name` and leaves the environment chain as the evaluation of the
value left it: nothing is defined or assigned. -/
theorem non_string_name_fails (host : Host) (fuel : Nat) (name value : Node)
    (env env1 : Environment) (world world1 : World) (v : Value)
    (hname : ∀ s, name ≠ .IDENTIFIER s ∧ name ≠ .STRING s)
    (hvalue : evaluate host fuel value env world = .ok (v, env1, world1)) :
    ∃ t, evaluate host (fuel + 1) (.CREATE name value) env world =
        .throw (.createExpectsIdentifier t, env1, world1) ∧
      evaluate host (fuel + 1) (.SET name value) env world =
        .throw (.setExpectsIdentifier t, env1, world1) := by
  have ht : ∃ t, name.nameValue = .error t := by
    cases name with
    | STRING s => exact absurd rfl (hname s).2
    | IDENTIFIER s => exact absurd rfl (hname s).1
    | _ => exact ⟨_, rfl⟩
  obtain ⟨t, ht⟩ := ht
  refine ⟨t, ?_, ?_⟩
  · rw [evaluate, hvalue]
    simp only [ht]
  · rw [evaluate, hvalue]
    simp only [ht]

theorem non_string_name_fails_witness :
    (∀ s, Node.INTEGER (.finite 7) ≠ .IDENTIFIER s ∧ Node.INTEGER (.finite 7) ≠ .STRING s) ∧
    evaluate exampleHost 1 (.INTEGER (.finite 1)) (.root []) World.initial =
      .ok (.number (.finite 1), .root [], World.initial) ∧
    ∃ t, evaluate exampleHost (1 + 1) (.CREATE (.INTEGER (.finite 7)) (.INTEGER (.finite 1)))
          (.root []) World.initial =
        .throw (.createExpectsIdentifier t, .root [], World.initial) ∧
      evaluate exampleHost (1 + 1) (.SET (.INTEGER (.finite 7)) (.INTEGER (.finite 1)))
          (.root []) World.initial =
        .throw (.setExpectsIdentifier t, .root [], World.initial) :=
  ⟨fun _ => ⟨fun h => Node.noConfusion h, fun h => Node.noConfusion h⟩, rfl,
    non_string_name_fails exampleHost 1 (.INTEGER (.finite 7)) (.INTEGER (.finite 1))
      (.root []) (.root []) World.initial World.initial (.number (.finite 1))
      (fun _ => ⟨fun h => Node.noConfusion h, fun h => Node.noConfusion h⟩) rfl⟩

end SpellCast
namespace SpellCast

/-- C15: for an IF or WHILE node whose condition is an expression and whose blocks
contain no SET at any depth, the environment chain that `evaluate` leaves, whether it
returns or throws, is the chain it was given: the map of the current scope and of every
ancestor is unchanged, so a CREATE in a block neither changes an outer binding nor
stays visible after the block.  Every entry into a block runs its statements in a new
empty child scope, which is dropped on exit; so in `loopLocalProgram` the `y` created
in the first iteration is undefined in the second. -/
theorem block_scope_is_discarded (host : Host) (fuel : Nat) (condition : Node)
    (code : List (Option Node)) (else_ : Option (List (Option Node))) (env : Environment)
    (world : World)
    (hcond : condition.isExpression = true) (hcode : blockNoSet code = true)
    (helse : elseNoSet else_ = true) :
    (∀ e, (evaluate host fuel (.IF condition code else_) env world).env? = some e → e = env) ∧
    (∀ e, (evaluate host fuel (.WHILE condition code) env world).env? = some e → e = env) ∧
    (∀ statements w, executeBlock (evaluate host fuel) statements env w =
      leaveBlock env (executeStatements (evaluate host fuel) statements (.child [] env) w)) ∧
    evaluate (scriptedHost [.string "go", .string "", .string "go", .string "go"]) 5
        loopLocalProgram (.root []) World.initial =
      .throw (.undefinedVariable "y", .root [],
        { stdout := [], outputCalls := [],
          inputCalls := [inputPrompt, inputPrompt, inputPrompt, inputPrompt] }) :=
  ⟨fun e h => evaluate_if_env host fuel condition code else_ env world e hcond hcode helse h,
   fun e h => evaluate_while_env host condition code hcond hcode fuel env world e h,
   fun _ _ => rfl, by decide⟩

theorem block_scope_is_discarded_witness :
    (Node.GREATER (.IDENTIFIER "x") (.INTEGER (.finite 0))).isExpression = true ∧
    blockNoSet [some (.CREATE (.IDENTIFIER "x") (.STRING "inner")),
      some (.IF (.IDENTIFIER "x") [some (.CREATE (.IDENTIFIER "z") (.IDENTIFIER "x"))] none)]
      = true ∧
    elseNoSet (some [some (.CREATE (.IDENTIFIER "x") (.STRING "other"))]) = true ∧
    (∀ e, (evaluate exampleHost 5
        (.IF (.GREATER (.IDENTIFIER "x") (.INTEGER (.finite 0)))
          [some (.CREATE (.IDENTIFIER "x") (.STRING "inner")),
           some (.IF (.IDENTIFIER "x") [some (.CREATE (.IDENTIFIER "z") (.IDENTIFIER "x"))] none)]
          (some [some (.CREATE (.IDENTIFIER "x") (.STRING "other"))]))
        (.child [("x", .number (.finite 1))] (.root [("x", .number (.finite 2))]))
        World.initial).env? = some e →
      e = .child [("x", .number (.finite 1))] (.root [("x", .number (.finite 2))])) ∧
    evaluate exampleHost 5
        (.IF (.GREATER (.IDENTIFIER "x") (.INTEGER (.finite 0)))
          [some (.CREATE (.IDENTIFIER "x") (.STRING "inner")),
           some (.IF (.IDENTIFIER "x") [some (.CREATE (.IDENTIFIER "z") (.IDENTIFIER "x"))] none)]
          (some [some (.CREATE (.IDENTIFIER "x") (.STRING "other"))]))
        (.child [("x", .number (.finite 1))] (.root [("x", .number (.finite 2))]))
        World.initial =
      .ok (.null, .child [("x", .number (.finite 1))] (.root [("x", .number (.finite 2))]),
        World.initial) :=
  ⟨by decide, by decide, by decide,
   (block_scope_is_discarded exampleHost 5 (.GREATER (.IDENTIFIER "x") (.INTEGER (.finite 0)))
      [some (.CREATE (.IDENTIFIER "x") (.STRING "inner")),
       some (.IF (.IDENTIFIER "x") [some (.CREATE (.IDENTIFIER "z") (.IDENTIFIER "x"))] none)]
      (some [some (.CREATE (.IDENTIFIER "x") (.STRING "other"))])
      (.child [("x", .number (.finite 1))] (.root [("x", .number (.finite 2))]))
      World.initial (by decide) (by decide) (by decide)).1,
   by decide⟩

end SpellCast
namespace SpellCast
open Parser

/-- C16 fails on the code, by the defect of C1: the PRINT in the loop body passes the
number to `process.stdout.write`, never to `outputFn`.  Under Node.js, for every count
`n + 1`, the first PRINT throws: the run stops in the first iteration with `x` equal to
`n`, nothing is printed and `outputFn` receives one error report.  Under a host whose
`process.stdout.write` accepts numbers the loop does run `n` times and leaves `x` at 0,
but the values `n - 1`, ..., `0` go to `process.stdout` and `outputFn` receives
nothing. -/
theorem countdown_values_never_reach_sink (n fuel : Nat) :
    tokenize ("create a new spell named x with the power of 3 " ++
      "whilst the spell is x greater than 0 is true do " ++
      "set the power of x to remove the power of 1 from x shout the many cries of x done") =
      .ok countdownTokens ∧
    parse 12 countdownTokens = .ok (countdownProgram 3) ∧
    run exampleHost (fuel + 4) (countdownProgram (n + 1)) World.initial =
      some (.root [("x", .number (.finite (n : ℚ)))],
        { stdout := [], inputCalls := [], outputCalls :=
          [("Runtime Error: " ++ "The " ++ String.mk [dquote] ++ "chunk" ++ String.mk [dquote] ++
            " argument must be of type string or an instance of Buffer, TypedArray, or DataView.",
            some "error")] }) ∧
    run permissiveHost (n + fuel + 5) (countdownProgram n) World.initial =
      some (.root [("x", .number (.finite 0))],
        { stdout := countdownValues n, outputCalls := [], inputCalls := [] }) := by
  refine ⟨countdown_tokenize, by rfl, ?_, ?_⟩
  · have h := countdown_stops_at_first_print exampleHost fuel (n + 1) World.initial _
      (by omega) rfl
    rw [h]
    simp [World.initial]
    rfl
  · have h := countdown_loop_runs permissiveHost (fun _ => rfl) n (fuel + 1) World.initial
    rw [show n + fuel + 5 = (n + (fuel + 1) + 3) + 1 by omega, run, countdownProgram,
      runStatements, evaluate, evaluate]
    simp only [Node.nameValue, Environment.define, Environment.withVariables,
      Environment.vars, Variables.set, Variables.has, List.any_nil, Bool.false_eq_true,
      if_false, List.nil_append]
    rw [runStatements]
    rw [countdownLoop, show n + (fuel + 1) + 4 = (n + (fuel + 1) + 3) + 1 by omega] at h
    rw [h]
    simp [runStatements, World.initial]

end SpellCast
namespace SpellCast
open Parser

/-- C17: for a character `c` of code 32 to 126, CHR(ORD(STRING c)) evaluates to the
string `c`, and for an integer `k` from 32 to 126, ORD(CHR(INTEGER k)) evaluates to `k`;
`get the character from the spell 65` parses to CHR(INTEGER 65), which evaluates to the
string `A`, and `may the sorcerers cast their spells on "A"` parses to ORD(STRING A),
which evaluates to 65. -/
theorem chr_ord_roundtrip (host : Host) (env : Environment) (world : World) (c : Char)
    (k : Nat) (hc : 32 ≤ c.toNat ∧ c.toNat ≤ 126) (hk : 32 ≤ k ∧ k ≤ 126) :
    evaluate host 3 (.CHR (.ORD (.STRING (String.mk [c])))) env world =
      .ok (.string (String.mk [c]), env, world) ∧
    evaluate host 3 (.ORD (.CHR (.INTEGER (.finite (k : ℚ))))) env world =
      .ok (.number (.finite (k : ℚ)), env, world) ∧
    tokenize "get the character from the spell 65" =
      .ok (keywordTokens "get the character from the spell" ++ [⟨.INTEGER, "65"⟩, eofToken]) ∧
    parseExpression
        (keywordTokens "get the character from the spell" ++ [⟨.INTEGER, "65"⟩, eofToken]) 2 0 =
      .ok (.CHR (.INTEGER (.finite 65)), 7) ∧
    evaluate host 2 (.CHR (.INTEGER (.finite 65))) env world = .ok (.string "A", env, world) ∧
    tokenize ("may the sorcerers cast their spells on " ++ String.mk [dquote, 'A', dquote]) =
      .ok (keywordTokens "may the sorcerers cast their spells on" ++
        [⟨.STRING, "A"⟩, eofToken]) ∧
    parseExpression
        (keywordTokens "may the sorcerers cast their spells on" ++
          [⟨.STRING, "A"⟩, eofToken]) 2 0 =
      .ok (.ORD (.STRING "A"), 8) ∧
    evaluate host 2 (.ORD (.STRING "A")) env world =
      .ok (.number (.finite 65), env, world) := by
  refine ⟨?_, ?_, by decide, by rfl, ?_, by decide, by rfl, ?_⟩
  · simp only [evaluate, ordOf_char c (by omega), chrOf_natCast c.toNat (by omega),
      Char.ofNat_toNat]
  · simp only [evaluate, chrOf_natCast k (by omega)]
    rw [ordOf_char (Char.ofNat k) (by rw [toNat_ofNat_of_le k hk.2]; omega),
      toNat_ofNat_of_le k hk.2]
  · have h := chrOf_natCast 65 (by omega)
    simp only [Nat.cast_ofNat] at h
    simp only [evaluate, h]
  · have h := ordOf_char 'A' (by decide)
    simp only [evaluate]
    rw [show ("A" : String) = String.mk ['A'] from rfl, h]
    norm_num
    rfl

theorem chr_ord_roundtrip_witness :
    (32 ≤ 'z'.toNat ∧ 'z'.toNat ≤ 126) ∧ (32 ≤ 32 ∧ 32 ≤ 126) ∧
    evaluate exampleHost 3 (.CHR (.ORD (.STRING (String.mk ['z'])))) (.root []) World.initial =
      .ok (.string (String.mk ['z']), .root [], World.initial) ∧
    evaluate exampleHost 3 (.ORD (.CHR (.INTEGER (.finite ((32 : Nat) : ℚ))))) (.root [])
        World.initial =
      .ok (.number (.finite ((32 : Nat) : ℚ)), .root [], World.initial) :=
  ⟨by decide, by decide,
   (chr_ord_roundtrip exampleHost (.root []) World.initial 'z' 32 (by decide) (by decide)).1,
   (chr_ord_roundtrip exampleHost (.root []) World.initial 'z' 32 (by decide) (by decide)).2.1⟩

end SpellCast
namespace SpellCast

/-- C18: when the statements before the k-th all return and the k-th throws, `run` on
the program returns normally, in the state the k-th statement left (so nothing after it
is evaluated, whatever follows), with exactly one call of `outputFn` added to those
made before the run: the message `Runtime Error: ` followed by the message of the
error, with the severity `error`. -/
theorem run_reports_first_failure_once (host : Host) (fuel : Nat) (pre : List Node)
    (s : Node) (post : List Node) (world : World) (v : Value) (env1 env2 : Environment)
    (world1 world2 : World) (x : RuntimeError)
    (hpre : runStatements host fuel pre (.root []) world = .ok (v, env1, world1))
    (hfail : evaluate host fuel s env1 world1 = .throw (x, env2, world2)) :
    run host fuel (pre ++ s :: post) world =
      some (env2, { world2 with outputCalls :=
        world.outputCalls ++ [("Runtime Error: " ++ x.message, some "error")] }) := by
  have h1 : world1.outputCalls = world.outputCalls :=
    runStatements_keepsOutput host fuel pre _ world world1 (by rw [hpre]; rfl)
  have h2 : world2.outputCalls = world1.outputCalls :=
    evaluate_keepsOutput host fuel s env1 world1 world2 (by rw [hfail]; rfl)
  rw [run, runStatements_first_failure host fuel pre s post x env2 world2 _ world v env1
    world1 hpre hfail]
  simp only [h2, h1]

theorem run_reports_first_failure_once_witness :
    runStatements exampleHost 3 [.CREATE (.IDENTIFIER "x") (.INTEGER (.finite 1))] (.root [])
        World.initial =
      .ok (.null, .root [("x", .number (.finite 1))], World.initial) ∧
    evaluate exampleHost 3 (.SET (.IDENTIFIER "y") (.INTEGER (.finite 2)))
        (.root [("x", .number (.finite 1))]) World.initial =
      .throw (.undefinedVariable "y", .root [("x", .number (.finite 1))], World.initial) ∧
    run exampleHost 3
        ([.CREATE (.IDENTIFIER "x") (.INTEGER (.finite 1))] ++
          .SET (.IDENTIFIER "y") (.INTEGER (.finite 2)) ::
            [.SET (.IDENTIFIER "x") (.INTEGER (.finite 3))])
        World.initial =
      some (.root [("x", .number (.finite 1))], { World.initial with outputCalls :=
        World.initial.outputCalls ++
          [("Runtime Error: " ++ (RuntimeError.undefinedVariable "y").message, some "error")] }) :=
  ⟨by rfl, by rfl,
   run_reports_first_failure_once exampleHost 3 _ _ _ World.initial .null _ _ _ _ _
    (by rfl) (by rfl)⟩

end SpellCast
namespace SpellCast

/-- C19, as stated, fails for the empty and the blank text: when `inputFn` answers the
empty string, or a string of two spaces, the INPUT node evaluates to the number 0, not
to the raw text, because `Number` reads both as 0. -/
theorem blank_input_counterexample :
    evaluate (scriptedHost [.string ""]) 1 .INPUT (.root []) World.initial =
      .ok (.number (.finite 0), .root [],
        { stdout := [], outputCalls := [], inputCalls := [inputPrompt] }) ∧
    evaluate (scriptedHost [.string "  "]) 1 .INPUT (.root []) World.initial =
      .ok (.number (.finite 0), .root [],
        { stdout := [], outputCalls := [], inputCalls := [inputPrompt] }) := by
  decide

/-- C19, amended: when `inputFn` answers the text `t`, evaluating an INPUT node calls
`inputFn` exactly once, with the fixed prompt, and yields the number `Number(t)` when
that is not `NaN` and the raw text `t` when it is.  `Number` reads the empty text and
a blank text as 0, a decimal literal as its value, and a text such as `abc` as `NaN`. -/
theorem input_is_number_or_raw_text (host : Host) (fuel : Nat) (env : Environment)
    (world : World) (t : String)
    (hanswer : host.inputFn world.inputCalls.length inputPrompt = .string t) :
    evaluate host (fuel + 1) .INPUT env world =
      .ok (if host.stringToNumber t = .nan then .string t else .number (host.stringToNumber t),
        env, { world with inputCalls := world.inputCalls ++ [inputPrompt] }) ∧
    stringToNumber "" = .finite 0 ∧ stringToNumber "  " = .finite 0 ∧
    stringToNumber "12" = .finite 12 ∧ stringToNumber "1.5" = .finite (3 / 2) ∧
    stringToNumber "abc" = .nan := by
  refine ⟨?_, by decide, by decide, ?_, ?_, by decide⟩
  · rw [evaluate]
    simp only [hanswer, Host.toNumber]
    split <;> rfl
  · have h1 : (("12".data.dropWhile isSpace).reverse.dropWhile isSpace).reverse =
        ['1', '2'] := by decide
    simp only [stringToNumber, h1]
    simp +decide [decimalOfString, exponentOfString, digitsValue]
  · have h1 : (("1.5".data.dropWhile isSpace).reverse.dropWhile isSpace).reverse =
        ['1', '.', '5'] := by decide
    simp only [stringToNumber, h1]
    simp +decide [decimalOfString, exponentOfString, digitsValue]
    norm_num

theorem input_is_number_or_raw_text_witness :
    (scriptedHost [.string "abc"]).inputFn World.initial.inputCalls.length inputPrompt =
      .string "abc" ∧
    evaluate (scriptedHost [.string "abc"]) (0 + 1) .INPUT (.root []) World.initial =
      .ok (if (scriptedHost [.string "abc"]).stringToNumber "abc" = .nan then .string "abc"
          else .number ((scriptedHost [.string "abc"]).stringToNumber "abc"),
        .root [], { World.initial with inputCalls := World.initial.inputCalls ++ [inputPrompt] }) ∧
    (scriptedHost [.string "abc"]).stringToNumber "abc" = .nan :=
  ⟨rfl, (input_is_number_or_raw_text (scriptedHost [.string "abc"]) 0 (.root []) World.initial
    "abc" rfl).1, by decide⟩

end SpellCast
namespace SpellCast

/-- C20: for a pure expression node (literals, IDENTIFIER and the arithmetic,
comparison, ORD and CHR nodes over pure expressions) and fuel above its depth,
`evaluate` returns a value or throws, in both cases leaving the environment chain and
the world as they were; hence evaluating the node again in the state the first
evaluation left gives the same outcome, the same value or the same error. -/
theorem pure_expression_idempotent (host : Host) (fuel : Nat) (node : Node)
    (env : Environment) (world : World)
    (hpure : node.isPure = true) (hfuel : node.operatorDepth < fuel) :
    ((∃ v, evaluate host fuel node env world = .ok (v, env, world)) ∨
      (∃ x, evaluate host fuel node env world = .throw (x, env, world))) ∧
    ∀ e w, (evaluate host fuel node env world).state? = some (e, w) →
      e = env ∧ w = world ∧
      evaluate host fuel node e w = evaluate host fuel node env world := by
  have hexpr := Node.isExpression_of_isPure _ node hfuel hpure
  have hstate : ∀ e w, (evaluate host fuel node env world).state? = some (e, w) →
      e = env ∧ w = world := by
    intro e w h
    obtain ⟨he, hw⟩ := evaluate_expression_state host fuel node env world e w hexpr h
    exact ⟨he, hw hpure⟩
  constructor
  · cases h : evaluate host fuel node env world with
    | ok a =>
      obtain ⟨v, e, w⟩ := a
      obtain ⟨rfl, rfl⟩ := hstate e w (by rw [h]; rfl)
      exact Or.inl ⟨v, rfl⟩
    | throw a =>
      obtain ⟨x, e, w⟩ := a
      obtain ⟨rfl, rfl⟩ := hstate e w (by rw [h]; rfl)
      exact Or.inr ⟨x, rfl⟩
    | outOfFuel => exact absurd h (evaluate_pure_returns host fuel node env world hpure hfuel)
  · intro e w h
    obtain ⟨rfl, rfl⟩ := hstate e w h
    exact ⟨rfl, rfl, rfl⟩

theorem pure_expression_idempotent_witness :
    (Node.DIVIDE (.IDENTIFIER "x") (.ADD (.INTEGER (.finite 1)) (.IDENTIFIER "y"))).isPure = true ∧
    (Node.DIVIDE (.IDENTIFIER "x") (.ADD (.INTEGER (.finite 1)) (.IDENTIFIER "y"))).operatorDepth
      < 3 ∧
    ((∃ v, evaluate exampleHost 3
          (.DIVIDE (.IDENTIFIER "x") (.ADD (.INTEGER (.finite 1)) (.IDENTIFIER "y")))
          (.child [("y", .number (.finite 1))] (.root [("x", .number (.finite 4))]))
          World.initial =
        .ok (v, .child [("y", .number (.finite 1))] (.root [("x", .number (.finite 4))]),
          World.initial)) ∨
      (∃ x, evaluate exampleHost 3
          (.DIVIDE (.IDENTIFIER "x") (.ADD (.INTEGER (.finite 1)) (.IDENTIFIER "y")))
          (.child [("y", .number (.finite 1))] (.root [("x", .number (.finite 4))]))
          World.initial =
        .throw (x, .child [("y", .number (.finite 1))] (.root [("x", .number (.finite 4))]),
          World.initial))) :=
  ⟨by decide, by decide,
    (pure_expression_idempotent exampleHost 3
      (.DIVIDE (.IDENTIFIER "x") (.ADD (.INTEGER (.finite 1)) (.IDENTIFIER "y")))
      (.child [("y", .number (.finite 1))] (.root [("x", .number (.finite 4))]))
      World.initial (by decide) (by decide)).1⟩

end SpellCast

namespace SpellCast
open Parser

/-! ## Parser: more fuel keeps the outcome -/

/-- A sequence of two calls keeps its outcome under more fuel when both calls do. -/
theorem Outcome.bind_stable {ε α β : Type} {x y : Outcome ε α} {f g : α → Outcome ε β}
    (hx : x ≠ .outOfFuel → y = x) (hf : ∀ a, f a ≠ .outOfFuel → g a = f a) :
    (x >>= f) ≠ .outOfFuel → (y >>= g) = (x >>= f) := by
  cases x with
  | ok a =>
    rw [hx (fun h => Outcome.noConfusion h)]
    exact hf a
  | throw e =>
    rw [hx (fun h => Outcome.noConfusion h)]
    intro _
    rfl
  | outOfFuel => exact fun h => absurd rfl h

theorem Outcome.ite_stable {ε α : Type} {c : Prop} [Decidable c] {a b x y : Outcome ε α}
    (ha : a ≠ .outOfFuel → x = a) (hb : b ≠ .outOfFuel → y = b) :
    (if c then a else b) ≠ .outOfFuel → (if c then x else y) = (if c then a else b) := by
  split_ifs
  · exact ha
  · exact hb

theorem Parser.parsePrimary_stable (tokens : List Token) :
    ∀ fuel c, parsePrimary tokens fuel c ≠ .outOfFuel →
      parsePrimary tokens (fuel + 1) c = parsePrimary tokens fuel c := by
  intro fuel
  induction fuel with
  | zero => intro c h; exact absurd rfl h
  | succ fuel ih =>
    intro c
    rw [parsePrimary.eq_2 tokens c (fuel + 1), parsePrimary.eq_2 tokens c fuel]
    repeat' first
      | exact ih _
      | exact fun _ => rfl
      | refine Outcome.ite_stable ?_ ?_
      | refine Outcome.bind_stable ?_ ?_
      | intro (a : ℕ)
      | (rintro ⟨_, _⟩; dsimp only)

theorem Parser.parsePrintStatement_stable (tokens : List Token) (fuel c : Nat) :
    parsePrintStatement tokens fuel c ≠ .outOfFuel →
      parsePrintStatement tokens (fuel + 1) c = parsePrintStatement tokens fuel c := by
  unfold parsePrintStatement parseExpression
  repeat' first
    | exact parsePrimary_stable tokens fuel _
    | exact fun _ => rfl
    | refine Outcome.ite_stable ?_ ?_
    | refine Outcome.bind_stable ?_ ?_
    | intro (a : ℕ)
    | (rintro ⟨_, _⟩; dsimp only)

theorem Parser.parseCreateStatement_stable (tokens : List Token) (fuel c : Nat) :
    parseCreateStatement tokens fuel c ≠ .outOfFuel →
      parseCreateStatement tokens (fuel + 1) c = parseCreateStatement tokens fuel c := by
  unfold parseCreateStatement parseExpression
  repeat' first
    | exact parsePrimary_stable tokens fuel _
    | exact fun _ => rfl
    | refine Outcome.ite_stable ?_ ?_
    | refine Outcome.bind_stable ?_ ?_
    | intro (a : ℕ)
    | (rintro ⟨_, _⟩; dsimp only)

theorem Parser.parseSetStatement_stable (tokens : List Token) (fuel c : Nat) :
    parseSetStatement tokens fuel c ≠ .outOfFuel →
      parseSetStatement tokens (fuel + 1) c = parseSetStatement tokens fuel c := by
  unfold parseSetStatement parseExpression
  repeat' first
    | exact parsePrimary_stable tokens fuel _
    | exact fun _ => rfl
    | refine Outcome.ite_stable ?_ ?_
    | refine Outcome.bind_stable ?_ ?_
    | intro (a : ℕ)
    | (rintro ⟨_, _⟩; dsimp only)

/-- The five functions of the statement level keep their outcome under more fuel. -/
theorem Parser.statement_level_stable (tokens : List Token) :
    ∀ fuel,
      (∀ c, parseStatement tokens fuel c ≠ .outOfFuel →
        parseStatement tokens (fuel + 1) c = parseStatement tokens fuel c) ∧
      (∀ c block, parseBlockLoop tokens fuel c block ≠ .outOfFuel →
        parseBlockLoop tokens (fuel + 1) c block = parseBlockLoop tokens fuel c block) ∧
      (∀ c, parseBlock tokens fuel c ≠ .outOfFuel →
        parseBlock tokens (fuel + 1) c = parseBlock tokens fuel c) ∧
      (∀ c, parseIfStatement tokens fuel c ≠ .outOfFuel →
        parseIfStatement tokens (fuel + 1) c = parseIfStatement tokens fuel c) ∧
      (∀ c, parseWhileStatement tokens fuel c ≠ .outOfFuel →
        parseWhileStatement tokens (fuel + 1) c = parseWhileStatement tokens fuel c) := by
  intro fuel
  induction fuel with
  | zero =>
    exact ⟨fun c h => absurd rfl h, fun c b h => absurd rfl h, fun c h => absurd rfl h,
      fun c h => absurd rfl h, fun c h => absurd rfl h⟩
  | succ fuel ih =>
    obtain ⟨ih1, ih2, ih3, ih4, ih5⟩ := ih
    refine ⟨?_, ?_, ?_, ?_, ?_⟩
    · intro c
      rw [parseStatement.eq_2 tokens c (fuel + 1), parseStatement.eq_2 tokens c fuel]
      repeat' first
        | exact ih4 _
        | exact ih5 _
        | exact parsePrintStatement_stable tokens fuel _
        | exact parseCreateStatement_stable tokens fuel _
        | exact parseSetStatement_stable tokens fuel _
        | exact fun _ => rfl
        | refine Outcome.ite_stable ?_ ?_
        | refine Outcome.bind_stable ?_ ?_
        | intro (a : ℕ)
        | (rintro ⟨_, _⟩; dsimp only)
    · intro c block
      rw [parseBlockLoop.eq_2 tokens c block (fuel + 1), parseBlockLoop.eq_2 tokens c block fuel]
      repeat' first
        | exact ih1 _
        | exact ih2 _ _
        | exact fun _ => rfl
        | refine Outcome.ite_stable ?_ ?_
        | refine Outcome.bind_stable ?_ ?_
        | intro (a : ℕ)
        | (rintro ⟨_, _⟩; dsimp only)
    · intro c
      rw [parseBlock.eq_2 tokens c (fuel + 1), parseBlock.eq_2 tokens c fuel]
      refine Outcome.bind_stable (fun _ => rfl) ?_
      intro a
      exact ih2 _ _
    · intro c
      rw [parseIfStatement.eq_2 tokens c (fuel + 1), parseIfStatement.eq_2 tokens c fuel]
      unfold parseExpression
      repeat' first
        | exact ih3 _
        | exact parsePrimary_stable tokens fuel _
        | exact fun _ => rfl
        | refine Outcome.ite_stable ?_ ?_
        | refine Outcome.bind_stable ?_ ?_
        | intro (a : ℕ)
        | (rintro ⟨_, _⟩; dsimp only)
    · intro c
      rw [parseWhileStatement.eq_2 tokens c (fuel + 1), parseWhileStatement.eq_2 tokens c fuel]
      unfold parseExpression
      repeat' first
        | exact ih3 _
        | exact parsePrimary_stable tokens fuel _
        | exact fun _ => rfl
        | refine Outcome.ite_stable ?_ ?_
        | refine Outcome.bind_stable ?_ ?_
        | intro (a : ℕ)
        | (rintro ⟨_, _⟩; dsimp only)

/-- A statement that is parsed with some fuel is parsed the same with more. -/
theorem Parser.parseStatement_more_fuel (tokens : List Token) (fuel c : Nat)
    (r : Option Node × Nat) (h : parseStatement tokens fuel c = .ok r) :
    ∀ more, parseStatement tokens (fuel + more) c = .ok r := by
  intro more
  induction more with
  | zero => exact h
  | succ more ih =>
    have hs := (statement_level_stable tokens (fuel + more)).1 c
      (by rw [ih]; exact fun hh => Outcome.noConfusion hh)
    rw [← Nat.add_assoc, hs, ih]

end SpellCast

namespace SpellCast
open Parser

/-! ## The top-level loop -/

/-- On a token that starts no statement `parseStatement` returns `null` and leaves the
cursor where it is. -/
theorem Parser.parseStatement_stray (tokens : List Token) (fuel c : Nat) (t : Token)
    (ht : tokens[c]? = some t)
    (hstray : t.kind ≠ .IDENTIFIER ∨ t.text ∉ statementKeywords) :
    parseStatement tokens (fuel + 1) c = .ok (none, c) := by
  have hk : ∀ w ∈ statementKeywords, checkVal tokens c w = false := by
    intro w hw
    rw [checkVal_of_token ht]
    rcases hstray with h | h
    · simp [h]
    · have : t.text ≠ w := fun e => h (e ▸ hw)
      simp [this]
  have h1 := hk "shout" (by decide)
  have h2 := hk "create" (by decide)
  have h3 := hk "cast" (by decide)
  have h4 := hk "set" (by decide)
  have h5 := hk "whilst" (by decide)
  rw [parseStatement]
  simp only [h1, h2, h3, h4, h5, Bool.false_eq_true, if_false, ite_self]

/-- The loop of `parse` over complete statements followed by a token that starts no
statement: the statements are added to the program and the loop returns. -/
theorem Parser.parseLoop_complete (tokens : List Token) (fuel stop : Nat) (t : Token)
    (ht : tokens[stop]? = some t)
    (hstray : t.kind ≠ .IDENTIFIER ∨ t.text ∉ statementKeywords) :
    ∀ (statements : List Node) (c : Nat) (program : List Node) (more : Nat),
      completeStatements tokens fuel statements c stop →
      parseLoop tokens (fuel + statements.length + 2 + more) c program =
        .ok (program ++ statements) := by
  intro statements
  induction statements with
  | nil =>
    intro c program more h
    have hc : c = stop := h
    subst hc
    rw [show fuel + ([] : List Node).length + 2 + more = (fuel + more) + 1 + 1 by
      simp only [List.length_nil]; omega]
    rw [parseLoop, parseStatement_stray tokens (fuel + more) c t ht hstray]
    simp [isAtEnd_of_token ht]
  | cons s rest ih =>
    intro c program more h
    obtain ⟨next, hs, hrest⟩ := h
    have hend : isAtEnd tokens c = false := by
      cases fuel with
      | zero => exact absurd hs (fun hh => Outcome.noConfusion hh)
      | succ f =>
        cases hb : isAtEnd tokens c with
        | false => rfl
        | true =>
          rw [parseStatement] at hs
          simp only [hb, if_true] at hs
          cases hs
    rw [show fuel + (s :: rest).length + 2 + more = (fuel + (rest.length + 2 + more)) + 1 by
      simp only [List.length_cons]; omega]
    rw [parseLoop, parseStatement_more_fuel tokens fuel c _ hs (rest.length + 2 + more)]
    simp only [hend, Bool.not_false, if_true]
    rw [show fuel + (rest.length + 2 + more) = fuel + rest.length + 2 + more by omega,
      ih next (program ++ [s]) more hrest, List.append_assoc]
    rfl

end SpellCast

namespace SpellCast
open Parser

/-! ## Parser: the keyword forms of `parsePrimary` -/

theorem Parser.parsePrimary_combine (tokens : List Token) (fuel current : Nat) (a b : Node)
    (c1 c2 : Nat)
    (hphrase : keywordTokens "combine the power of" <+: tokens.drop current)
    (hA : parsePrimary tokens fuel (current + 4) = .ok (a, c1))
    (hmid : keywordTokens "and" <+: tokens.drop c1)
    (hB : parsePrimary tokens fuel (c1 + 1) = .ok (b, c2)) :
    parsePrimary tokens (fuel + 1) current = .ok (.ADD a b, c2) := by
  have hk : keywordTokens "combine the power of" =
      ⟨.IDENTIFIER, "combine"⟩ :: keywordTokens "the power of" := by decide
  rw [hk] at hphrase
  obtain ⟨h0, h1⟩ := token_of_phrase hphrase
  have hm := consumeKeywords_of_phrase tokens "and" c1 hmid
  rw [show (splitSpaces "and").length = 1 by decide] at hm
  rw [parsePrimary]
  simp only [check_of_token h0, checkVal_of_token h0, advance_of_token h0,
    consumeKeywords_of_phrase tokens "the power of" (current + 1) h1]
  simp only [show splitSpaces "the power of" = ["the", "power", "of"] by decide,
    List.length_cons, List.length_nil]
  simp +decide only [hA, hm, hB, Outcome.ok_bind, if_true, if_false, bind_pure_comp]
  rfl

theorem Parser.parsePrimary_duplicate (tokens : List Token) (fuel current : Nat) (a b : Node)
    (c1 c2 : Nat)
    (hphrase : keywordTokens "duplicate the power of" <+: tokens.drop current)
    (hA : parsePrimary tokens fuel (current + 4) = .ok (a, c1))
    (hB : parsePrimary tokens fuel c1 = .ok (b, c2))
    (hlast : keywordTokens "times" <+: tokens.drop c2) :
    parsePrimary tokens (fuel + 1) current = .ok (.MULTIPLY a b, c2 + 1) := by
  have hk : keywordTokens "duplicate the power of" =
      ⟨.IDENTIFIER, "duplicate"⟩ :: keywordTokens "the power of" := by decide
  rw [hk] at hphrase
  obtain ⟨h0, h1⟩ := token_of_phrase hphrase
  have hm := consumeKeywords_of_phrase tokens "times" c2 hlast
  rw [show (splitSpaces "times").length = 1 by decide] at hm
  rw [parsePrimary]
  simp only [check_of_token h0, checkVal_of_token h0, advance_of_token h0,
    consumeKeywords_of_phrase tokens "the power of" (current + 1) h1]
  simp only [show splitSpaces "the power of" = ["the", "power", "of"] by decide,
    List.length_cons, List.length_nil]
  simp +decide only [hA, hm, hB, Outcome.ok_bind, if_true, if_false, bind_pure_comp]
  rfl

theorem Parser.parsePrimary_split (tokens : List Token) (fuel current : Nat) (a b : Node)
    (c1 c2 : Nat)
    (hphrase : keywordTokens "split the power of" <+: tokens.drop current)
    (hA : parsePrimary tokens fuel (current + 4) = .ok (a, c1))
    (hB : parsePrimary tokens fuel c1 = .ok (b, c2))
    (hlast : keywordTokens "times" <+: tokens.drop c2) :
    parsePrimary tokens (fuel + 1) current = .ok (.DIVIDE a b, c2 + 1) := by
  have hk : keywordTokens "split the power of" =
      ⟨.IDENTIFIER, "split"⟩ :: keywordTokens "the power of" := by decide
  rw [hk] at hphrase
  obtain ⟨h0, h1⟩ := token_of_phrase hphrase
  have hm := consumeKeywords_of_phrase tokens "times" c2 hlast
  rw [show (splitSpaces "times").length = 1 by decide] at hm
  rw [parsePrimary]
  simp only [check_of_token h0, checkVal_of_token h0, advance_of_token h0,
    consumeKeywords_of_phrase tokens "the power of" (current + 1) h1]
  simp only [show splitSpaces "the power of" = ["the", "power", "of"] by decide,
    List.length_cons, List.length_nil]
  simp +decide only [hA, hm, hB, Outcome.ok_bind, if_true, if_false, bind_pure_comp]
  rfl

theorem Parser.parsePrimary_find (tokens : List Token) (fuel current : Nat)
    (hphrase : keywordTokens "find the source of the messages" <+: tokens.drop current) :
    parsePrimary tokens (fuel + 1) current = .ok (.INPUT, current + 6) := by
  have hk : keywordTokens "find the source of the messages" =
      ⟨.IDENTIFIER, "find"⟩ :: keywordTokens "the source of the messages" := by decide
  rw [hk] at hphrase
  obtain ⟨h0, h1⟩ := token_of_phrase hphrase
  rw [parsePrimary]
  simp only [check_of_token h0, checkVal_of_token h0, advance_of_token h0,
    consumeKeywords_of_phrase tokens "the source of the messages" (current + 1) h1]
  simp only [show (splitSpaces "the source of the messages").length = 5 by decide]
  simp +decide only [Outcome.ok_bind, if_true, if_false, bind_pure_comp]
  rfl

theorem Parser.parsePrimary_may (tokens : List Token) (fuel current : Nat) (a : Node)
    (c1 : Nat)
    (hphrase : keywordTokens "may the sorcerers cast their spells on" <+: tokens.drop current)
    (hA : parsePrimary tokens fuel (current + 7) = .ok (a, c1)) :
    parsePrimary tokens (fuel + 1) current = .ok (.ORD a, c1) := by
  have hk : keywordTokens "may the sorcerers cast their spells on" =
      ⟨.IDENTIFIER, "may"⟩ :: keywordTokens "the sorcerers cast their spells on" := by decide
  rw [hk] at hphrase
  obtain ⟨h0, h1⟩ := token_of_phrase hphrase
  have hm := consumeKeywords_of_phrase tokens "the sorcerers cast their spells on" (current + 1) h1
  rw [show (splitSpaces "the sorcerers cast their spells on").length = 6 by decide,
    show current + 1 + 6 = current + 7 by omega] at hm
  rw [parsePrimary]
  simp only [check_of_token h0, checkVal_of_token h0, advance_of_token h0, hm]
  simp +decide only [hA, Outcome.ok_bind, if_true, if_false, bind_pure_comp]
  rfl

theorem Parser.parsePrimary_get (tokens : List Token) (fuel current : Nat) (a : Node)
    (c1 : Nat)
    (hphrase : keywordTokens "get the character from the spell" <+: tokens.drop current)
    (hA : parsePrimary tokens fuel (current + 6) = .ok (a, c1)) :
    parsePrimary tokens (fuel + 1) current = .ok (.CHR a, c1) := by
  have hk : keywordTokens "get the character from the spell" =
      ⟨.IDENTIFIER, "get"⟩ :: keywordTokens "the character from the spell" := by decide
  rw [hk] at hphrase
  obtain ⟨h0, h1⟩ := token_of_phrase hphrase
  have hm := consumeKeywords_of_phrase tokens "the character from the spell" (current + 1) h1
  rw [show (splitSpaces "the character from the spell").length = 5 by decide,
    show current + 1 + 5 = current + 6 by omega] at hm
  rw [parsePrimary]
  simp only [check_of_token h0, checkVal_of_token h0, advance_of_token h0, hm]
  simp +decide only [hA, Outcome.ok_bind, if_true, if_false, bind_pure_comp]
  rfl

theorem Parser.parsePrimary_isEqual (tokens : List Token) (fuel current : Nat) (a b : Node)
    (c1 c2 : Nat)
    (h0 : tokens[current]? = some ⟨.IDENTIFIER, "is"⟩)
    (hA : parsePrimary tokens fuel (current + 1) = .ok (a, c1))
    (hmid : keywordTokens "equal to" <+: tokens.drop c1)
    (hB : parsePrimary tokens fuel (c1 + 2) = .ok (b, c2)) :
    parsePrimary tokens (fuel + 1) current = .ok (.EQUAL a b, c2) := by
  have hk : keywordTokens "equal to" =
      ⟨.IDENTIFIER, "equal"⟩ :: keywordTokens "to" := by decide
  rw [hk] at hmid
  obtain ⟨h2, h3⟩ := token_of_phrase hmid
  have hm := consumeKeywords_of_phrase tokens "to" (c1 + 1) h3
  rw [show (splitSpaces "to").length = 1 by decide,
    show c1 + 1 + 1 = c1 + 2 by omega] at hm
  rw [parsePrimary]
  simp only [check_of_token h0, checkVal_of_token h0, advance_of_token h0]
  simp +decide only [hA, Outcome.ok_bind, if_true, if_false, bind_pure_comp]
  simp only [checkVal_of_token h2, advance_of_token h2]
  simp +decide only [hm, hB, Outcome.ok_bind, if_true, if_false, bind_pure_comp]
  rfl

theorem Parser.parsePrimary_isNotEqual (tokens : List Token) (fuel current : Nat) (a b : Node)
    (c1 c2 : Nat)
    (h0 : tokens[current]? = some ⟨.IDENTIFIER, "is"⟩)
    (hA : parsePrimary tokens fuel (current + 1) = .ok (a, c1))
    (hmid : keywordTokens "not equal to" <+: tokens.drop c1)
    (hB : parsePrimary tokens fuel (c1 + 3) = .ok (b, c2)) :
    parsePrimary tokens (fuel + 1) current = .ok (.NOTEQUAL a b, c2) := by
  have hk : keywordTokens "not equal to" =
      ⟨.IDENTIFIER, "not"⟩ :: keywordTokens "equal to" := by decide
  rw [hk] at hmid
  obtain ⟨h2, h3⟩ := token_of_phrase hmid
  have hm := consumeKeywords_of_phrase tokens "equal to" (c1 + 1) h3
  rw [show (splitSpaces "equal to").length = 2 by decide,
    show c1 + 1 + 2 = c1 + 3 by omega] at hm
  rw [parsePrimary]
  simp only [check_of_token h0, checkVal_of_token h0, advance_of_token h0]
  simp +decide only [hA, Outcome.ok_bind, if_true, if_false, bind_pure_comp]
  simp only [checkVal_of_token h2, advance_of_token h2]
  simp +decide only [hm, hB, Outcome.ok_bind, if_true, if_false, bind_pure_comp]
  rfl

theorem Parser.parsePrimary_isGreater (tokens : List Token) (fuel current : Nat) (a b : Node)
    (c1 c2 : Nat)
    (h0 : tokens[current]? = some ⟨.IDENTIFIER, "is"⟩)
    (hA : parsePrimary tokens fuel (current + 1) = .ok (a, c1))
    (hmid : keywordTokens "greater than" <+: tokens.drop c1)
    (hB : parsePrimary tokens fuel (c1 + 2) = .ok (b, c2)) :
    parsePrimary tokens (fuel + 1) current = .ok (.GREATER a b, c2) := by
  have hk : keywordTokens "greater than" =
      ⟨.IDENTIFIER, "greater"⟩ :: keywordTokens "than" := by decide
  rw [hk] at hmid
  obtain ⟨h2, h3⟩ := token_of_phrase hmid
  have hm := consumeKeywords_of_phrase tokens "than" (c1 + 1) h3
  rw [show (splitSpaces "than").length = 1 by decide,
    show c1 + 1 + 1 = c1 + 2 by omega] at hm
  rw [parsePrimary]
  simp only [check_of_token h0, checkVal_of_token h0, advance_of_token h0]
  simp +decide only [hA, Outcome.ok_bind, if_true, if_false, bind_pure_comp]
  simp only [checkVal_of_token h2, advance_of_token h2]
  simp +decide only [hm, hB, Outcome.ok_bind, if_true, if_false, bind_pure_comp]
  rfl

theorem Parser.parsePrimary_isLess (tokens : List Token) (fuel current : Nat) (a b : Node)
    (c1 c2 : Nat)
    (h0 : tokens[current]? = some ⟨.IDENTIFIER, "is"⟩)
    (hA : parsePrimary tokens fuel (current + 1) = .ok (a, c1))
    (hmid : keywordTokens "less than" <+: tokens.drop c1)
    (hB : parsePrimary tokens fuel (c1 + 2) = .ok (b, c2)) :
    parsePrimary tokens (fuel + 1) current = .ok (.LESS a b, c2) := by
  have hk : keywordTokens "less than" =
      ⟨.IDENTIFIER, "less"⟩ :: keywordTokens "than" := by decide
  rw [hk] at hmid
  obtain ⟨h2, h3⟩ := token_of_phrase hmid
  have hm := consumeKeywords_of_phrase tokens "than" (c1 + 1) h3
  rw [show (splitSpaces "than").length = 1 by decide,
    show c1 + 1 + 1 = c1 + 2 by omega] at hm
  rw [parsePrimary]
  simp only [check_of_token h0, checkVal_of_token h0, advance_of_token h0]
  simp +decide only [hA, Outcome.ok_bind, if_true, if_false, bind_pure_comp]
  simp only [checkVal_of_token h2, advance_of_token h2]
  simp +decide only [hm, hB, Outcome.ok_bind, if_true, if_false, bind_pure_comp]
  rfl

theorem Parser.parsePrimary_string (tokens : List Token) (fuel current : Nat) (text : String)
    (h0 : tokens[current]? = some ⟨.STRING, text⟩) :
    parsePrimary tokens (fuel + 1) current = .ok (.STRING text, current + 1) := by
  rw [parsePrimary]
  simp only [check_of_token h0, literal, advance_of_token h0]
  simp +decide only [if_true, if_false]

theorem Parser.parsePrimary_integer (tokens : List Token) (fuel current : Nat) (text : String)
    (h0 : tokens[current]? = some ⟨.INTEGER, text⟩) :
    parsePrimary tokens (fuel + 1) current = .ok (.INTEGER (parseInt text), current + 1) := by
  rw [parsePrimary]
  simp only [check_of_token h0, literal, advance_of_token h0]
  simp +decide only [if_true, if_false]

theorem Parser.parsePrimary_float (tokens : List Token) (fuel current : Nat) (text : String)
    (h0 : tokens[current]? = some ⟨.FLOAT, text⟩) :
    parsePrimary tokens (fuel + 1) current = .ok (.FLOAT (parseFloat text), current + 1) := by
  rw [parsePrimary]
  simp only [check_of_token h0, literal, advance_of_token h0]
  simp +decide only [if_true, if_false]

end SpellCast

namespace SpellCast
open Parser

/-! ## Parser: expressions of the grammar -/

theorem not_contains_keyword {name : String}
    (h : (!expressionKeywords.contains name) = true) : name ∉ expressionKeywords := by
  simpa using h

/-- An expression of the grammar is not empty. -/
theorem Expression.tokens_nonempty (e : Expression) : 0 < e.tokens.length := by
  cases e <;> simp [Expression.tokens, keywordTokens, splitSpaces]

/-- The tokens of an expression of the grammar whose spells are not named by a keyword
are parsed, from any cursor at which they stand and with fuel for each token, to the
node of the expression; the cursor is left after them. -/
theorem Parser.parsePrimary_expression :
    ∀ (e : Expression) (tokens : List Token) (c fuel : Nat), e.namesFree = true →
      e.tokens <+: tokens.drop c → e.tokens.length ≤ fuel →
      parsePrimary tokens fuel c = .ok (e.node, c + e.tokens.length) := by
  intro e
  induction e with
  | string text =>
    intro tokens c fuel _ htok hfuel
    simp only [Expression.tokens, List.length_singleton] at htok hfuel ⊢
    obtain ⟨f, rfl⟩ : ∃ f, fuel = f + 1 := ⟨fuel - 1, by omega⟩
    exact parsePrimary_string tokens f c text (token_of_phrase htok).1
  | integer text =>
    intro tokens c fuel _ htok hfuel
    simp only [Expression.tokens, List.length_singleton] at htok hfuel ⊢
    obtain ⟨f, rfl⟩ : ∃ f, fuel = f + 1 := ⟨fuel - 1, by omega⟩
    exact parsePrimary_integer tokens f c text (token_of_phrase htok).1
  | float text =>
    intro tokens c fuel _ htok hfuel
    simp only [Expression.tokens, List.length_singleton] at htok hfuel ⊢
    obtain ⟨f, rfl⟩ : ∃ f, fuel = f + 1 := ⟨fuel - 1, by omega⟩
    exact parsePrimary_float tokens f c text (token_of_phrase htok).1
  | spell name =>
    intro tokens c fuel hfree htok hfuel
    simp only [Expression.tokens, List.length_singleton] at htok hfuel ⊢
    obtain ⟨f, rfl⟩ : ∃ f, fuel = f + 1 := ⟨fuel - 1, by omega⟩
    exact parsePrimary_identifier tokens f c name (token_of_phrase htok).1
      (not_contains_keyword hfree)
  | combine a b iha ihb =>
    intro tokens c fuel hfree htok hfuel
    simp only [Expression.namesFree, Bool.and_eq_true] at hfree
    simp only [Expression.tokens] at htok hfuel ⊢
    obtain ⟨hp1, hp2⟩ := phrase_split htok
    obtain ⟨hpa, hp3⟩ := phrase_split hp2
    obtain ⟨hpm, hpb⟩ := phrase_split hp3
    simp only [List.length_append, show (keywordTokens "combine the power of").length = 4 by decide,
      show (keywordTokens "and").length = 1 by decide] at hp2 hpa hp3 hpm hpb hfuel ⊢
    obtain ⟨f, rfl⟩ : ∃ f, fuel = f + 1 := ⟨fuel - 1, by omega⟩
    have hA := iha tokens (c + 4) f hfree.1 hpa (by omega)
    have hB := ihb tokens (c + 4 + a.tokens.length + 1) f hfree.2 hpb (by omega)
    rw [parsePrimary_combine tokens f c a.node b.node _ _ hp1 hA hpm hB,
      show c + 4 + a.tokens.length + 1 + b.tokens.length =
        c + (4 + (a.tokens.length + (1 + b.tokens.length))) by omega]
    rfl
  | remove a b iha ihb =>
    intro tokens c fuel hfree htok hfuel
    simp only [Expression.namesFree, Bool.and_eq_true] at hfree
    simp only [Expression.tokens] at htok hfuel ⊢
    obtain ⟨hp1, hp2⟩ := phrase_split htok
    obtain ⟨hpa, hp3⟩ := phrase_split hp2
    obtain ⟨hpm, hpb⟩ := phrase_split hp3
    simp only [List.length_append, show (keywordTokens "remove the power of").length = 4 by decide,
      show (keywordTokens "from").length = 1 by decide] at hp2 hpa hp3 hpm hpb hfuel ⊢
    obtain ⟨f, rfl⟩ : ∃ f, fuel = f + 1 := ⟨fuel - 1, by omega⟩
    have hA := iha tokens (c + 4) f hfree.1 hpa (by omega)
    have hB := ihb tokens (c + 4 + a.tokens.length + 1) f hfree.2 hpb (by omega)
    have hfrom : tokens[c + 4 + a.tokens.length]? = some ⟨.IDENTIFIER, "from"⟩ :=
      (token_of_phrase (show (⟨.IDENTIFIER, "from"⟩ : Token) :: [] <+: _ from hpm)).1
    have hr := parsePrimary_remove tokens f c a.node b.node _ _ hp1 hA hfrom hB
    unfold parseExpression at hr
    rw [hr, show c + 4 + a.tokens.length + 1 + b.tokens.length =
        c + (4 + (a.tokens.length + (1 + b.tokens.length))) by omega]
    rfl
  | duplicate a b iha ihb =>
    intro tokens c fuel hfree htok hfuel
    simp only [Expression.namesFree, Bool.and_eq_true] at hfree
    simp only [Expression.tokens] at htok hfuel ⊢
    obtain ⟨hp1, hp2⟩ := phrase_split htok
    obtain ⟨hpa, hp3⟩ := phrase_split hp2
    obtain ⟨hpb, hpl⟩ := phrase_split hp3
    simp only [List.length_append, show (keywordTokens "duplicate the power of").length = 4 by decide,
      show (keywordTokens "times").length = 1 by decide] at hp2 hpa hp3 hpb hpl hfuel ⊢
    obtain ⟨f, rfl⟩ : ∃ f, fuel = f + 1 := ⟨fuel - 1, by omega⟩
    have hA := iha tokens (c + 4) f hfree.1 hpa (by omega)
    have hB := ihb tokens (c + 4 + a.tokens.length) f hfree.2 hpb (by omega)
    rw [parsePrimary_duplicate tokens f c a.node b.node _ _ hp1 hA hB hpl,
      show c + 4 + a.tokens.length + b.tokens.length + 1 =
        c + (4 + (a.tokens.length + (b.tokens.length + 1))) by omega]
    rfl
  | split a b iha ihb =>
    intro tokens c fuel hfree htok hfuel
    simp only [Expression.namesFree, Bool.and_eq_true] at hfree
    simp only [Expression.tokens] at htok hfuel ⊢
    obtain ⟨hp1, hp2⟩ := phrase_split htok
    obtain ⟨hpa, hp3⟩ := phrase_split hp2
    obtain ⟨hpb, hpl⟩ := phrase_split hp3
    simp only [List.length_append, show (keywordTokens "split the power of").length = 4 by decide,
      show (keywordTokens "times").length = 1 by decide] at hp2 hpa hp3 hpb hpl hfuel ⊢
    obtain ⟨f, rfl⟩ : ∃ f, fuel = f + 1 := ⟨fuel - 1, by omega⟩
    have hA := iha tokens (c + 4) f hfree.1 hpa (by omega)
    have hB := ihb tokens (c + 4 + a.tokens.length) f hfree.2 hpb (by omega)
    rw [parsePrimary_split tokens f c a.node b.node _ _ hp1 hA hB hpl,
      show c + 4 + a.tokens.length + b.tokens.length + 1 =
        c + (4 + (a.tokens.length + (b.tokens.length + 1))) by omega]
    rfl
  | find =>
    intro tokens c fuel _ htok hfuel
    simp only [Expression.tokens,
      show (keywordTokens "find the source of the messages").length = 6 by decide]
      at htok hfuel ⊢
    obtain ⟨f, rfl⟩ : ∃ f, fuel = f + 1 := ⟨fuel - 1, by omega⟩
    exact parsePrimary_find tokens f c htok
  | may a iha =>
    intro tokens c fuel hfree htok hfuel
    simp only [Expression.namesFree] at hfree
    simp only [Expression.tokens] at htok hfuel ⊢
    obtain ⟨hp1, hpa⟩ := phrase_split htok
    simp only [List.length_append, show (keywordTokens "may the sorcerers cast their spells on").length = 7 by decide]
      at hpa hfuel ⊢
    obtain ⟨f, rfl⟩ : ∃ f, fuel = f + 1 := ⟨fuel - 1, by omega⟩
    have hA := iha tokens (c + 7) f hfree hpa (by omega)
    rw [parsePrimary_may tokens f c a.node _ hp1 hA,
      show c + 7 + a.tokens.length = c + (7 + a.tokens.length) by omega]
    rfl
  | get a iha =>
    intro tokens c fuel hfree htok hfuel
    simp only [Expression.namesFree] at hfree
    simp only [Expression.tokens] at htok hfuel ⊢
    obtain ⟨hp1, hpa⟩ := phrase_split htok
    simp only [List.length_append, show (keywordTokens "get the character from the spell").length = 6 by decide]
      at hpa hfuel ⊢
    obtain ⟨f, rfl⟩ : ∃ f, fuel = f + 1 := ⟨fuel - 1, by omega⟩
    have hA := iha tokens (c + 6) f hfree hpa (by omega)
    rw [parsePrimary_get tokens f c a.node _ hp1 hA,
      show c + 6 + a.tokens.length = c + (6 + a.tokens.length) by omega]
    rfl
  | isEqual a b iha ihb =>
    intro tokens c fuel hfree htok hfuel
    simp only [Expression.namesFree, Bool.and_eq_true] at hfree
    simp only [Expression.tokens] at htok hfuel ⊢
    obtain ⟨hp1, hp2⟩ := phrase_split htok
    obtain ⟨hpa, hp3⟩ := phrase_split hp2
    obtain ⟨hpm, hpb⟩ := phrase_split hp3
    simp only [List.length_append, show (keywordTokens "is").length = 1 by decide,
      show (keywordTokens "equal to").length = 2 by decide] at hp2 hpa hp3 hpm hpb hfuel ⊢
    obtain ⟨f, rfl⟩ : ∃ f, fuel = f + 1 := ⟨fuel - 1, by omega⟩
    have h0 : tokens[c]? = some ⟨.IDENTIFIER, "is"⟩ :=
      (token_of_phrase (show (⟨.IDENTIFIER, "is"⟩ : Token) :: [] <+: _ from hp1)).1
    have hA := iha tokens (c + 1) f hfree.1 hpa (by omega)
    have hB := ihb tokens (c + 1 + a.tokens.length + 2) f hfree.2 hpb (by omega)
    rw [parsePrimary_isEqual tokens f c a.node b.node _ _ h0 hA hpm hB,
      show c + 1 + a.tokens.length + 2 + b.tokens.length =
        c + (1 + (a.tokens.length + (2 + b.tokens.length))) by omega]
    rfl
  | isNotEqual a b iha ihb =>
    intro tokens c fuel hfree htok hfuel
    simp only [Expression.namesFree, Bool.and_eq_true] at hfree
    simp only [Expression.tokens] at htok hfuel ⊢
    obtain ⟨hp1, hp2⟩ := phrase_split htok
    obtain ⟨hpa, hp3⟩ := phrase_split hp2
    obtain ⟨hpm, hpb⟩ := phrase_split hp3
    simp only [List.length_append, show (keywordTokens "is").length = 1 by decide,
      show (keywordTokens "not equal to").length = 3 by decide] at hp2 hpa hp3 hpm hpb hfuel ⊢
    obtain ⟨f, rfl⟩ : ∃ f, fuel = f + 1 := ⟨fuel - 1, by omega⟩
    have h0 : tokens[c]? = some ⟨.IDENTIFIER, "is"⟩ :=
      (token_of_phrase (show (⟨.IDENTIFIER, "is"⟩ : Token) :: [] <+: _ from hp1)).1
    have hA := iha tokens (c + 1) f hfree.1 hpa (by omega)
    have hB := ihb tokens (c + 1 + a.tokens.length + 3) f hfree.2 hpb (by omega)
    rw [parsePrimary_isNotEqual tokens f c a.node b.node _ _ h0 hA hpm hB,
      show c + 1 + a.tokens.length + 3 + b.tokens.length =
        c + (1 + (a.tokens.length + (3 + b.tokens.length))) by omega]
    rfl
  | isGreater a b iha ihb =>
    intro tokens c fuel hfree htok hfuel
    simp only [Expression.namesFree, Bool.and_eq_true] at hfree
    simp only [Expression.tokens] at htok hfuel ⊢
    obtain ⟨hp1, hp2⟩ := phrase_split htok
    obtain ⟨hpa, hp3⟩ := phrase_split hp2
    obtain ⟨hpm, hpb⟩ := phrase_split hp3
    simp only [List.length_append, show (keywordTokens "is").length = 1 by decide,
      show (keywordTokens "greater than").length = 2 by decide] at hp2 hpa hp3 hpm hpb hfuel ⊢
    obtain ⟨f, rfl⟩ : ∃ f, fuel = f + 1 := ⟨fuel - 1, by omega⟩
    have h0 : tokens[c]? = some ⟨.IDENTIFIER, "is"⟩ :=
      (token_of_phrase (show (⟨.IDENTIFIER, "is"⟩ : Token) :: [] <+: _ from hp1)).1
    have hA := iha tokens (c + 1) f hfree.1 hpa (by omega)
    have hB := ihb tokens (c + 1 + a.tokens.length + 2) f hfree.2 hpb (by omega)
    rw [parsePrimary_isGreater tokens f c a.node b.node _ _ h0 hA hpm hB,
      show c + 1 + a.tokens.length + 2 + b.tokens.length =
        c + (1 + (a.tokens.length + (2 + b.tokens.length))) by omega]
    rfl
  | isLess a b iha ihb =>
    intro tokens c fuel hfree htok hfuel
    simp only [Expression.namesFree, Bool.and_eq_true] at hfree
    simp only [Expression.tokens] at htok hfuel ⊢
    obtain ⟨hp1, hp2⟩ := phrase_split htok
    obtain ⟨hpa, hp3⟩ := phrase_split hp2
    obtain ⟨hpm, hpb⟩ := phrase_split hp3
    simp only [List.length_append, show (keywordTokens "is").length = 1 by decide,
      show (keywordTokens "less than").length = 2 by decide] at hp2 hpa hp3 hpm hpb hfuel ⊢
    obtain ⟨f, rfl⟩ : ∃ f, fuel = f + 1 := ⟨fuel - 1, by omega⟩
    have h0 : tokens[c]? = some ⟨.IDENTIFIER, "is"⟩ :=
      (token_of_phrase (show (⟨.IDENTIFIER, "is"⟩ : Token) :: [] <+: _ from hp1)).1
    have hA := iha tokens (c + 1) f hfree.1 hpa (by omega)
    have hB := ihb tokens (c + 1 + a.tokens.length + 2) f hfree.2 hpb (by omega)
    rw [parsePrimary_isLess tokens f c a.node b.node _ _ h0 hA hpm hB,
      show c + 1 + a.tokens.length + 2 + b.tokens.length =
        c + (1 + (a.tokens.length + (2 + b.tokens.length))) by omega]
    rfl

end SpellCast

namespace SpellCast
open Parser

/-! ## Parser: statements of the grammar -/

theorem Parser.matchToken_done {tokens : List Token} {c : Nat}
    (h : tokens[c]? = some ⟨.IDENTIFIER, "done"⟩) :
    matchToken tokens c .IDENTIFIER (some "done") = .ok (c + 1) := by
  simp only [matchToken, checkVal_of_token h, advance_of_token h, beq_self_eq_true,
    Bool.and_self, if_true]

theorem Parser.parseStatement_shout (tokens : List Token) (fuel current : Nat) (e : Node)
    (c2 : Nat)
    (hphrase : keywordTokens "shout the many cries of" <+: tokens.drop current)
    (hE : parsePrimary tokens fuel (current + 5) = .ok (e, c2)) :
    parseStatement tokens (fuel + 1) current = .ok (some (.PRINT e), c2) := by
  have hk : keywordTokens "shout the many cries of" =
      ⟨.IDENTIFIER, "shout"⟩ :: keywordTokens "the many cries of" := by decide
  have h0 := (token_of_phrase (hk ▸ hphrase)).1
  have hm := consumeKeywords_of_phrase tokens _ current hphrase
  rw [show (splitSpaces "shout the many cries of").length = 5 by decide] at hm
  rw [parseStatement]
  simp only [isAtEnd_of_token h0, checkVal_of_token h0, Bool.false_eq_true, if_false]
  simp +decide only [if_true, if_false]
  rw [parsePrintStatement, hm]
  simp only [Outcome.ok_bind, parseExpression, hE]
  rfl

/-- The call of `parseBlock` on `do` followed by what the loop reads. -/
theorem Parser.parseBlock_do (tokens : List Token) (fuel current : Nat)
    (block : List (Option Node)) (c2 : Nat)
    (hdo : keywordTokens "do" <+: tokens.drop current)
    (hB : parseBlockLoop tokens fuel (current + 1) [] = .ok (block, c2)) :
    parseBlock tokens (fuel + 1) current = .ok (block, c2) := by
  have hm := consumeKeywords_of_phrase tokens _ current hdo
  rw [show (splitSpaces "do").length = 1 by decide] at hm
  rw [parseBlock, hm]
  simp only [Outcome.ok_bind, hB]

theorem Parser.parseStatement_whilst (tokens : List Token) (fuel current : Nat)
    (condition : Node) (body : List (Option Node)) (c1 c2 : Nat)
    (hphrase : keywordTokens "whilst the spell" <+: tokens.drop current)
    (hC : parsePrimary tokens (fuel + 1) (current + 3) = .ok (condition, c1))
    (hdo : keywordTokens "is true do" <+: tokens.drop c1)
    (hB : parseBlockLoop tokens fuel (c1 + 3) [] = .ok (body, c2))
    (hdone : tokens[c2]? = some ⟨.IDENTIFIER, "done"⟩) :
    parseStatement tokens (fuel + 3) current = .ok (some (.WHILE condition body), c2 + 1) := by
  have hk : keywordTokens "whilst the spell" =
      ⟨.IDENTIFIER, "whilst"⟩ :: keywordTokens "the spell" := by decide
  have h0 := (token_of_phrase (hk ▸ hphrase)).1
  have hm := consumeKeywords_of_phrase tokens _ current hphrase
  rw [show (splitSpaces "whilst the spell").length = 3 by decide] at hm
  have hk2 : keywordTokens "is true do" = keywordTokens "is true" ++ keywordTokens "do" := by
    decide
  rw [hk2] at hdo
  obtain ⟨hd1, hd2⟩ := phrase_split hdo
  rw [show (keywordTokens "is true").length = 2 by decide] at hd2
  have hm2 := consumeKeywords_of_phrase tokens _ c1 hd1
  rw [show (splitSpaces "is true").length = 2 by decide] at hm2
  have hblock := parseBlock_do tokens fuel (c1 + 2) body c2 hd2 hB
  rw [parseStatement]
  simp only [isAtEnd_of_token h0, checkVal_of_token h0, Bool.false_eq_true, if_false]
  simp +decide only [if_true, if_false]
  rw [parseWhileStatement, hm]
  simp only [Outcome.ok_bind, parseExpression, hC, hm2, hblock, matchToken_done hdone]
  rfl

theorem Parser.parseStatement_cast (tokens : List Token) (fuel current : Nat)
    (condition : Node) (body : List (Option Node)) (c1 c2 : Nat)
    (hphrase : keywordTokens "cast only if the spell" <+: tokens.drop current)
    (hC : parsePrimary tokens (fuel + 1) (current + 5) = .ok (condition, c1))
    (hdo : keywordTokens "is true do" <+: tokens.drop c1)
    (hB : parseBlockLoop tokens fuel (c1 + 3) [] = .ok (body, c2))
    (hdone : tokens[c2]? = some ⟨.IDENTIFIER, "done"⟩) :
    parseStatement tokens (fuel + 3) current = .ok (some (.IF condition body none), c2 + 1) := by
  have hk : keywordTokens "cast only if the spell" =
      ⟨.IDENTIFIER, "cast"⟩ :: keywordTokens "only if the spell" := by decide
  have h0 := (token_of_phrase (hk ▸ hphrase)).1
  have hm := consumeKeywords_of_phrase tokens _ current hphrase
  rw [show (splitSpaces "cast only if the spell").length = 5 by decide] at hm
  have hk2 : keywordTokens "is true do" = keywordTokens "is true" ++ keywordTokens "do" := by
    decide
  rw [hk2] at hdo
  obtain ⟨hd1, hd2⟩ := phrase_split hdo
  rw [show (keywordTokens "is true").length = 2 by decide] at hd2
  have hm2 := consumeKeywords_of_phrase tokens _ c1 hd1
  rw [show (splitSpaces "is true").length = 2 by decide] at hm2
  have hblock := parseBlock_do tokens fuel (c1 + 2) body c2 hd2 hB
  have helse : checkVal tokens c2 "else" = false := by
    rw [checkVal_of_token hdone]
    decide
  rw [parseStatement]
  simp only [isAtEnd_of_token h0, checkVal_of_token h0, Bool.false_eq_true, if_false]
  simp +decide only [if_true, if_false]
  rw [parseIfStatement, hm]
  simp only [Outcome.ok_bind, parseExpression, hC, hm2, hblock, helse, Bool.false_eq_true,
    if_false, matchToken_done hdone]
  rfl

theorem Parser.parseStatement_castElse (tokens : List Token) (fuel current : Nat)
    (condition : Node) (body other : List (Option Node)) (c1 c2 c3 : Nat)
    (hphrase : keywordTokens "cast only if the spell" <+: tokens.drop current)
    (hC : parsePrimary tokens (fuel + 1) (current + 5) = .ok (condition, c1))
    (hdo : keywordTokens "is true do" <+: tokens.drop c1)
    (hB : parseBlockLoop tokens fuel (c1 + 3) [] = .ok (body, c2))
    (helse : keywordTokens "else do" <+: tokens.drop c2)
    (hO : parseBlockLoop tokens fuel (c2 + 2) [] = .ok (other, c3))
    (hdone : tokens[c3]? = some ⟨.IDENTIFIER, "done"⟩) :
    parseStatement tokens (fuel + 3) current =
      .ok (some (.IF condition body (some other)), c3 + 1) := by
  have hk : keywordTokens "cast only if the spell" =
      ⟨.IDENTIFIER, "cast"⟩ :: keywordTokens "only if the spell" := by decide
  have h0 := (token_of_phrase (hk ▸ hphrase)).1
  have hm := consumeKeywords_of_phrase tokens _ current hphrase
  rw [show (splitSpaces "cast only if the spell").length = 5 by decide] at hm
  have hk2 : keywordTokens "is true do" = keywordTokens "is true" ++ keywordTokens "do" := by
    decide
  rw [hk2] at hdo
  obtain ⟨hd1, hd2⟩ := phrase_split hdo
  rw [show (keywordTokens "is true").length = 2 by decide] at hd2
  have hm2 := consumeKeywords_of_phrase tokens _ c1 hd1
  rw [show (splitSpaces "is true").length = 2 by decide] at hm2
  have hblock := parseBlock_do tokens fuel (c1 + 2) body c2 hd2 hB
  have hk3 : keywordTokens "else do" = ⟨.IDENTIFIER, "else"⟩ :: keywordTokens "do" := by
    decide
  rw [hk3] at helse
  obtain ⟨he1, he2⟩ := token_of_phrase helse
  have hother := parseBlock_do tokens fuel (c2 + 1) other c3 he2 hO
  rw [parseStatement]
  simp only [isAtEnd_of_token h0, checkVal_of_token h0, Bool.false_eq_true, if_false]
  simp +decide only [if_true, if_false]
  rw [parseIfStatement, hm]
  simp only [Outcome.ok_bind, parseExpression, hC, hm2, hblock, checkVal_of_token he1,
    advance_of_token he1, beq_self_eq_true, Bool.and_self, if_true, hother,
    matchToken_done hdone]
  rfl

end SpellCast

namespace SpellCast
open Parser

/-- A statement of the grammar starts with one of the statement keywords. -/
theorem Statement.tokens_head (s : Statement) :
    ∃ kw rest, s.tokens = ⟨.IDENTIFIER, kw⟩ :: rest ∧ kw ∈ statementKeywords := by
  cases s with
  | shout value =>
    exact ⟨"shout", keywordTokens "the many cries of" ++ value.tokens,
      by rw [Statement.tokens]; rfl, by decide⟩
  | create name value =>
    exact ⟨"create", keywordTokens "a new spell named" ++
      (⟨.IDENTIFIER, name⟩ :: (keywordTokens "with the power of" ++ value.tokens)),
      by rw [Statement.tokens]; rfl, by decide⟩
  | set name value =>
    exact ⟨"set", keywordTokens "the power of" ++
      (⟨.IDENTIFIER, name⟩ :: (keywordTokens "to" ++ value.tokens)),
      by rw [Statement.tokens]; rfl, by decide⟩
  | cast condition block =>
    exact ⟨"cast", keywordTokens "only if the spell" ++ (condition.tokens ++
      (keywordTokens "is true do" ++ (blockTokens block ++ keywordTokens "done"))),
      by rw [Statement.tokens]; rfl, by decide⟩
  | castElse condition block other =>
    exact ⟨"cast", keywordTokens "only if the spell" ++ (condition.tokens ++
      (keywordTokens "is true do" ++ (blockTokens block ++
        (keywordTokens "else do" ++ (blockTokens other ++ keywordTokens "done"))))),
      by rw [Statement.tokens]; rfl, by decide⟩
  | whilst condition block =>
    exact ⟨"whilst", keywordTokens "the spell" ++ (condition.tokens ++
      (keywordTokens "is true do" ++ (blockTokens block ++ keywordTokens "done"))),
      by rw [Statement.tokens]; rfl, by decide⟩

/-- A statement of the grammar is not empty. -/
theorem Statement.tokens_pos (s : Statement) : 0 < s.tokens.length := by
  obtain ⟨kw, rest, h, _⟩ := s.tokens_head
  rw [h]
  exact Nat.succ_pos _

theorem tokens_le_blockTokens {s : Statement} :
    ∀ {ss : List Statement}, s ∈ ss → s.tokens.length ≤ (blockTokens ss).length := by
  intro ss
  induction ss with
  | nil => intro h; cases h
  | cons x rest ih =>
    intro h
    rw [blockTokens, List.length_append]
    rcases List.mem_cons.1 h with h1 | h1
    · subst h1
      omega
    · have := ih h1
      omega

theorem namesFree_of_block {s : Statement} :
    ∀ {ss : List Statement}, blockNamesFree ss = true → s ∈ ss → s.namesFree = true := by
  intro ss
  induction ss with
  | nil => intro _ h; cases h
  | cons x rest ih =>
    intro hf h
    rw [blockNamesFree, Bool.and_eq_true] at hf
    rcases List.mem_cons.1 h with h1 | h1
    · subst h1
      exact hf.1
    · exact ih hf.2 h1

/-- The loop of `parseBlock` over the statements of a block of the grammar, up to the
`done` or `else` that follows them. -/
theorem Parser.parseBlockLoop_block (tokens : List Token) (t : Token)
    (ht : t = ⟨.IDENTIFIER, "done"⟩ ∨ t = ⟨.IDENTIFIER, "else"⟩) :
    ∀ (ss : List Statement),
      (∀ s ∈ ss, ∀ c fuel, s.tokens <+: tokens.drop c → s.tokens.length ≤ fuel →
        parseStatement tokens fuel c = .ok (some s.node, c + s.tokens.length)) →
      ∀ c fuel acc, blockTokens ss ++ [t] <+: tokens.drop c →
        (blockTokens ss).length + 1 ≤ fuel →
        parseBlockLoop tokens fuel c acc =
          .ok (acc ++ blockNodes ss, c + (blockTokens ss).length) := by
  intro ss
  induction ss with
  | nil =>
    intro _ c fuel acc htok hfuel
    obtain ⟨f, rfl⟩ : ∃ f, fuel = f + 1 := ⟨fuel - 1, by omega⟩
    rw [blockTokens, List.nil_append] at htok
    have h0 := (token_of_phrase htok).1
    have hstop : (!isAtEnd tokens c && !checkVal tokens c "done" &&
        !checkVal tokens c "else") = false := by
      rw [checkVal_of_token h0, checkVal_of_token h0, isAtEnd_of_token h0]
      rcases ht with h | h <;> subst h <;> decide
    rw [parseBlockLoop, hstop]
    simp [blockTokens, blockNodes]
  | cons s rest ih =>
    intro hall c fuel acc htok hfuel
    rw [blockTokens, List.length_append] at hfuel
    rw [blockTokens, List.append_assoc] at htok
    obtain ⟨hps, hprest⟩ := phrase_split htok
    obtain ⟨kw, tail, hhead, hkw⟩ := s.tokens_head
    have hpos := s.tokens_pos
    obtain ⟨f, rfl⟩ : ∃ f, fuel = f + 1 := ⟨fuel - 1, by omega⟩
    have h0 : tokens[c]? = some ⟨.IDENTIFIER, kw⟩ := by
      rw [hhead] at hps
      exact (token_of_phrase hps).1
    have hgo : (!isAtEnd tokens c && !checkVal tokens c "done" &&
        !checkVal tokens c "else") = true := by
      rw [checkVal_of_token h0, checkVal_of_token h0, isAtEnd_of_token h0]
      simp only [statementKeywords, List.mem_cons, List.mem_singleton, List.not_mem_nil,
        or_false] at hkw
      rcases hkw with h | h | h | h | h <;> subst h <;> decide
    have hs := hall s (List.mem_cons_self _ _) c f hps (by omega)
    rw [parseBlockLoop, hgo]
    simp only [if_true, hs, Outcome.ok_bind]
    rw [ih (fun x hx => hall x (List.mem_cons_of_mem _ hx)) _ f _ hprest (by omega)]
    simp only [blockTokens, blockNodes, List.length_append, List.append_assoc,
      List.singleton_append, Nat.add_assoc]

/-- Every statement of the grammar whose spells are not named by a keyword is parsed,
from any cursor at which its tokens stand and with fuel for each token, to its node;
the cursor is left after it. -/
theorem Parser.parseStatement_statement (tokens : List Token) :
    ∀ (n : Nat) (s : Statement), s.tokens.length ≤ n → ∀ c fuel, s.namesFree = true →
      s.tokens <+: tokens.drop c → s.tokens.length ≤ fuel →
      parseStatement tokens fuel c = .ok (some s.node, c + s.tokens.length) := by
  intro n
  induction n with
  | zero =>
    intro s hn
    have := s.tokens_pos
    omega
  | succ n ih =>
    intro s hn c fuel hfree htok hfuel
    have hblock : ∀ (block : List Statement) (t : Token),
        (t = ⟨.IDENTIFIER, "done"⟩ ∨ t = ⟨.IDENTIFIER, "else"⟩) →
        (blockTokens block).length ≤ n → blockNamesFree block = true →
        ∀ c fuel, blockTokens block ++ [t] <+: tokens.drop c →
          (blockTokens block).length + 1 ≤ fuel →
          parseBlockLoop tokens fuel c [] =
            .ok (blockNodes block, c + (blockTokens block).length) := by
      intro block t ht hlen hbf c fuel hp hf
      have h := parseBlockLoop_block tokens t ht block
        (fun x hx c fuel hp hf =>
          ih x (Nat.le_trans (tokens_le_blockTokens hx) hlen) c fuel
            (namesFree_of_block hbf hx) hp hf)
        c fuel [] hp hf
      rw [List.nil_append] at h
      exact h
    cases s with
    | shout value =>
      rw [Statement.namesFree] at hfree
      rw [Statement.tokens] at htok hfuel ⊢
      obtain ⟨hp1, hp2⟩ := phrase_split htok
      simp only [List.length_append,
        show (keywordTokens "shout the many cries of").length = 5 by decide]
        at hp2 hfuel ⊢
      obtain ⟨f, rfl⟩ : ∃ f, fuel = f + 1 := ⟨fuel - 1, by omega⟩
      have hE := parsePrimary_expression value tokens (c + 5) f hfree hp2 (by omega)
      rw [parseStatement_shout tokens f c _ _ hp1 hE, Statement.node, Nat.add_assoc]
    | create name value =>
      rw [Statement.namesFree, Bool.and_eq_true] at hfree
      rw [Statement.tokens] at htok hfuel ⊢
      have hre : keywordTokens "create a new spell named" ++
          (⟨.IDENTIFIER, name⟩ :: (keywordTokens "with the power of" ++ value.tokens)) =
          (keywordTokens "create a new spell named" ++
            ⟨.IDENTIFIER, name⟩ :: keywordTokens "with the power of") ++ value.tokens := by
        simp only [List.append_assoc, List.cons_append]
      rw [hre] at htok
      obtain ⟨hp1, hp2⟩ := phrase_split htok
      simp only [List.length_append, List.length_cons,
        show (keywordTokens "create a new spell named").length = 5 by decide,
        show (keywordTokens "with the power of").length = 4 by decide] at hp2 hfuel ⊢
      obtain ⟨f, rfl⟩ : ∃ f, fuel = f + 2 := ⟨fuel - 2, by omega⟩
      have hE := parsePrimary_expression value tokens (c + 10) (f + 1) hfree.2
        (by simpa using hp2) (by omega)
      rw [parseStatement_create tokens f c name _ _ hp1 (not_contains_keyword hfree.1) hE,
        Statement.node]
      congr 2
      omega
    | set name value =>
      rw [Statement.namesFree, Bool.and_eq_true] at hfree
      rw [Statement.tokens] at htok hfuel ⊢
      have hre : keywordTokens "set the power of" ++
          (⟨.IDENTIFIER, name⟩ :: (keywordTokens "to" ++ value.tokens)) =
          (keywordTokens "set the power of" ++
            ⟨.IDENTIFIER, name⟩ :: keywordTokens "to") ++ value.tokens := by
        simp only [List.append_assoc, List.cons_append]
      rw [hre] at htok
      obtain ⟨hp1, hp2⟩ := phrase_split htok
      simp only [List.length_append, List.length_cons,
        show (keywordTokens "set the power of").length = 4 by decide,
        show (keywordTokens "to").length = 1 by decide] at hp2 hfuel ⊢
      obtain ⟨f, rfl⟩ : ∃ f, fuel = f + 2 := ⟨fuel - 2, by omega⟩
      have hE := parsePrimary_expression value tokens (c + 6) (f + 1) hfree.2
        (by simpa using hp2) (by omega)
      rw [parseStatement_set tokens f c name _ _ hp1 (not_contains_keyword hfree.1) hE,
        Statement.node]
      congr 2
      omega
    | cast condition block =>
      rw [Statement.namesFree, Bool.and_eq_true] at hfree
      rw [Statement.tokens] at htok hfuel hn ⊢
      obtain ⟨hp1, hp2⟩ := phrase_split htok
      obtain ⟨hpc, hp3⟩ := phrase_split hp2
      obtain ⟨hpdo, hp4⟩ := phrase_split hp3
      simp only [List.length_append,
        show (keywordTokens "cast only if the spell").length = 5 by decide,
        show (keywordTokens "is true do").length = 3 by decide,
        show (keywordTokens "done").length = 1 by decide] at hp2 hpc hp3 hpdo hp4 hfuel hn ⊢
      obtain ⟨f, rfl⟩ : ∃ f, fuel = f + 3 := ⟨fuel - 3, by omega⟩
      have hC := parsePrimary_expression condition tokens (c + 5) (f + 1) hfree.1 hpc
        (by omega)
      have hB := hblock block ⟨.IDENTIFIER, "done"⟩ (Or.inl rfl) (by omega) hfree.2
        (c + 5 + condition.tokens.length + 3) f hp4 (by omega)
      have hdone : tokens[c + 5 + condition.tokens.length + 3 + (blockTokens block).length]? =
          some ⟨.IDENTIFIER, "done"⟩ :=
        (token_of_phrase (show (⟨.IDENTIFIER, "done"⟩ : Token) :: [] <+: _ from
          (phrase_split hp4).2)).1
      rw [parseStatement_cast tokens f c _ _ _ _ hp1 hC hpdo hB hdone, Statement.node]
      congr 2
      omega
    | castElse condition block other =>
      rw [Statement.namesFree, Bool.and_eq_true, Bool.and_eq_true] at hfree
      rw [Statement.tokens] at htok hfuel hn ⊢
      obtain ⟨hp1, hp2⟩ := phrase_split htok
      obtain ⟨hpc, hp3⟩ := phrase_split hp2
      obtain ⟨hpdo, hp4⟩ := phrase_split hp3
      simp only [List.length_append,
        show (keywordTokens "cast only if the spell").length = 5 by decide,
        show (keywordTokens "is true do").length = 3 by decide,
        show (keywordTokens "else do").length = 2 by decide,
        show (keywordTokens "done").length = 1 by decide] at hp2 hpc hp3 hpdo hp4 hfuel hn ⊢
      obtain ⟨f, rfl⟩ : ∃ f, fuel = f + 3 := ⟨fuel - 3, by omega⟩
      have hC := parsePrimary_expression condition tokens (c + 5) (f + 1) hfree.1.1 hpc
        (by omega)
      have hk : keywordTokens "else do" = [⟨.IDENTIFIER, "else"⟩] ++ keywordTokens "do" := by
        decide
      have hp4b : blockTokens block ++ [⟨.IDENTIFIER, "else"⟩] <+:
          tokens.drop (c + 5 + condition.tokens.length + 3) := by
        obtain ⟨r, hr⟩ := hp4
        refine ⟨keywordTokens "do" ++ (blockTokens other ++ keywordTokens "done") ++ r, ?_⟩
        rw [← hr, hk]
        simp only [List.append_assoc]
      have hB := hblock block ⟨.IDENTIFIER, "else"⟩ (Or.inr rfl) (by omega) hfree.1.2
        (c + 5 + condition.tokens.length + 3) f hp4b (by omega)
      obtain ⟨_, hp5⟩ := phrase_split hp4
      obtain ⟨hpelse, hp6⟩ := phrase_split hp5
      simp only [show (keywordTokens "else do").length = 2 by decide] at hp6
      have hO := hblock other ⟨.IDENTIFIER, "done"⟩ (Or.inl rfl) (by omega) hfree.2
        (c + 5 + condition.tokens.length + 3 + (blockTokens block).length + 2) f hp6
        (by omega)
      have hdone : tokens[c + 5 + condition.tokens.length + 3 + (blockTokens block).length + 2 +
          (blockTokens other).length]? = some ⟨.IDENTIFIER, "done"⟩ :=
        (token_of_phrase (show (⟨.IDENTIFIER, "done"⟩ : Token) :: [] <+: _ from
          (phrase_split hp6).2)).1
      rw [parseStatement_castElse tokens f c _ _ _ _ _ _ hp1 hC hpdo hB hpelse hO hdone,
        Statement.node]
      congr 2
      omega
    | whilst condition block =>
      rw [Statement.namesFree, Bool.and_eq_true] at hfree
      rw [Statement.tokens] at htok hfuel hn ⊢
      obtain ⟨hp1, hp2⟩ := phrase_split htok
      obtain ⟨hpc, hp3⟩ := phrase_split hp2
      obtain ⟨hpdo, hp4⟩ := phrase_split hp3
      simp only [List.length_append,
        show (keywordTokens "whilst the spell").length = 3 by decide,
        show (keywordTokens "is true do").length = 3 by decide,
        show (keywordTokens "done").length = 1 by decide] at hp2 hpc hp3 hpdo hp4 hfuel hn ⊢
      obtain ⟨f, rfl⟩ : ∃ f, fuel = f + 3 := ⟨fuel - 3, by omega⟩
      have hC := parsePrimary_expression condition tokens (c + 3) (f + 1) hfree.1 hpc
        (by omega)
      have hB := hblock block ⟨.IDENTIFIER, "done"⟩ (Or.inl rfl) (by omega) hfree.2
        (c + 3 + condition.tokens.length + 3) f hp4 (by omega)
      have hdone : tokens[c + 3 + condition.tokens.length + 3 + (blockTokens block).length]? =
          some ⟨.IDENTIFIER, "done"⟩ :=
        (token_of_phrase (show (⟨.IDENTIFIER, "done"⟩ : Token) :: [] <+: _ from
          (phrase_split hp4).2)).1
      rw [parseStatement_whilst tokens f c _ _ _ _ hp1 hC hpdo hB hdone, Statement.node]
      congr 2
      omega

end SpellCast

namespace SpellCast
open Parser

/-- The loop of `parse` over the statements of a program of the grammar, up to a token
that starts no statement. -/
theorem Parser.parseLoop_program (tokens : List Token) (t : Token)
    (hstray : t.kind ≠ .IDENTIFIER ∨ t.text ∉ statementKeywords) :
    ∀ (program : List Statement) (c fuel : Nat) (acc : List Node),
      blockNamesFree program = true → blockTokens program ++ [t] <+: tokens.drop c →
      (blockTokens program).length + 2 ≤ fuel →
      parseLoop tokens fuel c acc = .ok (acc ++ program.map Statement.node) := by
  intro program
  induction program with
  | nil =>
    intro c fuel acc _ htok hfuel
    obtain ⟨f, rfl⟩ : ∃ f, fuel = f + 1 + 1 := ⟨fuel - 2, by omega⟩
    rw [blockTokens, List.nil_append] at htok
    have h0 := (token_of_phrase htok).1
    rw [parseLoop, parseStatement_stray tokens f c t h0 hstray]
    simp [isAtEnd_of_token h0]
  | cons s rest ih =>
    intro c fuel acc hfree htok hfuel
    rw [blockNamesFree, Bool.and_eq_true] at hfree
    rw [blockTokens, List.length_append] at hfuel
    rw [blockTokens, List.append_assoc] at htok
    obtain ⟨hps, hprest⟩ := phrase_split htok
    obtain ⟨kw, tail, hhead, _⟩ := s.tokens_head
    have hpos := s.tokens_pos
    obtain ⟨f, rfl⟩ : ∃ f, fuel = f + 1 := ⟨fuel - 1, by omega⟩
    have h0 : tokens[c]? = some ⟨.IDENTIFIER, kw⟩ := by
      rw [hhead] at hps
      exact (token_of_phrase hps).1
    have hs := parseStatement_statement tokens _ s (Nat.le_refl _) c f hfree.1 hps (by omega)
    rw [parseLoop, hs]
    simp only [isAtEnd_of_token h0, Bool.not_false, if_true]
    rw [ih _ f _ hfree.2 hprest (by omega)]
    simp only [List.map_cons, List.append_assoc, List.singleton_append]

/-- The node of a statement is of the kind its leading keyword selects. -/
theorem Statement.type_node (s : Statement) : s.node.type = statementType s.keyword := by
  cases s <;> rw [Statement.node, Statement.keyword, Statement.tokens] <;> rfl

set_option maxRecDepth 8000 in
/-- The tokens of the text of three statements. -/
theorem threeStatements_tokenize :
    tokenize threeStatementsSource = .ok (blockTokens threeStatements ++ [eofToken]) := by
  decide

/-- C21, as stated, fails for a program in which a spell is named by a keyword of the
expressions: the text of the two statements `shout the many cries of 1` and
`create a new spell named get with the power of 5` is tokenized, the first statement is
parsed, and on the second `parse` throws (`Expected keyword 'the' but found
IDENTIFIER:'with' at position 12`) instead of returning two nodes. -/
theorem keyword_named_program_counterexample :
    tokenize keywordNameSource = .ok keywordNameTokens ∧
    parseStatement keywordNameTokens 20 0 =
      .ok (some (.PRINT (.INTEGER (.finite 1))), 6) ∧
    parse 20 keywordNameTokens =
      .throw (.expectedKeyword "the" ⟨.IDENTIFIER, "with"⟩ 12) := by
  refine ⟨by decide, ?_, ?_⟩
  · rfl
  · rfl

/-- C21, amended: take a program of the statement grammar (statements PRINT, CREATE,
SET, IF with or without else-block, WHILE, over the expression grammar, blocks closed
by `done`) in which no spell, named or looked up, is called `combine`, `remove`,
`duplicate`, `split`, `find`, `may`, `get` or `is`.  For every text that `tokenize`
turns into the tokens of the program followed by EOF, `parse` on these tokens, with
fuel above their number, returns the nodes of the statements: as many nodes as the
program has statements, in the order of the text, each of the kind its leading keyword
selects. -/
theorem valid_program_round_trip (source : String) (program : List Statement) (fuel : Nat)
    (hnames : blockNamesFree program = true)
    (hsource : tokenize source = .ok (blockTokens program ++ [eofToken]))
    (hfuel : (blockTokens program ++ [eofToken]).length < fuel) :
    ∃ tokens nodes, tokenize source = .ok tokens ∧ parse fuel tokens = .ok nodes ∧
      nodes = program.map Statement.node ∧
      nodes.length = program.length ∧
      nodes.map Node.type = program.map (fun s => statementType s.keyword) := by
  refine ⟨_, _, hsource, ?_, rfl, List.length_map _ _, ?_⟩
  · have h := parseLoop_program (blockTokens program ++ [eofToken]) eofToken
      (Or.inl (by decide)) program 0 fuel [] hnames (by exact List.prefix_refl _)
      (by simp only [List.length_append, List.length_singleton] at hfuel; omega)
    rw [List.nil_append] at h
    exact h
  · rw [List.map_map]
    exact List.map_congr_left (fun s _ => s.type_node)

theorem valid_program_round_trip_witness :
    blockNamesFree threeStatements = true ∧
    tokenize threeStatementsSource = .ok (blockTokens threeStatements ++ [eofToken]) ∧
    ∃ tokens nodes, tokenize threeStatementsSource = .ok tokens ∧
      parse 40 tokens = .ok nodes ∧
      nodes = threeStatements.map Statement.node ∧
      nodes.length = threeStatements.length ∧
      nodes.map Node.type = threeStatements.map (fun s => statementType s.keyword) :=
  ⟨by decide, threeStatements_tokenize,
   valid_program_round_trip threeStatementsSource threeStatements 40 (by decide)
     threeStatements_tokenize (by decide)⟩

end SpellCast

namespace SpellCast
open Parser

/-- C22: when the token array holds `k` complete statements from the start, each read
by `parseStatement` where the one before ended, and the token after the last of them
is not one of the identifiers `shout`, `create`, `cast`, `set`, `whilst`, then `parse`
returns exactly these `k` statements and does not throw, whatever the tokens after
that one are.  So the tokens of `shout the many cries of 1 2 3` parse to the single
statement PRINT(1), and the tokens of a text that starts with a literal parse to the
empty program. -/
theorem parse_stops_at_stray_token (tokens : List Token) (fuel : Nat)
    (statements : List Node) (stop : Nat) (t : Token)
    (hcomplete : completeStatements tokens fuel statements 0 stop)
    (ht : tokens[stop]? = some t)
    (hstray : t.kind ≠ .IDENTIFIER ∨ t.text ∉ statementKeywords) (more : Nat) :
    parse (fuel + statements.length + 2 + more) tokens = .ok statements ∧
    tokenize "shout the many cries of 1 2 3" =
      .ok (keywordTokens "shout the many cries of" ++
        [⟨.INTEGER, "1"⟩, ⟨.INTEGER, "2"⟩, ⟨.INTEGER, "3"⟩, eofToken]) ∧
    parse 3 (keywordTokens "shout the many cries of" ++
        [⟨.INTEGER, "1"⟩, ⟨.INTEGER, "2"⟩, ⟨.INTEGER, "3"⟩, eofToken]) =
      .ok [.PRINT (.INTEGER (.finite 1))] ∧
    tokenize "5 shout the many cries of 1" =
      .ok (⟨.INTEGER, "5"⟩ :: keywordTokens "shout the many cries of" ++
        [⟨.INTEGER, "1"⟩, eofToken]) ∧
    parse 2 (⟨.INTEGER, "5"⟩ :: keywordTokens "shout the many cries of" ++
        [⟨.INTEGER, "1"⟩, eofToken]) = .ok [] := by
  refine ⟨?_, by decide, by rfl, by decide, by rfl⟩
  have h := parseLoop_complete tokens fuel stop t ht hstray statements 0 [] more hcomplete
  rw [List.nil_append] at h
  exact h

theorem parse_stops_at_stray_token_witness :
    completeStatements (keywordTokens "shout the many cries of" ++
        [⟨.INTEGER, "1"⟩, ⟨.INTEGER, "2"⟩, ⟨.INTEGER, "3"⟩, eofToken]) 2
      [.PRINT (.INTEGER (.finite 1))] 0 6 ∧
    (keywordTokens "shout the many cries of" ++
        [⟨.INTEGER, "1"⟩, ⟨.INTEGER, "2"⟩, ⟨.INTEGER, "3"⟩, eofToken])[6]? =
      some ⟨.INTEGER, "2"⟩ ∧
    parse (2 + [Node.PRINT (.INTEGER (.finite 1))].length + 2 + 0)
        (keywordTokens "shout the many cries of" ++
          [⟨.INTEGER, "1"⟩, ⟨.INTEGER, "2"⟩, ⟨.INTEGER, "3"⟩, eofToken]) =
      .ok [.PRINT (.INTEGER (.finite 1))] :=
  ⟨⟨6, by rfl, rfl⟩, by rfl,
   (parse_stops_at_stray_token _ 2 [.PRINT (.INTEGER (.finite 1))] 6 ⟨.INTEGER, "2"⟩
      ⟨6, by rfl, rfl⟩ (by rfl) (Or.inl (by decide)) 0).1⟩

end SpellCast

namespace SpellCast
open Parser

/-! ## Equality -/

/-- The strict equality of two values holds exactly when they are the same value and
that value is not the number `NaN`. -/
theorem strictEquals_iff (a b : Value) :
    a.strictEquals b = true ↔ a = b ∧ a ≠ .number .nan := by
  cases a <;> cases b <;> simp [Value.strictEquals]
  rename_i x y
  constructor
  · rintro ⟨h1, h2⟩
    exact ⟨h2, h1⟩
  · rintro ⟨h1, h2⟩
    exact ⟨h2, h1⟩

/-- The literal `1.0` is read as the number one. -/
theorem parseFloat_one : parseFloat "1.0" = .finite 1 := by
  have h1 : "1.0".data.dropWhile isSpace = ['1', '.', '0'] := by decide
  simp only [parseFloat, h1]
  simp +decide [exponentPart, digitsValue]

/-- C23, as stated, fails for an integer and a float literal of the same value: the
tokens of `is 1 equal to 1.0` parse to EQUAL of the INTEGER literal 1 and the FLOAT
literal 1.0, both literals hold the same number, and the node evaluates to `true`
(and the NOTEQUAL node of the same operands to `false`). -/
theorem integer_equals_float_counterexample :
    tokenize "is 1 equal to 1.0" =
      .ok [⟨.IDENTIFIER, "is"⟩, ⟨.INTEGER, "1"⟩, ⟨.IDENTIFIER, "equal"⟩, ⟨.IDENTIFIER, "to"⟩,
        ⟨.FLOAT, "1.0"⟩, eofToken] ∧
    parseExpression [⟨.IDENTIFIER, "is"⟩, ⟨.INTEGER, "1"⟩, ⟨.IDENTIFIER, "equal"⟩,
        ⟨.IDENTIFIER, "to"⟩, ⟨.FLOAT, "1.0"⟩, eofToken] 2 0 =
      .ok (.EQUAL (.INTEGER (parseInt "1")) (.FLOAT (parseFloat "1.0")), 5) ∧
    evaluate exampleHost 2 (.EQUAL (.INTEGER (parseInt "1")) (.FLOAT (parseFloat "1.0")))
        (.root []) World.initial =
      .ok (.boolean true, .root [], World.initial) ∧
    evaluate exampleHost 2 (.NOTEQUAL (.INTEGER (parseInt "1")) (.FLOAT (parseFloat "1.0")))
        (.root []) World.initial =
      .ok (.boolean false, .root [], World.initial) := by
  have hi : parseInt "1" = .finite 1 := by rfl
  refine ⟨by decide, by rfl, ?_, ?_⟩
  · simp [evaluate, evalBinary, Value.strictEquals, hi, parseFloat_one]
  · simp [evaluate, evalBinary, Value.strictEquals, hi, parseFloat_one]

/-- C23, amended: when `a` evaluates to `va` and then `b` evaluates to `vb`, EQUAL(a, b)
evaluates to the boolean `va === vb` and NOTEQUAL(a, b) to its negation, in the state
`b` left.  `va === vb` holds exactly when the two values are the same value (hence of
the same type: string, number, boolean) and are not the number `NaN`.  The values of
INTEGER and FLOAT literals are both numbers: the string `1` is not equal to the
number 1, the number 1 of an INTEGER literal is equal to the number 1 of a FLOAT
literal, and `NaN` is not equal to itself. -/
theorem equal_is_strict_equality (host : Host) (fuel : Nat) (a b : Node)
    (env env1 env2 : Environment) (world world1 world2 : World) (va vb : Value)
    (ha : evaluate host fuel a env world = .ok (va, env1, world1))
    (hb : evaluate host fuel b env1 world1 = .ok (vb, env2, world2)) :
    evaluate host (fuel + 1) (.EQUAL a b) env world =
      .ok (.boolean (va.strictEquals vb), env2, world2) ∧
    evaluate host (fuel + 1) (.NOTEQUAL a b) env world =
      .ok (.boolean (!va.strictEquals vb), env2, world2) ∧
    (va.strictEquals vb = true ↔ va = vb ∧ va ≠ .number .nan) ∧
    (va.strictEquals vb = true → va.typeof = vb.typeof) ∧
    (Value.string "1").strictEquals (.number (.finite 1)) = false ∧
    (Value.number (parseInt "1")).strictEquals (.number (parseFloat "1.0")) = true ∧
    (Value.number .nan).strictEquals (.number .nan) = false := by
  have hi : parseInt "1" = .finite 1 := by rfl
  refine ⟨?_, ?_, strictEquals_iff va vb, ?_, by decide, ?_, by decide⟩
  · rw [evaluate, evalBinary, ha]
    simp only [hb]
  · rw [evaluate, evalBinary, ha]
    simp only [hb]
  · intro h
    rw [((strictEquals_iff va vb).1 h).1]
  · simp [Value.strictEquals, hi, parseFloat_one]

theorem equal_is_strict_equality_witness :
    evaluate exampleHost 1 (.STRING "1") (.root []) World.initial =
      .ok (.string "1", .root [], World.initial) ∧
    evaluate exampleHost 1 (.INTEGER (.finite 1)) (.root []) World.initial =
      .ok (.number (.finite 1), .root [], World.initial) ∧
    evaluate exampleHost (1 + 1) (.EQUAL (.STRING "1") (.INTEGER (.finite 1))) (.root [])
        World.initial =
      .ok (.boolean ((Value.string "1").strictEquals (.number (.finite 1))), .root [],
        World.initial) :=
  ⟨rfl, rfl,
   (equal_is_strict_equality exampleHost 1 (.STRING "1") (.INTEGER (.finite 1)) (.root [])
      (.root []) (.root []) World.initial World.initial World.initial (.string "1")
      (.number (.finite 1)) rfl rfl).1⟩

end SpellCast

namespace SpellCast
open Parser

/-! ## The conditional -/

/-- The values that count as false in a condition. -/
theorem truthy_eq_false_iff (c : Value) :
    c.truthy = false ↔
      c = .string "" ∨ c = .number (.finite 0) ∨ c = .number .nan ∨ c = .boolean false ∨
        c = .null := by
  cases c with
  | string s => simp [Value.truthy]
  | number n =>
    simp only [Value.truthy, Bool.and_eq_false_iff, decide_eq_false_iff_not, not_not]
    constructor
    · rintro (h | h)
      · exact Or.inr (Or.inl (by rw [h]))
      · exact Or.inr (Or.inr (Or.inl (by rw [h])))
    · rintro (h | h | h | h | h)
      · exact Value.noConfusion h
      · exact Or.inl (Value.number.inj h)
      · exact Or.inr (Value.number.inj h)
      · exact Value.noConfusion h
      · exact Value.noConfusion h
  | boolean b => simp [Value.truthy]
  | null => simp [Value.truthy]

set_option maxRecDepth 8000 in
/-- The tokens of the conditional with both blocks. -/
theorem ifElse_tokenize : tokenize ifElseSource = .ok ifElseTokens := by
  decide

/-- C24, as stated, fails for a condition whose value is `NaN`: the value of
`remove the power of 1 from "a"` is the number `NaN`, which is neither the empty
string, nor zero, nor `false`, and the conditional runs its else-block: `no` is
written, not `yes`. -/
theorem nan_condition_counterexample :
    evaluate exampleHost 2 (.SUBTRACT (.STRING "a") (.INTEGER (.finite 1))) (.root [])
        World.initial =
      .ok (.number .nan, .root [], World.initial) ∧
    (Value.number .nan).truthy = false ∧
    evaluate exampleHost 4 (yesNo (.SUBTRACT (.STRING "a") (.INTEGER (.finite 1)))) (.root [])
        World.initial =
      .ok (.null, .root [], { stdout := [.string "no"], outputCalls := [], inputCalls := [] }) := by
  decide

/-- C24, amended: an IF node evaluates its condition first; when the condition throws
no block is executed; when it returns the value `c`, the node executes, in the state
the condition left, the then-block if `c` is truthy, the else-block if `c` is falsy and
there is one, and nothing if `c` is falsy and there is none; the node returns `null`,
or throws what the block throws.  The falsy values are the empty string, the numbers
zero and `NaN`, `false` and `null`; every other value is truthy.  End to end, the
conditional of the example is tokenized and parsed to one IF node with both blocks, its
condition evaluates to `true`, and for every host a run of it does exactly what a run
of the single statement `shout the many cries of "yes"` does: the then-block is
executed and the else-block is not. -/
theorem if_runs_one_branch (host : Host) (fuel : Nat) (condition : Node)
    (code : List (Option Node)) (else_ : Option (List (Option Node)))
    (env : Environment) (world : World) :
    (∀ x env1 world1, evaluate host fuel condition env world = .throw (x, env1, world1) →
      evaluate host (fuel + 1) (.IF condition code else_) env world =
        .throw (x, env1, world1)) ∧
    (∀ c env1 world1, evaluate host fuel condition env world = .ok (c, env1, world1) →
      (c.truthy = true →
        (∀ v e w, executeBlock (evaluate host fuel) code env1 world1 = .ok (v, e, w) →
          evaluate host (fuel + 1) (.IF condition code else_) env world = .ok (.null, e, w)) ∧
        (∀ x e w, executeBlock (evaluate host fuel) code env1 world1 = .throw (x, e, w) →
          evaluate host (fuel + 1) (.IF condition code else_) env world =
            .throw (x, e, w))) ∧
      (c.truthy = false → ∀ block, else_ = some block →
        (∀ v e w, executeBlock (evaluate host fuel) block env1 world1 = .ok (v, e, w) →
          evaluate host (fuel + 1) (.IF condition code else_) env world = .ok (.null, e, w)) ∧
        (∀ x e w, executeBlock (evaluate host fuel) block env1 world1 = .throw (x, e, w) →
          evaluate host (fuel + 1) (.IF condition code else_) env world =
            .throw (x, e, w))) ∧
      (c.truthy = false → else_ = none →
        evaluate host (fuel + 1) (.IF condition code else_) env world =
          .ok (.null, env1, world1)) ∧
      (c.truthy = false ↔
        c = .string "" ∨ c = .number (.finite 0) ∨ c = .number .nan ∨ c = .boolean false ∨
          c = .null)) ∧
    tokenize ifElseSource = .ok ifElseTokens ∧
    parse 8 ifElseTokens = .ok [yesNo (.EQUAL (.INTEGER (.finite 1)) (.INTEGER (.finite 1)))] ∧
    evaluate host 2 (.EQUAL (.INTEGER (.finite 1)) (.INTEGER (.finite 1))) env world =
      .ok (.boolean true, env, world) ∧
    run host 4 [yesNo (.EQUAL (.INTEGER (.finite 1)) (.INTEGER (.finite 1)))] world =
      run host 2 [.PRINT (.STRING "yes")] world := by
  refine ⟨?_, ?_, ifElse_tokenize, by rfl, ?_, ?_⟩
  rotate_left 2
  · simp [evaluate, evalBinary, Value.strictEquals]
  · cases hw : host.stdoutWrite (.string "yes") <;>
      simp [run, runStatements, evaluate, evalBinary, executeBlock, executeStatements,
        leaveBlock, Environment.createChild, Environment.parent, Value.strictEquals,
        Value.truthy, yesNo, hw]
  · intro x env1 world1 h
    rw [evaluate, h]
  · intro c env1 world1 h
    refine ⟨?_, ?_, ?_, truthy_eq_false_iff c⟩
    · intro ht
      constructor
      · intro v e w hb
        rw [evaluate, h]
        simp only [ht, hb, if_true]
      · intro x e w hb
        rw [evaluate, h]
        simp only [ht, hb, if_true]
    · intro ht block hblock
      subst hblock
      constructor
      · intro v e w hb
        rw [evaluate, h]
        simp [ht, hb]
      · intro x e w hb
        rw [evaluate, h]
        simp [ht, hb]
    · intro ht hnone
      subst hnone
      rw [evaluate, h]
      simp [ht]

theorem if_runs_one_branch_witness :
    evaluate exampleHost 1 (.STRING "") (.root []) World.initial =
      .ok (.string "", .root [], World.initial) ∧
    (Value.string "").truthy = false ∧
    evaluate exampleHost (1 + 1) (.IF (.STRING "") [some (.PRINT (.STRING "yes"))] none)
        (.root []) World.initial =
      .ok (.null, .root [], World.initial) :=
  ⟨rfl, by decide,
   ((if_runs_one_branch exampleHost 1 (.STRING "") [some (.PRINT (.STRING "yes"))] none
      (.root []) World.initial).2.1 (.string "") (.root []) World.initial rfl).2.2.1
      (by decide) rfl⟩

end SpellCast

namespace SpellCast

/-! ## Order of evaluation of the operands -/

/-- The test `rightDiv === 0` of the DIVIDE case holds for the number zero only. -/
theorem strictEquals_zero (v : Value) :
    v.strictEquals (.number (.finite 0)) = true ↔ v = .number (.finite 0) := by
  cases v with
  | number n => cases n <;> simp [Value.strictEquals]
  | _ => simp [Value.strictEquals]

/-- C25: a DIVIDE node evaluates its right operand first, in the state it is given.
When the right operand throws, or evaluates to the number zero, the left operand is not
evaluated: the node throws the error of the right operand, or the division-by-zero
error, in the state the right operand left; otherwise the left operand is evaluated in
that state.  ADD, SUBTRACT and MULTIPLY evaluate the left operand first: when it throws
the right operand is not evaluated, otherwise the right operand is evaluated in the
state the left one left.  So with a right operand 0 an undefined identifier or an INPUT
on the left has no effect, while on the left of a SUBTRACT the undefined identifier
fails before the INPUT on the right is asked. -/
theorem divide_evaluates_right_operand_first (host : Host) (fuel : Nat) (left right : Node)
    (env : Environment) (world : World) :
    (∀ e env1 world1, evaluate host fuel right env world = .throw (e, env1, world1) →
      evaluate host (fuel + 1) (.DIVIDE left right) env world = .throw (e, env1, world1)) ∧
    (∀ env1 world1,
      evaluate host fuel right env world = .ok (.number (.finite 0), env1, world1) →
      evaluate host (fuel + 1) (.DIVIDE left right) env world =
        .throw (.divisionByZero, env1, world1)) ∧
    (∀ r env1 world1, evaluate host fuel right env world = .ok (r, env1, world1) →
      r ≠ .number (.finite 0) →
      (∀ e env2 world2, evaluate host fuel left env1 world1 = .throw (e, env2, world2) →
        evaluate host (fuel + 1) (.DIVIDE left right) env world = .throw (e, env2, world2)) ∧
      (∀ l env2 world2, evaluate host fuel left env1 world1 = .ok (l, env2, world2) →
        evaluate host (fuel + 1) (.DIVIDE left right) env world =
          .ok (.number ((host.toNumber l).div (host.toNumber r)), env2, world2))) ∧
    (∀ e env1 world1, evaluate host fuel left env world = .throw (e, env1, world1) →
      evaluate host (fuel + 1) (.ADD left right) env world = .throw (e, env1, world1) ∧
      evaluate host (fuel + 1) (.SUBTRACT left right) env world = .throw (e, env1, world1) ∧
      evaluate host (fuel + 1) (.MULTIPLY left right) env world = .throw (e, env1, world1)) ∧
    (∀ l env1 world1, evaluate host fuel left env world = .ok (l, env1, world1) →
      (∀ e env2 world2, evaluate host fuel right env1 world1 = .throw (e, env2, world2) →
        evaluate host (fuel + 1) (.ADD left right) env world = .throw (e, env2, world2) ∧
        evaluate host (fuel + 1) (.SUBTRACT left right) env world = .throw (e, env2, world2) ∧
        evaluate host (fuel + 1) (.MULTIPLY left right) env world =
          .throw (e, env2, world2)) ∧
      (∀ r env2 world2, evaluate host fuel right env1 world1 = .ok (r, env2, world2) →
        evaluate host (fuel + 1) (.ADD left right) env world =
          .ok (host.jsAdd l r, env2, world2) ∧
        evaluate host (fuel + 1) (.SUBTRACT left right) env world =
          .ok (.number ((host.toNumber l).sub (host.toNumber r)), env2, world2) ∧
        evaluate host (fuel + 1) (.MULTIPLY left right) env world =
          .ok (.number ((host.toNumber l).mul (host.toNumber r)), env2, world2))) ∧
    evaluate host 2 (.DIVIDE (.IDENTIFIER "y") (.INTEGER (.finite 0))) (.root []) world =
      .throw (.divisionByZero, .root [], world) ∧
    evaluate host 2 (.DIVIDE .INPUT (.INTEGER (.finite 0))) env world =
      .throw (.divisionByZero, env, world) ∧
    evaluate host 2 (.DIVIDE .INPUT (.IDENTIFIER "y")) (.root []) world =
      .throw (.undefinedVariable "y", .root [], world) ∧
    evaluate host 2 (.SUBTRACT (.IDENTIFIER "y") .INPUT) (.root []) world =
      .throw (.undefinedVariable "y", .root [], world) ∧
    evaluate host 2 (.SUBTRACT .INPUT (.IDENTIFIER "y")) (.root []) world =
      .throw (.undefinedVariable "y", .root [],
        { world with inputCalls := world.inputCalls ++ [inputPrompt] }) := by
  refine ⟨?_, ?_, ?_, ?_, ?_, ?_, ?_, ?_, ?_, ?_⟩
  · intro e env1 world1 h
    rw [evaluate, h]
  · intro env1 world1 h
    rw [evaluate, h]
    simp [Value.strictEquals]
  · intro r env1 world1 h hr
    have hz : r.strictEquals (.number (.finite 0)) = false := by
      cases hb : r.strictEquals (.number (.finite 0)) with
      | false => rfl
      | true => exact absurd ((strictEquals_zero r).1 hb) hr
    constructor
    · intro e env2 world2 hl
      rw [evaluate, h]
      simp only [hz, hl]
      rfl
    · intro l env2 world2 hl
      rw [evaluate, h]
      simp only [hz, hl]
      rfl
  · intro e env1 world1 h
    refine ⟨?_, ?_, ?_⟩ <;> rw [evaluate, evalBinary, h]
  · intro l env1 world1 h
    constructor
    · intro e env2 world2 hr
      refine ⟨?_, ?_, ?_⟩ <;> rw [evaluate, evalBinary, h] <;> simp only [hr]
    · intro r env2 world2 hr
      refine ⟨?_, ?_, ?_⟩ <;> rw [evaluate, evalBinary, h] <;> simp only [hr]
  · simp [evaluate, Value.strictEquals]
  · simp [evaluate, Value.strictEquals]
  · simp [evaluate, Environment.get, Variables.get]
  · simp [evaluate, evalBinary, Environment.get, Variables.get]
  · by_cases hn : host.toNumber (host.inputFn world.inputCalls.length inputPrompt) =
        JSNumber.nan <;>
      simp [evaluate, evalBinary, hn, Environment.get, Variables.get]

theorem divide_evaluates_right_operand_first_witness :
    evaluate exampleHost 1 (.INTEGER (.finite 0)) (.root []) World.initial =
      .ok (.number (.finite 0), .root [], World.initial) ∧
    evaluate exampleHost (1 + 1) (.DIVIDE (.IDENTIFIER "y") (.INTEGER (.finite 0))) (.root [])
        World.initial =
      .throw (.divisionByZero, .root [], World.initial) ∧
    evaluate exampleHost 1 (.IDENTIFIER "y") (.root []) World.initial =
      .throw (.undefinedVariable "y", .root [], World.initial) ∧
    evaluate exampleHost (1 + 1) (.ADD (.IDENTIFIER "y") (.INTEGER (.finite 0))) (.root [])
        World.initial =
      .throw (.undefinedVariable "y", .root [], World.initial) :=
  ⟨rfl,
   (divide_evaluates_right_operand_first exampleHost 1 (.IDENTIFIER "y") (.INTEGER (.finite 0))
      (.root []) World.initial).2.1 _ _ rfl,
   rfl,
   ((divide_evaluates_right_operand_first exampleHost 1 (.IDENTIFIER "y") (.INTEGER (.finite 0))
      (.root []) World.initial).2.2.2.1 _ _ _ rfl).1⟩

end SpellCast

namespace SpellCast

/-! ## Lexer: fuel, accumulated tokens and position -/

/-- More fuel keeps the outcome of the main loop of `tokenize`. -/
theorem tokenizeLoop_stable (source : List Char) :
    ∀ (fuel i : Nat) (tokens : List Token), tokenizeLoop source fuel i tokens ≠ .outOfFuel →
      tokenizeLoop source (fuel + 1) i tokens = tokenizeLoop source fuel i tokens := by
  intro fuel
  induction fuel with
  | zero => intro i tokens h; exact absurd rfl h
  | succ fuel ih =>
    intro i tokens
    rw [tokenizeLoop, tokenizeLoop]
    split
    · exact fun _ => rfl
    · dsimp only
      split_ifs
      all_goals first
        | exact ih _ _
        | exact fun _ => rfl

theorem tokenizeLoop_more_fuel (source : List Char) (fuel i : Nat) (tokens : List Token)
    (h : tokenizeLoop source fuel i tokens ≠ .outOfFuel) :
    ∀ more, tokenizeLoop source (fuel + more) i tokens = tokenizeLoop source fuel i tokens := by
  intro more
  induction more with
  | zero => rfl
  | succ more ih =>
    rw [← Nat.add_assoc, tokenizeLoop_stable source (fuel + more) i tokens (by rw [ih]; exact h),
      ih]

/-- The tokens pushed before the loop is entered stay in front of its result. -/
theorem tokenizeLoop_accumulate (source : List Char) (pre : List Token) :
    ∀ (fuel i : Nat) (tokens res : List Token),
      tokenizeLoop source fuel i tokens = .ok res →
      tokenizeLoop source fuel i (pre ++ tokens) = .ok (pre ++ res) := by
  intro fuel
  induction fuel with
  | zero => intro i tokens res h; cases h
  | succ fuel ih =>
    intro i tokens res h
    rw [tokenizeLoop] at h ⊢
    split at h
    · simp only [Outcome.ok.injEq] at h ⊢
      rw [← h, List.append_assoc]
    · dsimp only at h ⊢
      split_ifs at h ⊢
      all_goals first
        | exact ih _ _ _ h
        | (rw [List.append_assoc]; exact ih _ _ _ h)

end SpellCast

namespace SpellCast

theorem getElem?_shift (p b : List Char) (i : Nat) : (p ++ b)[p.length + i]? = b[i]? := by
  rw [List.getElem?_append_right (Nat.le_add_right _ _), Nat.add_sub_cancel_left]

theorem scanWhile_shift (q : Char → Bool) (p b : List Char) (i : Nat) :
    scanWhile q (p ++ b) (p.length + i) = p.length + scanWhile q b i := by
  unfold scanWhile
  rw [List.drop_append, Nat.add_assoc]

theorem slice_shift (p b : List Char) (s j : Nat) :
    slice (p ++ b) (p.length + s) (p.length + j) = slice b s j := by
  unfold slice
  rw [List.drop_append, Nat.add_sub_add_left]

/-- The main loop of `tokenize` reads a text that stands after another text as it reads
the text alone. -/
theorem tokenizeLoop_shift (p b : List Char) :
    ∀ (fuel i : Nat) (tokens res : List Token),
      tokenizeLoop b fuel i tokens = .ok res →
      tokenizeLoop (p ++ b) fuel (p.length + i) tokens = .ok res := by
  intro fuel
  induction fuel with
  | zero => intro i tokens res h; cases h
  | succ fuel ih =>
    intro i tokens res h
    rw [tokenizeLoop] at h ⊢
    rw [getElem?_shift]
    split at h
    · exact h
    · dsimp only at h ⊢
      simp only [Nat.add_assoc, scanWhile_shift, getElem?_shift, slice_shift,
        List.length_append, Nat.add_le_add_iff_left]
      split_ifs at h ⊢
      all_goals exact ih _ _ _ h

end SpellCast

namespace SpellCast

/-! ## Lexer: a text followed by a line feed -/

theorem takeWhile_append_stop (q : Char → Bool) (c : Char) (b : List Char)
    (hq : q c = false) : ∀ x : List Char, (x ++ c :: b).takeWhile q = x.takeWhile q := by
  intro x
  induction x with
  | nil => simp [List.takeWhile_cons, hq]
  | cons y ys ih =>
    rw [List.cons_append, List.takeWhile_cons, List.takeWhile_cons, ih]

theorem takeWhile_append_inside (q : Char → Bool) (r : List Char) :
    ∀ x : List Char, (x.takeWhile q).length < x.length →
      (x ++ r).takeWhile q = x.takeWhile q := by
  intro x
  induction x with
  | nil => intro h; simp at h
  | cons y ys ih =>
    intro h
    rw [List.cons_append, List.takeWhile_cons, List.takeWhile_cons]
    rw [List.takeWhile_cons] at h
    split
    · rename_i hy
      rw [hy] at h
      simp only [if_true, List.length_cons, Nat.add_lt_add_iff_right] at h
      rw [ih h]
    · rfl

theorem scanWhile_append_stop (q : Char → Bool) (a : List Char) (c : Char) (b : List Char)
    (hq : q c = false) (i : Nat) (hi : i ≤ a.length) :
    scanWhile q (a ++ c :: b) i = scanWhile q a i := by
  unfold scanWhile
  rw [List.drop_append_of_le_length hi, takeWhile_append_stop q c b hq]

theorem scanWhile_le (q : Char → Bool) (a : List Char) (i : Nat) (hi : i ≤ a.length) :
    scanWhile q a i ≤ a.length := by
  unfold scanWhile
  have h1 : ((a.drop i).takeWhile q).length ≤ (a.drop i).length :=
    List.IsPrefix.length_le ( List.takeWhile_prefix q)
  rw [List.length_drop] at h1
  omega

theorem scanWhile_append_inside (q : Char → Bool) (a r : List Char) (i : Nat)
    (hi : i ≤ a.length) (h : scanWhile q a i < a.length) :
    scanWhile q (a ++ r) i = scanWhile q a i := by
  unfold scanWhile at h ⊢
  rw [List.drop_append_of_le_length hi, takeWhile_append_inside q r]
  rw [List.length_drop]
  omega

theorem slice_append_left (a r : List Char) (s j : Nat) (hs : s ≤ a.length)
    (hj : j ≤ a.length) : slice (a ++ r) s j = slice a s j := by
  unfold slice
  rw [List.drop_append_of_le_length hs, List.take_append_of_le_length]
  rw [List.length_drop]
  omega

theorem getElem?_line (a b : List Char) (j : Nat) (hj : j ≤ a.length) :
    (a ++ '\n' :: b)[j]? = if j < a.length then a[j]? else some '\n' := by
  split_ifs with h
  · exact List.getElem?_append_left h
  · have hja : j = a.length := by omega
    subst hja
    rw [List.getElem?_append_right (Nat.le_refl _)]
    simp

theorem dot_line_iff (a b : List Char) (j : Nat) (hj : j ≤ a.length) :
    (a ++ '\n' :: b)[j]? = some '.' ↔ a[j]? = some '.' := by
  rw [getElem?_line a b j hj]
  split_ifs with h
  · exact Iff.rfl
  · rw [List.getElem?_eq_none (by omega)]
    constructor
    · intro hh
      exact absurd hh (by decide)
    · intro hh
      cases hh

theorem digit_line_eq (a b : List Char) (j : Nat) (hj : j ≤ a.length) :
    ((a ++ '\n' :: b)[j]?).any isDigit = (a[j]?).any isDigit := by
  rw [getElem?_line a b j hj]
  split_ifs with h
  · rfl
  · rw [List.getElem?_eq_none (by omega)]
    decide

end SpellCast

namespace SpellCast

/-- The main loop of `tokenize` on a text followed by a line feed and a second text:
as long as the cursor is in the first text the loop does what it does on the first text
alone, and it reaches the line feed with the tokens of the first text. -/
theorem tokenizeLoop_before_line (a b : List Char) :
    ∀ (fuel i : Nat) (tokens res : List Token), i ≤ a.length →
      tokenizeLoop a fuel i tokens = .ok res →
      ∃ init k, res = init ++ [eofToken] ∧
        ∀ more, tokenizeLoop (a ++ '\n' :: b) (k + more) i tokens =
          tokenizeLoop (a ++ '\n' :: b) more a.length init := by
  intro fuel
  induction fuel with
  | zero => intro i tokens res _ h; cases h
  | succ fuel ih =>
    intro i tokens res hi h
    rw [tokenizeLoop] at h
    split at h
    · rename_i hn
      have hia : i = a.length := by
        by_contra hne
        rw [List.getElem?_eq_getElem (by omega)] at hn
        cases hn
      subst hia
      simp only [Outcome.ok.injEq] at h
      exact ⟨tokens, 0, h.symm, fun more => by rw [Nat.zero_add]⟩
    · rename_i c hc
      have hlt := lt_length_of_getElem? hc
      have hS : (a ++ '\n' :: b)[i]? = some c := by
        rw [List.getElem?_append_left hlt]
        exact hc
      have step : ∀ (i2 : Nat) (tokens2 : List Token), i2 ≤ a.length →
          tokenizeLoop a fuel i2 tokens2 = .ok res →
          (∀ more, tokenizeLoop (a ++ '\n' :: b) (more + 1) i tokens =
            tokenizeLoop (a ++ '\n' :: b) more i2 tokens2) →
          ∃ init k, res = init ++ [eofToken] ∧
            ∀ more, tokenizeLoop (a ++ '\n' :: b) (k + more) i tokens =
              tokenizeLoop (a ++ '\n' :: b) more a.length init := by
        intro i2 tokens2 hi2 h2 hstep
        obtain ⟨init, k, hres, hrun⟩ := ih i2 tokens2 res hi2 h2
        refine ⟨init, k + 1, hres, fun more => ?_⟩
        rw [show k + 1 + more = (k + more) + 1 by omega, hstep, hrun]
      dsimp only at h
      split_ifs at h with h1 h2 h3 h4 h5 h6 h7 h8 h9
      · refine step (i + 1) tokens (by omega) h (fun more => ?_)
        rw [tokenizeLoop, hS]
        dsimp only
        rw [if_pos h1]
      · refine step _ tokens (scanWhile_le _ a i hi) h (fun more => ?_)
        rw [tokenizeLoop, hS]
        dsimp only
        rw [if_neg h1, if_pos h2, scanWhile_append_stop _ a '\n' b (by decide) i hi]
      · have hj : scanWhile (fun x => x != c) a (i + 1) < a.length := by omega
        refine step _ _ (by omega) h (fun more => ?_)
        rw [tokenizeLoop, hS]
        dsimp only
        rw [if_neg h1, if_neg h2, if_pos h3,
          scanWhile_append_inside _ a ('\n' :: b) (i + 1) (by omega) hj,
          if_neg (by rw [List.length_append]; omega),
          slice_append_left a _ (i + 1) _ (by omega) (by omega)]
      · have hj := scanWhile_le isDigit a i hi
        have hjlt : scanWhile isDigit a i < a.length := lt_length_of_getElem? h6
        have hk := scanWhile_le isDigit a (scanWhile isDigit a i + 1) (by omega)
        refine step _ _ hk h (fun more => ?_)
        rw [tokenizeLoop, hS]
        dsimp only
        rw [if_neg h1, if_neg h2, if_neg h3, if_pos h5,
          scanWhile_append_stop _ a '\n' b (by decide) i hi,
          if_pos ((dot_line_iff a b _ hj).2 h6),
          digit_line_eq a b _ (by omega), if_pos h7,
          scanWhile_append_stop _ a '\n' b (by decide) _ (by omega),
          slice_append_left a _ i _ hi hk]
      · have hj := scanWhile_le isDigit a i hi
        have hjlt : scanWhile isDigit a i < a.length := lt_length_of_getElem? h6
        refine step _ _ hj h (fun more => ?_)
        rw [tokenizeLoop, hS]
        dsimp only
        rw [if_neg h1, if_neg h2, if_neg h3, if_pos h5,
          scanWhile_append_stop _ a '\n' b (by decide) i hi,
          if_pos ((dot_line_iff a b _ hj).2 h6),
          digit_line_eq a b _ (by omega), if_neg h7,
          slice_append_left a _ i _ hi hj]
      · have hj := scanWhile_le isDigit a i hi
        refine step _ _ hj h (fun more => ?_)
        rw [tokenizeLoop, hS]
        dsimp only
        rw [if_neg h1, if_neg h2, if_neg h3, if_pos h5,
          scanWhile_append_stop _ a '\n' b (by decide) i hi,
          if_neg (fun hh => h6 ((dot_line_iff a b _ hj).1 hh)),
          slice_append_left a _ i _ hi hj]
      · have hj := scanWhile_le isAlnum a i hi
        refine step _ _ hj h (fun more => ?_)
        rw [tokenizeLoop, hS]
        dsimp only
        rw [if_neg h1, if_neg h2, if_neg h3, if_neg h5, if_pos h8,
          scanWhile_append_stop _ a '\n' b (by decide) i hi,
          slice_append_left a _ i _ hi hj]
      · refine step (i + 1) _ (by omega) h (fun more => ?_)
        rw [tokenizeLoop, hS]
        dsimp only
        rw [if_neg h1, if_neg h2, if_neg h3, if_neg h5, if_neg h8, if_pos h9]

end SpellCast

namespace SpellCast

/-- The main loop of `tokenize`, entered at the start of a first text with fuel to
spare, returns the tokens of the first text without EOF followed by the tokens of the
second text, when a line feed stands between the two texts. -/
theorem tokenizeLoop_across_line (a b : List Char) (ta tb : List Token)
    (ha : tokenizeLoop a (a.length + 1) 0 [] = .ok ta)
    (hb : tokenizeLoop b (b.length + 1) 0 [] = .ok tb) :
    tokenizeLoop (a ++ '\n' :: b) ((a ++ '\n' :: b).length + 1) 0 [] =
      .ok (ta.dropLast ++ tb) := by
  obtain ⟨init, k, hres, hrun⟩ :=
    tokenizeLoop_before_line a b _ 0 [] ta (Nat.zero_le _) ha
  have hinit : ta.dropLast = init := by rw [hres, List.dropLast_concat]
  have hb2 := tokenizeLoop_accumulate b init _ 0 [] tb hb
  have hb3 := tokenizeLoop_shift (a ++ ['\n']) b _ 0 _ _ hb2
  rw [List.append_assoc, List.singleton_append, List.append_nil, Nat.add_zero,
    List.length_append, List.length_singleton] at hb3
  have hline : (a ++ '\n' :: b)[a.length]? = some '\n' := by
    rw [List.getElem?_append_right (Nat.le_refl _)]
    simp
  have hstep : tokenizeLoop (a ++ '\n' :: b) (b.length + 1 + 1) a.length init =
      .ok (init ++ tb) := by
    rw [tokenizeLoop, hline]
    dsimp only
    rw [if_pos (by decide), hb3]
  have hall : tokenizeLoop (a ++ '\n' :: b) (k + (b.length + 1 + 1)) 0 [] =
      .ok (init ++ tb) := by
    rw [hrun, hstep]
  have hterm := tokenizeLoop_terminates (a ++ '\n' :: b) ((a ++ '\n' :: b).length + 1) 0 []
    (Nat.succ_pos _) (by omega)
  have h1 := tokenizeLoop_more_fuel (a ++ '\n' :: b) _ 0 [] hterm (k + (b.length + 1 + 1))
  have h2 := tokenizeLoop_more_fuel (a ++ '\n' :: b) (k + (b.length + 1 + 1)) 0 []
    (by rw [hall]; exact fun hh => Outcome.noConfusion hh) ((a ++ '\n' :: b).length + 1)
  rw [Nat.add_comm] at h2
  rw [hinit, ← h1, h2, hall]

/-- C26: when `tokenize` succeeds on the texts `a` and `b`, it succeeds on `a`, a line
feed and `b`, and returns the tokens of `a` without their final EOF token followed by
the tokens of `b`. -/
theorem tokenize_across_line (a b : String) (ta tb : List Token)
    (ha : tokenize a = .ok ta) (hb : tokenize b = .ok tb) :
    tokenize (a ++ "\n" ++ b) = .ok (ta.dropLast ++ tb) := by
  unfold tokenize at ha hb ⊢
  have hdata : (a ++ "\n" ++ b).data = a.data ++ '\n' :: b.data := by
    simp [String.data_append]
  rw [hdata]
  exact tokenizeLoop_across_line a.data b.data ta tb ha hb

theorem tokenize_across_line_witness :
    tokenize "shout the many cries of x # a comment" =
      .ok (keywordTokens "shout the many cries of x" ++ [eofToken]) ∧
    tokenize "set the power of x to 1.5" =
      .ok (keywordTokens "set the power of x to" ++ [⟨.FLOAT, "1.5"⟩, eofToken]) ∧
    tokenize ("shout the many cries of x # a comment" ++ "\n" ++ "set the power of x to 1.5") =
      .ok ((keywordTokens "shout the many cries of x" ++ [eofToken]).dropLast ++
        (keywordTokens "set the power of x to" ++ [⟨.FLOAT, "1.5"⟩, eofToken])) :=
  ⟨by decide, by decide,
   tokenize_across_line _ _ _ _ (by decide) (by decide)⟩

end SpellCast

namespace SpellCast
open Parser

/-! ## Parser: the cursor stays inside the token array -/

theorem Parser.cursorInside_bind {α β : Type} (tokens : List Token) (cursor : α → Nat)
    (cursor2 : β → Nat) {x : Outcome ParseError α} {f : α → Outcome ParseError β}
    (hx : cursorInside tokens cursor x)
    (hf : ∀ a, cursor a < tokens.length → cursorInside tokens cursor2 (f a)) :
    cursorInside tokens cursor2 (x >>= f) := by
  cases x with
  | ok a => exact hf a hx
  | throw e => exact hx
  | outOfFuel => exact True.intro

theorem Parser.cursorInside_ite {α : Type} (tokens : List Token) (cursor : α → Nat)
    {c : Prop} [Decidable c] {a b : Outcome ParseError α}
    (ha : c → cursorInside tokens cursor a) (hb : ¬c → cursorInside tokens cursor b) :
    cursorInside tokens cursor (if c then a else b) := by
  split_ifs with h
  · exact ha h
  · exact hb h

/-- A cursor inside the array reads a token. -/
theorem Parser.peek_of_lt {tokens : List Token} {c : Nat} (hc : c < tokens.length) :
    ∃ t, peek tokens c = some t :=
  ⟨tokens[c], List.getElem?_eq_getElem hc⟩

theorem Parser.peek_none_absurd {tokens : List Token} {c : Nat} (h : peek tokens c = none)
    (hc : c < tokens.length) : False := by
  obtain ⟨t, ht⟩ := peek_of_lt hc
  rw [h] at ht
  cases ht

/-- When `checkVal` holds the cursor is on an IDENTIFIER token of that text. -/
theorem Parser.token_of_checkVal {tokens : List Token} {c : Nat} {val : String}
    (h : checkVal tokens c val = true) :
    ∃ t, tokens[c]? = some t ∧ t.kind = .IDENTIFIER ∧ t.text = val := by
  unfold checkVal at h
  split_ifs at h
  unfold peek at h
  cases ht : tokens[c]? with
  | none => rw [ht] at h; cases h
  | some t =>
    rw [ht] at h
    simp only [Bool.and_eq_true, beq_iff_eq] at h
    exact ⟨t, rfl, h.1, h.2⟩

/-- When `check` holds the cursor is on a token of that kind. -/
theorem Parser.token_of_check {tokens : List Token} {c : Nat} {kind : TokenKind}
    (h : check tokens c kind = true) : ∃ t, tokens[c]? = some t ∧ t.kind = kind := by
  unfold check at h
  split_ifs at h
  unfold peek at h
  cases ht : tokens[c]? with
  | none => rw [ht] at h; cases h
  | some t =>
    rw [ht] at h
    simp only [beq_iff_eq] at h
    exact ⟨t, rfl, h⟩

/-- In an array whose last token is of kind EOF, a token of another kind is followed by
a token. -/
theorem Parser.next_inside {tokens body : List Token} {last : Token}
    (htokens : tokens = body ++ [last]) (hlast : last.kind = .EOF) {c : Nat} {t : Token}
    (ht : tokens[c]? = some t) (hkind : t.kind ≠ .EOF) : c + 1 < tokens.length := by
  subst htokens
  have hc : c < (body ++ [last]).length := by
    by_contra hn
    rw [List.getElem?_eq_none (by omega)] at ht
    cases ht
  simp only [List.length_append, List.length_singleton] at hc ⊢
  by_contra hn
  have hcb : c = body.length := by omega
  subst hcb
  rw [List.getElem?_append_right (Nat.le_refl _)] at ht
  simp only [Nat.sub_self, List.getElem?_cons_zero, Option.some.injEq] at ht
  exact hkind (ht ▸ hlast)

end SpellCast

namespace SpellCast
open Parser

theorem Parser.advance_of_checkVal {tokens : List Token}
    (hnext : ∀ c t, tokens[c]? = some t → t.kind ≠ .EOF → c + 1 < tokens.length)
    {c : Nat} {val : String} (h : checkVal tokens c val = true) :
    (advance tokens c).2 = c + 1 ∧ c + 1 < tokens.length := by
  obtain ⟨t, ht, hk, _⟩ := token_of_checkVal h
  rw [advance_of_token ht]
  exact ⟨rfl, hnext c t ht (by rw [hk]; decide)⟩

theorem Parser.advance_of_check {tokens : List Token}
    (hnext : ∀ c t, tokens[c]? = some t → t.kind ≠ .EOF → c + 1 < tokens.length)
    {c : Nat} {kind : TokenKind} (h : check tokens c kind = true) (hkind : kind ≠ .EOF) :
    ∃ t, advance tokens c = (some t, c + 1) ∧ t.kind ≠ .EOF ∧ c + 1 < tokens.length := by
  obtain ⟨t, ht, hk⟩ := token_of_check h
  rw [advance_of_token ht]
  exact ⟨t, rfl, by rw [hk]; exact hkind, hnext c t ht (by rw [hk]; exact hkind)⟩

theorem Parser.advance_lt_of_checkVal {tokens : List Token}
    (hnext : ∀ c t, tokens[c]? = some t → t.kind ≠ .EOF → c + 1 < tokens.length)
    {c : Nat} {val : String} (h : checkVal tokens c val = true) :
    (advance tokens c).2 < tokens.length := by
  rw [(advance_of_checkVal hnext h).1]
  exact (advance_of_checkVal hnext h).2

theorem Parser.consumeKeywordList_inside {tokens : List Token}
    (hnext : ∀ c t, tokens[c]? = some t → t.kind ≠ .EOF → c + 1 < tokens.length)
    (words : List String) :
    ∀ c, c < tokens.length → cursorInside tokens id (consumeKeywordList tokens words c) := by
  induction words with
  | nil => intro c hc; exact hc
  | cons w ws ih =>
    intro c hc
    rw [consumeKeywordList]
    split_ifs with h
    · exact ih _ (advance_lt_of_checkVal hnext h)
    · obtain ⟨t, ht⟩ := peek_of_lt hc
      rw [ht]
      exact fun hh => ParseError.noConfusion hh

theorem Parser.consumeKeywords_inside {tokens : List Token}
    (hnext : ∀ c t, tokens[c]? = some t → t.kind ≠ .EOF → c + 1 < tokens.length)
    (phrase : String) (c : Nat) (hc : c < tokens.length) :
    cursorInside tokens id (consumeKeywords tokens phrase c) :=
  consumeKeywordList_inside hnext _ c hc

theorem Parser.matchToken_inside {tokens : List Token}
    (hnext : ∀ c t, tokens[c]? = some t → t.kind ≠ .EOF → c + 1 < tokens.length)
    (kind : TokenKind) (val : Option String) (hkind : val = none → kind ≠ .EOF)
    (c : Nat) (hc : c < tokens.length) :
    cursorInside tokens id (matchToken tokens c kind val) := by
  obtain ⟨t, ht⟩ := peek_of_lt hc
  cases val with
  | some v =>
    simp only [matchToken]
    split_ifs with h
    · exact advance_lt_of_checkVal hnext h
    · rw [ht]
      exact fun hh => ParseError.noConfusion hh
  | none =>
    simp only [matchToken]
    split_ifs with h
    · obtain ⟨t2, h2, _, h3⟩ := advance_of_check hnext h (hkind rfl)
      rw [h2]
      exact h3
    · rw [ht]
      exact fun hh => ParseError.noConfusion hh

theorem Parser.literal_inside {tokens : List Token}
    (hnext : ∀ c t, tokens[c]? = some t → t.kind ≠ .EOF → c + 1 < tokens.length)
    {c : Nat} {kind : TokenKind} (build : String → Node)
    (h : check tokens c kind = true) (hkind : kind ≠ .EOF) :
    cursorInside tokens Prod.snd (literal tokens c build) := by
  obtain ⟨t, h2, _, h3⟩ := advance_of_check hnext h hkind
  rw [literal, h2]
  exact h3

theorem Parser.parsePrimary_inside {tokens : List Token}
    (hnext : ∀ c t, tokens[c]? = some t → t.kind ≠ .EOF → c + 1 < tokens.length) :
    ∀ fuel c, c < tokens.length → cursorInside tokens Prod.snd (parsePrimary tokens fuel c) := by
  intro fuel
  induction fuel with
  | zero => intro c _; exact True.intro
  | succ fuel ih =>
    intro c hc
    rw [parsePrimary]
    repeat' first
      | exact ih _ (by assumption)
      | exact ih _ (advance_lt_of_checkVal hnext (by assumption))
      | exact literal_inside hnext _ (by assumption) (by decide)
      | exact consumeKeywords_inside hnext _ _ (by assumption)
      | exact consumeKeywords_inside hnext _ _ (advance_lt_of_checkVal hnext (by assumption))
      | (show _ < _; assumption)
      | refine cursorInside_ite tokens Prod.snd ?_ ?_
      | refine cursorInside_bind tokens id Prod.snd ?_ ?_
      | refine cursorInside_bind tokens Prod.snd Prod.snd ?_ ?_
      | intro (a : ℕ) (ha : _ < _)
      | (rintro ⟨_, _⟩ (ha : _ < _); dsimp only at ha ⊢)
      | intro (h : _ = true)
      | intro (h : ¬ _ = true)
      | (split
         · exact fun hh => ParseError.noConfusion hh
         · exact (peek_none_absurd (by assumption) (by assumption)).elim)

end SpellCast

namespace SpellCast
open Parser

theorem Parser.parsePrintStatement_inside {tokens : List Token}
    (hnext : ∀ c t, tokens[c]? = some t → t.kind ≠ .EOF → c + 1 < tokens.length)
    (fuel c : Nat) (hc : c < tokens.length) :
    cursorInside tokens Prod.snd (parsePrintStatement tokens fuel c) := by
  unfold parsePrintStatement parseExpression
  repeat' first
    | exact parsePrimary_inside hnext _ _ (by assumption)
    | exact consumeKeywords_inside hnext _ _ (by assumption)
    | (show _ < _; assumption)
    | refine cursorInside_bind tokens id Prod.snd ?_ ?_
    | refine cursorInside_bind tokens Prod.snd Prod.snd ?_ ?_
    | intro (a : ℕ) (ha : _ < _)
    | (rintro ⟨_, _⟩ (ha : _ < _); dsimp only at ha ⊢)

theorem Parser.parseCreateStatement_inside {tokens : List Token}
    (hnext : ∀ c t, tokens[c]? = some t → t.kind ≠ .EOF → c + 1 < tokens.length)
    (fuel c : Nat) (hc : c < tokens.length) :
    cursorInside tokens Prod.snd (parseCreateStatement tokens fuel c) := by
  unfold parseCreateStatement parseExpression
  repeat' first
    | exact parsePrimary_inside hnext _ _ (by assumption)
    | exact consumeKeywords_inside hnext _ _ (by assumption)
    | (show _ < _; assumption)
    | exact fun hh => ParseError.noConfusion hh
    | refine cursorInside_ite tokens Prod.snd ?_ ?_
    | refine cursorInside_bind tokens id Prod.snd ?_ ?_
    | refine cursorInside_bind tokens Prod.snd Prod.snd ?_ ?_
    | intro (a : ℕ) (ha : _ < _)
    | (rintro ⟨_, _⟩ (ha : _ < _); dsimp only at ha ⊢)
    | intro (h : _ = true)
    | intro (h : ¬ _ = true)

theorem Parser.parseSetStatement_inside {tokens : List Token}
    (hnext : ∀ c t, tokens[c]? = some t → t.kind ≠ .EOF → c + 1 < tokens.length)
    (fuel c : Nat) (hc : c < tokens.length) :
    cursorInside tokens Prod.snd (parseSetStatement tokens fuel c) := by
  unfold parseSetStatement parseExpression
  repeat' first
    | exact parsePrimary_inside hnext _ _ (by assumption)
    | exact consumeKeywords_inside hnext _ _ (by assumption)
    | (show _ < _; assumption)
    | exact fun hh => ParseError.noConfusion hh
    | refine cursorInside_ite tokens Prod.snd ?_ ?_
    | refine cursorInside_bind tokens id Prod.snd ?_ ?_
    | refine cursorInside_bind tokens Prod.snd Prod.snd ?_ ?_
    | intro (a : ℕ) (ha : _ < _)
    | (rintro ⟨_, _⟩ (ha : _ < _); dsimp only at ha ⊢)
    | intro (h : _ = true)
    | intro (h : ¬ _ = true)

/-- The five functions of the statement level keep the cursor inside the array. -/
theorem Parser.statement_level_inside {tokens : List Token}
    (hnext : ∀ c t, tokens[c]? = some t → t.kind ≠ .EOF → c + 1 < tokens.length) :
    ∀ fuel,
      (∀ c, c < tokens.length → cursorInside tokens Prod.snd (parseStatement tokens fuel c)) ∧
      (∀ c block, c < tokens.length →
        cursorInside tokens Prod.snd (parseBlockLoop tokens fuel c block)) ∧
      (∀ c, c < tokens.length → cursorInside tokens Prod.snd (parseBlock tokens fuel c)) ∧
      (∀ c, c < tokens.length →
        cursorInside tokens Prod.snd (parseIfStatement tokens fuel c)) ∧
      (∀ c, c < tokens.length →
        cursorInside tokens Prod.snd (parseWhileStatement tokens fuel c)) := by
  intro fuel
  induction fuel with
  | zero =>
    exact ⟨fun _ _ => True.intro, fun _ _ _ => True.intro, fun _ _ => True.intro,
      fun _ _ => True.intro, fun _ _ => True.intro⟩
  | succ fuel ih =>
    obtain ⟨ih1, ih2, ih3, ih4, ih5⟩ := ih
    refine ⟨?_, ?_, ?_, ?_, ?_⟩
    · intro c hc
      rw [parseStatement]
      repeat' first
        | exact ih4 _ (by assumption)
        | exact ih5 _ (by assumption)
        | exact parsePrintStatement_inside hnext _ _ (by assumption)
        | exact parseCreateStatement_inside hnext _ _ (by assumption)
        | exact parseSetStatement_inside hnext _ _ (by assumption)
        | (show _ < _; assumption)
        | refine cursorInside_ite tokens Prod.snd ?_ ?_
        | refine cursorInside_bind tokens Prod.snd Prod.snd ?_ ?_
        | (rintro ⟨_, _⟩ (ha : _ < _); dsimp only at ha ⊢)
        | intro (h : _ = true)
        | intro (h : ¬ _ = true)
    · intro c block hc
      rw [parseBlockLoop]
      repeat' first
        | exact ih1 _ (by assumption)
        | exact ih2 _ _ (by assumption)
        | (show _ < _; assumption)
        | refine cursorInside_ite tokens Prod.snd ?_ ?_
        | refine cursorInside_bind tokens Prod.snd Prod.snd ?_ ?_
        | (rintro ⟨_, _⟩ (ha : _ < _); dsimp only at ha ⊢)
        | intro (h : _ = true)
        | intro (h : ¬ _ = true)
    · intro c hc
      rw [parseBlock]
      refine cursorInside_bind tokens id Prod.snd (consumeKeywords_inside hnext _ _ hc) ?_
      intro a ha
      exact ih2 _ _ ha
    · intro c hc
      rw [parseIfStatement]
      unfold parseExpression
      repeat' first
        | exact ih3 _ (by assumption)
        | exact ih3 _ (advance_lt_of_checkVal hnext (by assumption))
        | exact parsePrimary_inside hnext _ _ (by assumption)
        | exact consumeKeywords_inside hnext _ _ (by assumption)
        | exact matchToken_inside hnext _ _ (fun hh => Option.noConfusion hh) _ (by assumption)
        | (show _ < _; assumption)
        | refine cursorInside_ite tokens Prod.snd ?_ ?_
        | refine cursorInside_bind tokens id Prod.snd ?_ ?_
        | refine cursorInside_bind tokens Prod.snd Prod.snd ?_ ?_
        | intro (a : ℕ) (ha : _ < _)
        | (rintro ⟨_, _⟩ (ha : _ < _); dsimp only at ha ⊢)
        | intro (h : _ = true)
        | intro (h : ¬ _ = true)
    · intro c hc
      rw [parseWhileStatement]
      unfold parseExpression
      repeat' first
        | exact ih3 _ (by assumption)
        | exact parsePrimary_inside hnext _ _ (by assumption)
        | exact consumeKeywords_inside hnext _ _ (by assumption)
        | exact matchToken_inside hnext _ _ (fun hh => Option.noConfusion hh) _ (by assumption)
        | (show _ < _; assumption)
        | refine cursorInside_bind tokens id Prod.snd ?_ ?_
        | refine cursorInside_bind tokens Prod.snd Prod.snd ?_ ?_
        | intro (a : ℕ) (ha : _ < _)
        | (rintro ⟨_, _⟩ (ha : _ < _); dsimp only at ha ⊢)

/-- The loop of `parse` does not read outside the array. -/
theorem Parser.parseLoop_inside {tokens : List Token}
    (hnext : ∀ c t, tokens[c]? = some t → t.kind ≠ .EOF → c + 1 < tokens.length) :
    ∀ fuel c program, c < tokens.length →
      parseLoop tokens fuel c program ≠ .throw .undefinedToken := by
  intro fuel
  induction fuel with
  | zero => intro c program _ h; cases h
  | succ fuel ih =>
    intro c program hc
    have hs := (statement_level_inside hnext fuel).1 c hc
    rw [parseLoop]
    split_ifs
    · cases hp : parseStatement tokens fuel c with
      | ok r =>
        obtain ⟨statement, c2⟩ := r
        rw [hp] at hs
        cases statement with
        | none => exact fun hh => Outcome.noConfusion hh
        | some s => exact ih c2 _ hs
      | throw e =>
        rw [hp] at hs
        intro hh
        cases hh
        exact hs rfl
      | outOfFuel => exact fun hh => Outcome.noConfusion hh
    · exact fun hh => Outcome.noConfusion hh

end SpellCast

namespace SpellCast
open Parser

/-- C27: in a token array whose last token is of kind EOF (as `tokenize` produces),
take any cursor below the length.  Where `check` (on a kind other than EOF) or
`checkVal` holds, the only places where the parser calls `advance`, the token under the
cursor is not of kind EOF, `advance` returns it and moves the cursor by one, to a cursor
still below the length.  `peek` reads a token there.  Every call of the parser from
there (`consumeKeywords`, `match` on an identifier, `parseExpression`,
`parseStatement`, `parseBlock`) returns a cursor below the length, or throws an error
that is not the `TypeError` of reading `peek()` outside the array; and neither does
`parse` throw that error. -/
theorem cursor_stays_before_end (tokens body : List Token) (last : Token)
    (htokens : tokens = body ++ [last]) (hlast : last.kind = .EOF)
    (fuel current : Nat) (hcurrent : current < tokens.length) :
    (∀ kind, kind ≠ .EOF → check tokens current kind = true →
      ∃ t, advance tokens current = (some t, current + 1) ∧ t.kind ≠ .EOF ∧
        current + 1 < tokens.length) ∧
    (∀ val, checkVal tokens current val = true →
      ∃ t, advance tokens current = (some t, current + 1) ∧ t.kind ≠ .EOF ∧
        current + 1 < tokens.length) ∧
    (∃ t, peek tokens current = some t) ∧
    (∀ phrase, cursorInside tokens id (consumeKeywords tokens phrase current)) ∧
    (∀ val, cursorInside tokens id (matchToken tokens current .IDENTIFIER (some val))) ∧
    cursorInside tokens Prod.snd (parseExpression tokens fuel current) ∧
    cursorInside tokens Prod.snd (parseStatement tokens fuel current) ∧
    cursorInside tokens Prod.snd (parseBlock tokens fuel current) ∧
    parse fuel tokens ≠ .throw .undefinedToken := by
  have hnext : ∀ c t, tokens[c]? = some t → t.kind ≠ .EOF → c + 1 < tokens.length :=
    fun c t ht hk => next_inside htokens hlast ht hk
  have hpos : 0 < tokens.length := by omega
  refine ⟨?_, ?_, peek_of_lt hcurrent, ?_, ?_, ?_, ?_, ?_, ?_⟩
  · intro kind hkind h
    exact advance_of_check hnext h hkind
  · intro val h
    obtain ⟨t, ht, hk, _⟩ := token_of_checkVal h
    exact ⟨t, advance_of_token ht, by rw [hk]; decide, hnext _ t ht (by rw [hk]; decide)⟩
  · intro phrase
    exact consumeKeywords_inside hnext phrase current hcurrent
  · intro val
    exact matchToken_inside hnext _ _ (fun hh => Option.noConfusion hh) current hcurrent
  · exact parsePrimary_inside hnext fuel current hcurrent
  · exact (statement_level_inside hnext fuel).1 current hcurrent
  · exact (statement_level_inside hnext fuel).2.2.1 current hcurrent
  · exact parseLoop_inside hnext fuel 0 [] hpos

theorem cursor_stays_before_end_witness :
    ifElseTokens = ifElseTokens.dropLast ++ [eofToken] ∧ eofToken.kind = .EOF ∧
    19 < ifElseTokens.length ∧
    cursorInside ifElseTokens Prod.snd (parseStatement ifElseTokens 8 19) ∧
    parse 8 ifElseTokens ≠ .throw .undefinedToken :=
  ⟨by decide, rfl, by decide,
   (cursor_stays_before_end ifElseTokens ifElseTokens.dropLast eofToken (by decide) rfl 8 19
      (by decide)).2.2.2.2.2.2.1,
   (cursor_stays_before_end ifElseTokens ifElseTokens.dropLast eofToken (by decide) rfl 8 19
      (by decide)).2.2.2.2.2.2.2.2⟩

end SpellCast
